import Mathlib

/-!
Shallow embedding of the mini-crossword generator (files
`mini_crossword_5x5.py`, `mini_crossword_6x6.py`, `mini_crossword_nyt_6x6.py`).

Conventions of the embedding:
* Python grid cells hold `None` (block), `""` (empty white) or a one-letter
  string; we model them by the inductive type `Cell`.
* The global `random` module is modelled as explicit state (`Rng`): an
  abstract seeded stream of naturals together with a cursor.  `random.choice`
  picks `stream pos % len`, `random.shuffle` is the Fisher-Yates loop of
  CPython (`for i in reversed(range(1, len(x))): j = randbelow(i+1); swap`).
  Quantifying over every stream covers every seed.
* Python code that can raise (`words_by_length[L]` with a missing key,
  `random.choice([])`, the NYT `start_map[...]` lookup) is modelled with
  `Option`, `none` meaning "an exception is raised".
* List indexing out of range would raise in Python; the embedding uses
  defaulted access (`getD`) and the theorems carry the in-bounds/squareness
  hypotheses under which the two agree.
-/

namespace Crossword

/-- Direction of a slot, as the `"across"` / `"down"` strings of the source. -/
inductive Dir
  | across
  | down
deriving DecidableEq, Repr

/-- A slot record: `{"dir": d, "row": r, "col": c, "length": L}`. -/
structure Slot where
  dir : Dir
  row : Nat
  col : Nat
  length : Nat
deriving DecidableEq, Repr

/-- Default slot record used for defaulted list access. -/
def dSlot : Slot := ⟨Dir.across, 0, 0, 0⟩

/-- A grid cell: Python `None` (block), `""` (empty) or a one-letter string. -/
inductive Cell
  | block
  | empty
  | letter (c : Char)
deriving DecidableEq, Repr

abbrev Mask := List (List Bool)
abbrev Grid := List (List Cell)
abbrev Word := List Char
abbrev Words := List (Option Word)

/-- Lexicon: the Python dict mapping word length to the list of words of that
length (`build_wordlists`), as an association list with distinct keys. -/
abbrev Lexicon := List (Nat × List Word)

/-- Dict lookup `words_by_length[L]`: `none` models a `KeyError`. -/
def lexFind (lex : Lexicon) (L : Nat) : Option (List Word) :=
  (lex.find? (fun p => p.1 == L)).map (·.2)

/-- Dict lookup `words_by_length.get(L, [])` (total form used by the 6x6 and
NYT fills). -/
def lexGet (lex : Lexicon) (L : Nat) : List Word :=
  (lexFind lex L).getD []

/-- Mask access `mask[r][c]`; default `false` stands for out-of-range access
(Python would raise; theorems restrict to in-bounds use). -/
def maskGet (m : Mask) (r c : Nat) : Bool :=
  (m.getD r []).getD c false

/-- Grid access `grid[r][c]`; default `block` for out-of-range access. -/
def gridGet (g : Grid) (r c : Nat) : Cell :=
  (g.getD r []).getD c Cell.block

/-- Grid update `grid[r][c] = v` (no-op when out of range, where Python would
raise). -/
def gridSet (g : Grid) (r c : Nat) (v : Cell) : Grid :=
  g.set r ((g.getD r []).set c v)

/-- The seeded random source: an abstract stream of naturals plus a cursor.
A fixed seed fixes the stream; the cursor advances one step per draw. -/
structure Rng where
  stream : Nat → Nat
  pos : Nat

/-- Draw one value and advance the cursor. -/
def Rng.next (g : Rng) : Nat × Rng :=
  (g.stream g.pos, ⟨g.stream, g.pos + 1⟩)

/-- Model of `random.choice(l)` for nonempty `l` (indexing by the stream). -/
def randChoiceD (l : List Word) (g : Rng) : Word × Rng :=
  (l.getD (g.stream g.pos % l.length) [], ⟨g.stream, g.pos + 1⟩)

/-- Model of `random.choice(l)`: raises (`none`) on an empty list. -/
def randChoice (l : List Word) (g : Rng) : Option (Word × Rng) :=
  if l.isEmpty then none else some (randChoiceD l g)

/-- Swap two positions of a list (helper for the Fisher-Yates shuffle). -/
def swapList {α : Type} (l : List α) (i j : Nat) : List α :=
  match l.get? i, l.get? j with
  | some a, some b => (l.set i b).set j a
  | _, _ => l

/-- Fisher-Yates loop of `random.shuffle`: parameter `i` is the current index
(from `len-1` down to `1`), `j = draw % (i+1)`. -/
def shuffleGo {α : Type} : List α → Nat → Rng → List α × Rng
  | l, 0, g => (l, g)
  | l, i+1, g =>
    let v := g.stream g.pos
    shuffleGo (swapList l (i+1) (v % (i+2))) i ⟨g.stream, g.pos + 1⟩

/-- Model of `random.shuffle(l)`. -/
def randShuffle {α : Type} (l : List α) (g : Rng) : List α × Rng :=
  shuffleGo l (l.length - 1) g

/-! ## Slot extraction -/

/-- Line access with `false` (black) beyond the end. -/
def lineGet (line : List Bool) (i : Nat) : Bool :=
  line.getD i false

/-- Length of the white run starting at `c`, bounded by `n` (the inner
`while c < grid_size and mask[r][c]: c += 1` loop); `fuel` only ensures
termination and any `fuel ≥ n - c` gives the loop's value. -/
def runLen (line : List Bool) (n : Nat) : Nat → Nat → Nat
  | 0, _ => 0
  | fuel+1, c =>
    if c < n then
      if lineGet line c then runLen line n fuel (c+1) + 1 else 0
    else 0

/-- One row/column scan of `build_slots`: records `(start, length)` of every
maximal white run whose length passes `keep`, starting the scan at `c`. -/
def scanLine (keep : Nat → Bool) (line : List Bool) (n : Nat) :
    Nat → Nat → List (Nat × Nat)
  | 0, _ => []
  | fuel+1, c =>
    if c < n then
      if lineGet line c && (c == 0 || !lineGet line (c-1)) then
        let L := runLen line n n c
        (if keep L then [(c, L)] else []) ++ scanLine keep line n fuel (c + L)
      else scanLine keep line n fuel (c+1)
    else []

/-- Row `r` of a mask. -/
def rowLine (m : Mask) (r : Nat) : List Bool :=
  m.getD r []

/-- Column `c` of a mask. -/
def colLine (m : Mask) (c : Nat) : List Bool :=
  m.map (fun row => row.getD c false)

/-- Across slots: scan each row left to right. -/
def acrossSlots (keep : Nat → Bool) (m : Mask) (n : Nat) : List Slot :=
  (List.range n).flatMap fun r =>
    (scanLine keep (rowLine m r) n n 0).map fun p => ⟨Dir.across, r, p.1, p.2⟩

/-- Down slots: scan each column top to bottom. -/
def downSlots (keep : Nat → Bool) (m : Mask) (n : Nat) : List Slot :=
  (List.range n).flatMap fun c =>
    (scanLine keep (colLine m c) n n 0).map fun p => ⟨Dir.down, p.1, c, p.2⟩

/-- Slot extraction from a mask: across slots followed by down slots, as all
three Python variants emit them. -/
def slotsFromMask (keep : Nat → Bool) (m : Mask) (n : Nat) : List Slot :=
  acrossSlots keep m n ++ downSlots keep m n

/-- Length filter `WORD_MIN <= L <= WORD_MAX`. -/
def keepRange (lo hi L : Nat) : Bool :=
  decide (lo ≤ L) && decide (L ≤ hi)

/-- The 5x5 and 6x6 modules use `WORD_MIN = WORD_MAX = 5`. -/
def keep55 : Nat → Bool := keepRange 5 5

/-- The NYT variant records every maximal run (no length filter in
`build_slots_from_pattern`). -/
def keepAll : Nat → Bool := fun _ => true

/-- Mask from a pattern: `mask = [[c == "." for c in row] for row in pattern]`. -/
def patternMask (pattern : List (List Char)) : Mask :=
  pattern.map (fun row => row.map (fun ch => ch == '.'))

/-- Mask back to a pattern (`'.'` white, `'#'` black), used to re-run
`build_slots` on a refined mask. -/
def maskToPattern (m : Mask) : List (List Char) :=
  m.map (fun row => row.map (fun b => if b then '.' else '#'))

/-- `build_slots` of `mini_crossword_5x5.py` (length filter 5..5, no orphan
pruning). -/
def buildSlots5 (pattern : List (List Char)) : Mask × List Slot :=
  let m := patternMask pattern
  (m, slotsFromMask keep55 m pattern.length)

/-- `build_slots_from_pattern` of `mini_crossword_nyt_6x6.py` (records every
maximal run, no length filter). -/
def buildSlotsFromPattern (pattern : List (List Char)) : Mask × List Slot :=
  let m := patternMask pattern
  (m, slotsFromMask keepAll m pattern.length)

/-- Cell `i` of a slot (`rr = r + (i if down else 0)`, `cc = c + (i if across
else 0)`). -/
def slotCell (s : Slot) (i : Nat) : Nat × Nat :=
  (s.row + (if s.dir = Dir.down then i else 0),
   s.col + (if s.dir = Dir.across then i else 0))

/-- Does slot `s` cover cell `(r, c)`? -/
def slotCovers (s : Slot) (r c : Nat) : Bool :=
  (List.range s.length).any fun i => slotCell s i == (r, c)

/-- Is cell `(r, c)` covered by at least one slot (the `used` marking of the
6x6 `build_slots`)? -/
def coveredBy (slots : List Slot) (r c : Nat) : Bool :=
  slots.any fun s => slotCovers s r c

/-- Orphan pruning of the 6x6 `build_slots`: any white cell not used by a slot
becomes black. -/
def pruneMask (m : Mask) (n : Nat) (slots : List Slot) : Mask :=
  (List.range n).map fun r =>
    (List.range n).map fun c => maskGet m r c && coveredBy slots r c

/-- `build_slots` of `mini_crossword_6x6.py`: extract (filter 5..5), prune
orphan whites, re-extract from the cleaned mask. -/
def buildSlots6 (pattern : List (List Char)) : Mask × List Slot :=
  let n := pattern.length
  let m := patternMask pattern
  let s0 := slotsFromMask keep55 m n
  let m2 := pruneMask m n s0
  (m2, slotsFromMask keep55 m2 n)

/-! ## Numbering -/

/-- Index of the slot starting at `(r, c)` in direction `d` — the
`start_map[(row, col, dir)]` dict; the last matching index wins, as later
dict inserts overwrite earlier ones. -/
def startIdx (slots : List Slot) (r c : Nat) (d : Dir) : Option Nat :=
  ((List.range slots.length).filter fun i =>
    match slots.get? i with
    | some s => s.row == r && s.col == c && decide (s.dir = d)
    | none => false).getLast?

/-- Row-major cell order of an `n` by `n` grid. -/
def rowMajorCells (n : Nat) : List (Nat × Nat) :=
  (List.range n).flatMap fun r => (List.range n).map fun c => (r, c)

/-- Record a slot number: `slots[start_map[key]]["number"] = num` when the
key is present (`o = some index`), nothing otherwise. -/
def setNum (nums : List (Option Nat)) (o : Option Nat) (v : Nat) :
    List (Option Nat) :=
  match o with
  | some i => nums.set i (some v)
  | none => nums

/-- One cell step of the 6x6 `assign_numbers` scan: state is
`(number_grid, per-slot numbers, next number)`. -/
def assign6Step (m : Mask) (slots : List Slot)
    (st : List (List Nat) × List (Option Nat) × Nat) (p : Nat × Nat) :
    List (List Nat) × List (Option Nat) × Nat :=
  if maskGet m p.1 p.2 then
    if (startIdx slots p.1 p.2 Dir.across).isSome ||
        (startIdx slots p.1 p.2 Dir.down).isSome then
      (st.1.set p.1 ((st.1.getD p.1 []).set p.2 st.2.2),
       setNum (setNum st.2.1 (startIdx slots p.1 p.2 Dir.across) st.2.2)
         (startIdx slots p.1 p.2 Dir.down) st.2.2,
       st.2.2 + 1)
    else st
  else st

/-- `assign_numbers` of `mini_crossword_6x6.py`: numbers only cells that start
a slot of the given list. -/
def assignNumbers6 (m : Mask) (slots : List Slot) :
    List (List Nat) × List (Option Nat) :=
  let n := m.length
  let st := (rowMajorCells n).foldl (assign6Step m slots)
    (List.replicate n (List.replicate n 0), slots.map (fun _ => none), 1)
  (st.1, st.2.1)

/-- One cell step of the NYT `assign_numbers` scan: starts are derived from
the mask, and a mask-derived start with no matching slot raises `KeyError`
(`none`). -/
def assignNytStep (m : Mask) (slots : List Slot)
    (st : Option (List (List Nat) × List (Option Nat) × Nat)) (p : Nat × Nat) :
    Option (List (List Nat) × List (Option Nat) × Nat) :=
  match st with
  | none => none
  | some (ng, nums, num) =>
    if maskGet m p.1 p.2 then
      let sa := p.2 == 0 || !maskGet m p.1 (p.2 - 1)
      let sd := p.1 == 0 || !maskGet m (p.1 - 1) p.2
      if sa || sd then
        let ng2 := ng.set p.1 ((ng.getD p.1 []).set p.2 num)
        match (if sa then (startIdx slots p.1 p.2 Dir.across).map
                  (fun i => nums.set i (some num)) else some nums) with
        | none => none
        | some nums1 =>
          match (if sd then (startIdx slots p.1 p.2 Dir.down).map
                    (fun i => nums1.set i (some num)) else some nums1) with
          | none => none
          | some nums2 => some (ng2, nums2, num + 1)
      else some (ng, nums, num)
    else some (ng, nums, num)

/-- `assign_numbers` of `mini_crossword_nyt_6x6.py`. -/
def assignNumbersNyt (m : Mask) (slots : List Slot) :
    Option (List (List Nat) × List (Option Nat)) :=
  let n := m.length
  ((rowMajorCells n).foldl (assignNytStep m slots)
    (some (List.replicate n (List.replicate n 0), slots.map (fun _ => none), 1))).map
    fun st => (st.1, st.2.1)

/-! ## Fill engines -/

/-- Fresh grid (`make_blank` / `blank`): `None` on black cells, `""` on white
ones. -/
def makeBlank (m : Mask) : Grid :=
  let n := m.length
  (List.range n).map fun r => (List.range n).map fun c =>
    if maskGet m r c then Cell.empty else Cell.block

/-- The `fits` check of the 5x5 and 6x6 retry fills: for each letter position
`i` of the candidate (Python's `enumerate(word)`), the cell passes when it is
`""`, `None` or already the candidate's letter. -/
def fits (grid : Grid) (s : Slot) (w : Word) : Bool :=
  (List.range w.length).all fun i =>
    match gridGet grid (slotCell s i).1 (slotCell s i).2 with
    | Cell.empty => true
    | Cell.block => true
    | Cell.letter ch => ch == w.getD i ' '

/-- The `place` of the 5x5 and 6x6 retry fills: writes every letter of the
word into the grid. -/
def place6 (grid : Grid) (s : Slot) (w : Word) : Grid :=
  (List.range w.length).foldl
    (fun g i => gridSet g (slotCell s i).1 (slotCell s i).2
      (Cell.letter (w.getD i ' ')))
    grid

/-- The retry fills' inner `while not fits(...)` loop: redraw, bump `tries`,
abandon once `tries > max_attempts_per_slot`.  `fuel = max_attempts - tries`
mirrors the counter: the loop abandons after testing `max_attempts + 1` drawn
words and drawing one further untested word. -/
def drawLoop (grid : Grid) (s : Slot) (cands : List Word) :
    Nat → Word → Rng → Option Word × Rng
  | fuel, w, g =>
    if fits grid s w then (some w, g)
    else
      let d := randChoiceD cands g
      match fuel with
      | 0 => (none, d.2)
      | fuel+1 => drawLoop grid s cands fuel d.1 d.2

/-- One slot attempt of the 6x6 retry fill: initial draw, then the redraw
loop. -/
def tryFillSlot (grid : Grid) (s : Slot) (cands : List Word) (maxA : Nat)
    (g : Rng) : Option Word × Rng :=
  let d := randChoiceD cands g
  drawLoop grid s cands maxA d.1 d.2

/-- The per-restart slot loop of the 6x6 `fill_crossword`: `none` grid result
means the restart was abandoned (`ok = False`). -/
def fill6Slots (slots : List Slot) (lex : Lexicon) (maxA : Nat) :
    List Nat → Grid → Words → Rng → (Option Grid × Words) × Rng
  | [], grid, ws, g => ((some grid, ws), g)
  | idx :: rest, grid, ws, g =>
    let slot := slots.getD idx dSlot
    let cands := lexGet lex slot.length
    if cands.isEmpty then ((none, ws), g)
    else
      match tryFillSlot grid slot cands maxA g with
      | (none, g2) => ((none, ws), g2)
      | (some w, g2) =>
        fill6Slots slots lex maxA rest (place6 grid slot w) (ws.set idx (some w)) g2

/-- The restart loop of the 6x6 `fill_crossword`: each restart starts from a
fresh blank grid, pops all assigned words and shuffles a new index order. -/
def fill6Loop (mask : Mask) (slots : List Slot) (lex : Lexicon) (maxA : Nat) :
    Nat → Words → Rng → (Bool × Option Grid × Words) × Rng
  | 0, ws, g => ((false, none, ws), g)
  | m+1, _ws, g =>
    let grid0 := makeBlank mask
    let ws0 : Words := List.replicate slots.length none
    let sh := randShuffle (List.range slots.length) g
    match fill6Slots slots lex maxA sh.1 grid0 ws0 sh.2 with
    | ((some gridF, wsF), g2) => ((true, some gridF, wsF), g2)
    | ((none, wsF), g2) => fill6Loop mask slots lex maxA m wsF g2

/-- `fill_crossword` of `mini_crossword_6x6.py` (multi-restart randomized
retry).  The words component models the `"word"` fields of `slots_copy`. -/
def fill6 (mask : Mask) (slots : List Slot) (lex : Lexicon)
    (maxRestarts maxA : Nat) (g : Rng) : (Bool × Option Grid × Words) × Rng :=
  fill6Loop mask slots lex maxA maxRestarts (List.replicate slots.length none) g

/-- The redraw loop of the 5x5 fill: like `drawLoop`, but `random.choice` on
an empty candidate list raises (`none` result). -/
def drawLoop5 (grid : Grid) (s : Slot) (cands : List Word) :
    Nat → Word → Rng → Option (Option Word × Rng)
  | fuel, w, g =>
    if fits grid s w then some (some w, g)
    else
      match randChoice cands g with
      | none => none
      | some d =>
        match fuel with
        | 0 => some (none, d.2)
        | fuel+1 => drawLoop5 grid s cands fuel d.1 d.2

/-- The per-restart slot loop of the 5x5 `fill_crossword`.  Outer `none`
models an exception (`KeyError` on `words_by_length[L]` or `IndexError` from
`random.choice([])`); `some (none, g)` models an abandoned restart.  On
success it returns the placed words in slot order. -/
def fill5Slots (lex : Lexicon) (maxA : Nat) :
    List Slot → Grid → Rng → Option (Option (Grid × List Word) × Rng)
  | [], grid, g => some (some (grid, []), g)
  | slot :: rest, grid, g =>
    match lexFind lex slot.length with
    | none => none
    | some cands =>
      match randChoice cands g with
      | none => none
      | some d =>
        match drawLoop5 grid slot cands maxA d.1 d.2 with
        | none => none
        | some (none, g2) => some (none, g2)
        | some (some w, g2) =>
          match fill5Slots lex maxA rest (place6 grid slot w) g2 with
          | none => none
          | some (none, g3) => some (none, g3)
          | some (some gw, g3) => some (some (gw.1, w :: gw.2), g3)

/-- The restart loop of the 5x5 `fill_crossword`: shuffles a fresh copy of the
slot list each restart. -/
def fill5Loop (mask : Mask) (slots : List Slot) (lex : Lexicon) (maxA : Nat) :
    Nat → Rng → Option ((Bool × Option (Grid × List Slot × List Word)) × Rng)
  | 0, g => some ((false, none), g)
  | m+1, g =>
    let grid0 := makeBlank mask
    let sh := randShuffle slots g
    match fill5Slots lex maxA sh.1 grid0 sh.2 with
    | none => none
    | some (none, g2) => fill5Loop mask slots lex maxA m g2
    | some (some gw, g2) => some ((true, some (gw.1, sh.1, gw.2)), g2)

/-- `fill_crossword` of `mini_crossword_5x5.py`; `none` models an uncaught
exception.  On success the shuffled slot list is returned together with the
word placed on each of its slots, in order. -/
def fill5 (mask : Mask) (slots : List Slot) (lex : Lexicon)
    (maxRestarts maxA : Nat) (g : Rng) :
    Option ((Bool × Option (Grid × List Slot × List Word)) × Rng) :=
  fill5Loop mask slots lex maxA maxRestarts g

/-- The `fits` check of the NYT backtracking fill: a block cell (`None`) does
not pass (`cell not in ("", ch)`). -/
def fitsNyt (grid : Grid) (s : Slot) (w : Word) : Bool :=
  (List.range w.length).all fun i =>
    match gridGet grid (slotCell s i).1 (slotCell s i).2 with
    | Cell.empty => true
    | Cell.block => false
    | Cell.letter ch => ch == w.getD i ' ' 

/-- Known letter of slot cell `i` (`known[i]` of the NYT `backtrack`). -/
def knownAt (grid : Grid) (s : Slot) (i : Nat) : Option Char :=
  match gridGet grid (slotCell s i).1 (slotCell s i).2 with
  | Cell.letter ch => some ch
  | _ => none

/-- The NYT `place`: writes only previously-empty cells and records exactly
the cells it wrote. -/
def placeNytGo (s : Slot) (w : Word) :
    List Nat → Grid → List (Nat × Nat) → Grid × List (Nat × Nat)
  | [], g, ch => (g, ch)
  | i :: rest, g, ch =>
    let p := slotCell s i
    if gridGet g p.1 p.2 = Cell.empty then
      placeNytGo s w rest (gridSet g p.1 p.2 (Cell.letter (w.getD i ' ')))
        (ch ++ [p])
    else placeNytGo s w rest g ch

/-- The NYT `place` on a word (indices follow Python's `enumerate(word)`). -/
def placeNyt (g : Grid) (s : Slot) (w : Word) : Grid × List (Nat × Nat) :=
  placeNytGo s w (List.range w.length) g []

/-- The NYT `unplace`: resets the recorded cells to `""`. -/
def unplaceGrid : Grid → List (Nat × Nat) → Grid
  | g, [] => g
  | g, p :: rest => unplaceGrid (gridSet g p.1 p.2 Cell.empty) rest

/-- The candidate loop of the NYT `backtrack` at one slot: for each fitting
candidate, place, run the continuation (the search over the remaining slots),
and on failure undo exactly the written cells and clear the slot's word. -/
def tryEach (slot : Slot) (i : Nat)
    (k : Grid → Words → Rng → (Bool × Grid × Words) × Rng) :
    List Word → Grid → Words → Rng → (Bool × Grid × Words) × Rng
  | [], grid, ws, g => ((false, grid, ws), g)
  | w :: more, grid, ws, g =>
    if fitsNyt grid slot w then
      let pc := placeNyt grid slot w
      match k pc.1 (ws.set i (some w)) g with
      | ((true, gridF, wsF), g2) => ((true, gridF, wsF), g2)
      | ((false, gridF, wsF), g2) =>
        tryEach slot i k more (unplaceGrid gridF pc.2) (wsF.set i none) g2
    else tryEach slot i k more grid ws g

/-- The recursive `backtrack(idx)` of the NYT fill, over the remaining part
of the length-sorted index order.  The `fuel` argument only drives structural
recursion; it is initialised to the order's length, which the recursion never
exceeds, so the fuel-exhausted branch is unreachable. -/
def backtrackNyt (slots : List Slot) (lex : Lexicon) (maxA : Nat) :
    Nat → List Nat → Grid → Words → Rng → (Bool × Grid × Words) × Rng
  | _, [], grid, ws, g => ((true, grid, ws), g)
  | 0, _ :: _, grid, ws, g => ((false, grid, ws), g)
  | fuel+1, i :: rest, grid, ws, g =>
    let slot := slots.getD i dSlot
    let cands := lexGet lex slot.length
    if cands.isEmpty then ((false, grid, ws), g)
    else
      let filtered := cands.filter fun w =>
        (List.range slot.length).all fun j =>
          match knownAt grid slot j with
          | none => true
          | some ch => ch == w.getD j ' '
      let sh := randShuffle filtered g
      tryEach slot i
        (fun gr ws2 g2 => backtrackNyt slots lex maxA fuel rest gr ws2 g2)
        (sh.1.take maxA) grid ws sh.2

/-- Stable insertion into a key-sorted list: the new element goes before the
first strictly greater key, hence after all equal keys (stability). -/
def insertSorted (key : Nat → Nat) (a : Nat) : List Nat → List Nat
  | [] => [a]
  | b :: rest =>
    if key a < key b then a :: b :: rest else b :: insertSorted key a rest

/-- Stable sort by key, modelling Python's stable `sorted(..., key=...)`
(every stable sort produces the same list). -/
def sortByKey (key : Nat → Nat) : List Nat → List Nat
  | [] => []
  | a :: rest => insertSorted key a (sortByKey key rest)

/-- `fill_crossword` of `mini_crossword_nyt_6x6.py`: order slots ascending by
length (stable, like Python's `sorted`), then backtrack from a blank grid. -/
def fillNyt (mask : Mask) (slots : List Slot) (lex : Lexicon) (maxA : Nat)
    (g : Rng) : (Bool × Grid × Words) × Rng :=
  let order := sortByKey (fun a => (slots.getD a dSlot).length)
    (List.range slots.length)
  backtrackNyt slots lex maxA order.length order (makeBlank mask)
    (List.replicate slots.length none) g

/-! ## Pattern transforms (6x6 module) -/

/-- `rotate_clockwise`: output row `c`, column `r` holds `pattern[n-1-r][c]`.
Out-of-range access defaults to `' '` (Python would raise on a non-square
pattern). -/
def rotateClockwise (p : List (List Char)) : List (List Char) :=
  let n := p.length
  (List.range n).map fun c => (List.range n).map fun r =>
    (p.getD (n - 1 - r) []).getD c ' '

/-- `flip_horizontal`: reverse every row. -/
def flipHorizontal (p : List (List Char)) : List (List Char) :=
  p.map List.reverse

/-- `flip_vertical`: reverse the row order. -/
def flipVertical (p : List (List Char)) : List (List Char) :=
  p.reverse

/-- Squareness invariant of a pattern: every row has the pattern's length. -/
def IsSquare (p : List (List Char)) : Prop :=
  ∀ row ∈ p, row.length = p.length

instance (p : List (List Char)) : Decidable (IsSquare p) := by
  unfold IsSquare
  infer_instance

/-! ## Specification predicates (used only in theorem statements) -/

/-- Declarative description of a maximal white run: at least one cell, inside
the line bounds, all white, with a black cell (or the line boundary) on both
sides. -/
def IsMaxRun (line : List Bool) (n s L : Nat) : Prop :=
  1 ≤ L ∧ s + L ≤ n ∧ (∀ i, i < L → lineGet line (s + i) = true) ∧
  (s = 0 ∨ lineGet line (s - 1) = false) ∧
  (s + L = n ∨ lineGet line (s + L) = false)

instance (line : List Bool) (n s L : Nat) : Decidable (IsMaxRun line n s L) := by
  unfold IsMaxRun; infer_instance

/-- Well-formed lexicon: the bucket for length `L` holds words of length `L`. -/
def LexWF (lex : Lexicon) : Prop :=
  ∀ L w, w ∈ lexGet lex L → w.length = L

/-- Every cell of the slot is white and inside the `n` by `n` board of the
mask (`n = m.length`), as holds for slots produced by extraction. -/
def SlotWhite (m : Mask) (s : Slot) : Prop :=
  ∀ i, i < s.length →
    (slotCell s i).1 < m.length ∧ (slotCell s i).2 < m.length ∧
    maskGet m (slotCell s i).1 (slotCell s i).2 = true

instance (m : Mask) (s : Slot) : Decidable (SlotWhite m s) := by
  unfold SlotWhite
  infer_instance

/-- Every assigned word has exactly its slot's length. -/
def WordsLenOK (slots : List Slot) (ws : Words) : Prop :=
  ∀ j, j < slots.length → ∀ w, ws.getD j none = some w →
    w.length = (slots.getD j dSlot).length

/-- Every slot is assigned a word. -/
def AllAssigned (slots : List Slot) (ws : Words) : Prop :=
  ∀ j, j < slots.length → (ws.getD j none).isSome = true

/-- Every assigned word is written letter by letter on the grid. -/
def PlacedOn (slots : List Slot) (grid : Grid) (ws : Words) : Prop :=
  ∀ j, j < slots.length → ∀ w, ws.getD j none = some w →
    ∀ i, i < w.length →
      gridGet grid (slotCell (slots.getD j dSlot) i).1
        (slotCell (slots.getD j dSlot) i).2 = Cell.letter (w.getD i ' ')

/-- Crossing consistency: whenever an across slot and a down slot share a
cell, their assigned words carry the same letter there. -/
def CrossOK (slots : List Slot) (ws : Words) : Prop :=
  ∀ a b ia ib, a < slots.length → b < slots.length →
    (slots.getD a dSlot).dir = Dir.across → (slots.getD b dSlot).dir = Dir.down →
    ia < (slots.getD a dSlot).length → ib < (slots.getD b dSlot).length →
    slotCell (slots.getD a dSlot) ia = slotCell (slots.getD b dSlot) ib →
    ∀ wa wb, ws.getD a none = some wa → ws.getD b none = some wb →
    wa.getD ia ' ' = wb.getD ib ' '

/-- Block cells of the grid are exactly the black cells of the mask, over the
`n` by `n` board. -/
def BlockIffBlack (m : Mask) (grid : Grid) : Prop :=
  ∀ r c, r < m.length → c < m.length →
    (gridGet grid r c = Cell.block ↔ maskGet m r c = false)

/-- A slot is a maximal run of white cells inside the `n` by `n` board: its
start lies in bounds, all its cells are white, and the cell before the start
(if any) and the cell after the end (if any) are black. -/
def SlotMaximal (m : Mask) (n : Nat) (s : Slot) : Prop :=
  s.row < n ∧ s.col < n ∧ 1 ≤ s.length ∧
  (∀ i, i < s.length → maskGet m (slotCell s i).1 (slotCell s i).2 = true) ∧
  (match s.dir with
   | Dir.across =>
     s.col + s.length ≤ n ∧
     (s.col = 0 ∨ maskGet m s.row (s.col - 1) = false) ∧
     (s.col + s.length = n ∨ maskGet m s.row (s.col + s.length) = false)
   | Dir.down =>
     s.row + s.length ≤ n ∧
     (s.row = 0 ∨ maskGet m (s.row - 1) s.col = false) ∧
     (s.row + s.length = n ∨ maskGet m (s.row + s.length) s.col = false))

/-- Number-grid access `number_grid[r][c]` (0 beyond the board). -/
def numAt (ng : List (List Nat)) (r c : Nat) : Nat :=
  (ng.getD r []).getD c 0

/-- Does cell `p` receive a number from the 6x6 `assign_numbers` scan: it is
white and starts at least one slot of the list. -/
def isStartCell (m : Mask) (slots : List Slot) (p : Nat × Nat) : Bool :=
  maskGet m p.1 p.2 &&
    ((startIdx slots p.1 p.2 Dir.across).isSome ||
     (startIdx slots p.1 p.2 Dir.down).isSome)

/-- Row-major list of the white cells that start at least one slot of the
list (the cells numbered by the 6x6 `assign_numbers`). -/
def startCells (m : Mask) (slots : List Slot) : List (Nat × Nat) :=
  (rowMajorCells m.length).filter (isStartCell m slots)

/-! ## Concrete fixtures for witnesses and counterexamples -/

/-- All-white 5x5 pattern (the `PATTERN` of the 5x5 module). -/
def patAll5 : List (List Char) := List.replicate 5 (List.replicate 5 '.')

/-- A stream of zeros: one concrete seeded random source. -/
def rngZero : Rng := ⟨fun _ => 0, 0⟩

/-- A random source backed by a finite list of draws (zero afterwards). -/
def rngOf (l : List Nat) : Rng := ⟨fun i => l.getD i 0, 0⟩

/-! ## Lemmas about the line scanner -/

theorem runLen_zero_fuel (line : List Bool) (n c : Nat) :
    runLen line n 0 c = 0 := rfl

theorem runLen_succ_white (line : List Bool) {n c : Nat} (fuel : Nat)
    (h1 : c < n) (h2 : lineGet line c = true) :
    runLen line n (fuel+1) c = runLen line n fuel (c+1) + 1 := by
  simp [runLen, h1, h2]

theorem runLen_succ_black (line : List Bool) {n c : Nat} (fuel : Nat)
    (h2 : lineGet line c = false) :
    runLen line n (fuel+1) c = 0 := by
  by_cases h1 : c < n
  · simp [runLen, h1, h2]
  · simp [runLen, h1]

theorem runLen_oob (line : List Bool) {n c : Nat} (fuel : Nat) (h1 : ¬ c < n) :
    runLen line n fuel c = 0 := by
  cases fuel
  · rfl
  · simp [runLen, h1]

theorem runLen_spec (line : List Bool) (n : Nat) :
    ∀ fuel c, n - c ≤ fuel → c ≤ n →
      (∀ i, i < runLen line n fuel c → lineGet line (c + i) = true) ∧
      c + runLen line n fuel c ≤ n ∧
      (c + runLen line n fuel c = n ∨
        lineGet line (c + runLen line n fuel c) = false) := by
  intro fuel
  induction fuel with
  | zero =>
    intro c hf hc
    have hcn : c = n := by omega
    subst hcn
    simp [runLen_zero_fuel]
  | succ fuel ih =>
    intro c hf hc
    by_cases h1 : c < n
    · by_cases h2 : lineGet line c = true
      · have IH := ih (c+1) (by omega) (by omega)
        rw [runLen_succ_white line fuel h1 h2]
        refine ⟨?_, by omega, ?_⟩
        · intro i hi
          match i with
          | 0 => simpa using h2
          | i+1 =>
            have he : c + (i + 1) = (c + 1) + i := by omega
            rw [he]
            exact IH.1 i (by omega)
        · have he : c + (runLen line n fuel (c+1) + 1) =
              (c + 1) + runLen line n fuel (c+1) := by omega
          rw [he]
          exact IH.2.2
      · have h2f : lineGet line c = false := eq_false_of_ne_true h2
        rw [runLen_succ_black line fuel h2f]
        exact ⟨by omega, by omega, Or.inr (by simpa using h2f)⟩
    · have hcn : c = n := by omega
      subst hcn
      rw [runLen_oob line (fuel+1) h1]
      simp

theorem runLen_pos (line : List Bool) (n fuel c : Nat) (h1 : c < n)
    (h2 : lineGet line c = true) (hf : 1 ≤ fuel) :
    1 ≤ runLen line n fuel c := by
  match fuel, hf with
  | fuel+1, _ =>
    rw [runLen_succ_white line fuel h1 h2]
    omega

theorem runLen_eq (line : List Bool) (n : Nat) :
    ∀ L fuel s, n - s ≤ fuel → s + L ≤ n →
      (∀ i, i < L → lineGet line (s + i) = true) →
      (s + L = n ∨ lineGet line (s + L) = false) →
      runLen line n fuel s = L := by
  intro L
  induction L with
  | zero =>
    intro fuel s hf hsl _hw hb
    match fuel with
    | 0 => rfl
    | fuel+1 =>
      by_cases h1 : s < n
      · have hblack : lineGet line s = false := by
          rcases hb with hb | hb
          · omega
          · simpa using hb
        exact runLen_succ_black line fuel hblack
      · exact runLen_oob line (fuel+1) h1
  | succ L ih =>
    intro fuel s hf hsl hw hb
    have hs : s < n := by omega
    have hwhite : lineGet line s = true := by simpa using hw 0 (by omega)
    match fuel with
    | 0 => omega
    | fuel+1 =>
      rw [runLen_succ_white line fuel hs hwhite]
      have : runLen line n fuel (s+1) = L := by
        refine ih fuel (s+1) (by omega) (by omega) ?_ ?_
        · intro i hi
          have he : s + 1 + i = s + (i + 1) := by omega
          rw [he]
          exact hw (i+1) (by omega)
        · have he : s + 1 + L = s + (L + 1) := by omega
          rw [he]
          exact hb
      omega

theorem isMaxRun_runLen (line : List Bool) (n c : Nat) (h1 : c < n)
    (h2 : lineGet line c = true) (h3 : c = 0 ∨ lineGet line (c-1) = false) :
    IsMaxRun line n c (runLen line n n c) := by
  have hs := runLen_spec line n n c (by omega) (by omega)
  exact ⟨runLen_pos line n n c h1 h2 (by omega), hs.2.1, hs.1, h3, hs.2.2⟩

theorem isMaxRun_len_eq {line : List Bool} {n s L : Nat}
    (h : IsMaxRun line n s L) : runLen line n n s = L := by
  obtain ⟨_h1, h2, h3, _h4, h5⟩ := h
  exact runLen_eq line n L n s (by omega) h2 h3 h5

theorem scanLine_zero (keep : Nat → Bool) (line : List Bool) (n c : Nat) :
    scanLine keep line n 0 c = [] := rfl

theorem scanLine_oob (keep : Nat → Bool) (line : List Bool) {n c : Nat}
    (fuel : Nat) (h1 : ¬ c < n) : scanLine keep line n fuel c = [] := by
  cases fuel
  · rfl
  · simp [scanLine, h1]

theorem scanLine_succ_hit (keep : Nat → Bool) (line : List Bool) {n c : Nat}
    (fuel : Nat) (h1 : c < n)
    (hcond : (lineGet line c && (c == 0 || !lineGet line (c-1))) = true) :
    scanLine keep line n (fuel+1) c =
      (if keep (runLen line n n c) then [(c, runLen line n n c)] else []) ++
        scanLine keep line n fuel (c + runLen line n n c) := by
  simp [scanLine, h1, hcond]

theorem scanLine_succ_miss (keep : Nat → Bool) (line : List Bool) {n c : Nat}
    (fuel : Nat) (h1 : c < n)
    (hcond : (lineGet line c && (c == 0 || !lineGet line (c-1))) = false) :
    scanLine keep line n (fuel+1) c = scanLine keep line n fuel (c+1) := by
  simp [scanLine, h1, hcond]

theorem startCond_true {line : List Bool} {c : Nat}
    (h2a : lineGet line c = true) (h2b : c = 0 ∨ lineGet line (c-1) = false) :
    (lineGet line c && (c == 0 || !lineGet line (c-1))) = true := by
  rcases h2b with h2b | h2b
  · subst h2b
    simp [h2a]
  · simp [h2a, h2b]

theorem startCond_false {line : List Bool} {c : Nat}
    (h2 : ¬ (lineGet line c = true ∧ (c = 0 ∨ lineGet line (c-1) = false))) :
    (lineGet line c && (c == 0 || !lineGet line (c-1))) = false := by
  rcases Decidable.not_and_iff_or_not.mp h2 with h | h
  · simp [eq_false_of_ne_true h]
  · push_neg at h
    obtain ⟨ha, hb⟩ := h
    have hb2 : lineGet line (c-1) = true := by
      cases hx : lineGet line (c-1)
      · exact absurd hx hb
      · rfl
    simp [hb2, ha]

theorem scan_mem (keep : Nat → Bool) (line : List Bool) (n : Nat) :
    ∀ fuel c, n - c ≤ fuel → ∀ s L,
      ((s, L) ∈ scanLine keep line n fuel c ↔
        (c ≤ s ∧ keep L = true ∧ IsMaxRun line n s L)) := by
  intro fuel
  induction fuel with
  | zero =>
    intro c hf s L
    rw [scanLine_zero]
    simp only [List.not_mem_nil, false_iff]
    rintro ⟨hcs, _hk, h1, h2, _⟩
    omega
  | succ fuel ih =>
    intro c hf s L
    by_cases h1 : c < n
    · by_cases h2 : lineGet line c = true ∧ (c = 0 ∨ lineGet line (c-1) = false)
      · have hcond := startCond_true h2.1 h2.2
        have hmr : IsMaxRun line n c (runLen line n n c) :=
          isMaxRun_runLen line n c h1 h2.1 h2.2
        have hL0 : 1 ≤ runLen line n n c := hmr.1
        have hIH := ih (c + runLen line n n c) (by omega)
        rw [scanLine_succ_hit keep line fuel h1 hcond, List.mem_append]
        constructor
        · rintro (hin | hin)
          · by_cases hk : keep (runLen line n n c) = true
            · rw [if_pos hk] at hin
              simp only [List.mem_singleton, Prod.mk.injEq] at hin
              obtain ⟨rfl, rfl⟩ := hin
              exact ⟨le_refl _, hk, hmr⟩
            · rw [if_neg hk] at hin
              simp at hin
          · have := (hIH s L).1 hin
            exact ⟨by omega, this.2.1, this.2.2⟩
        · rintro ⟨hcs, hk, hmrs⟩
          by_cases hse : s = c
          · subst hse
            have : L = runLen line n n s := (isMaxRun_len_eq hmrs).symm
            subst this
            rw [if_pos hk]
            exact Or.inl (by simp)
          · refine Or.inr ((hIH s L).2 ⟨?_, hk, hmrs⟩)
            -- s lies at or beyond the end of the run recorded at c
            by_contra hlt
            push_neg at hlt
            have hs1 : c < s := by omega
            have hs2 : s < c + runLen line n n c := by omega
            -- the cell left of s is inside the run, hence white, contradicting
            -- the left-maximality of the run at s
            have hwl : lineGet line (s-1) = true := by
              have he : s - 1 = c + (s - 1 - c) := by omega
              rw [he]
              exact hmr.2.2.1 (s - 1 - c) (by omega)
            rcases hmrs.2.2.2.1 with h | h
            · omega
            · rw [hwl] at h
              exact Bool.true_eq_false.mp h
      · have hcond := startCond_false h2
        have hIH := ih (c + 1) (by omega)
        rw [scanLine_succ_miss keep line fuel h1 hcond, hIH s L]
        constructor
        · rintro ⟨hcs, hk, hmrs⟩
          exact ⟨by omega, hk, hmrs⟩
        · rintro ⟨hcs, hk, hmrs⟩
          refine ⟨?_, hk, hmrs⟩
          rcases Nat.lt_or_ge c s with h | h
          · omega
          · have hse : s = c := by omega
            subst hse
            -- a maximal run cannot start at c when the start condition fails
            refine absurd ⟨?_, hmrs.2.2.2.1⟩ h2
            have hw := hmrs.2.2.1 0 hmrs.1
            simpa using hw
    · rw [scanLine_oob keep line (fuel+1) h1]
      simp only [List.not_mem_nil, false_iff]
      rintro ⟨hcs, _hk, hm1, hm2, _⟩
      omega

/-! ## Slot membership -/

theorem rowLine_get (m : Mask) (r c : Nat) :
    lineGet (rowLine m r) c = maskGet m r c := rfl

theorem colLine_get : ∀ (m : Mask) (r c : Nat),
    lineGet (colLine m c) r = maskGet m r c
  | [], r, _c => by cases r <;> rfl
  | _row :: _rest, 0, _c => rfl
  | _row :: rest, r+1, c => colLine_get rest r c

theorem mem_acrossSlots {keep : Nat → Bool} {m : Mask} {n : Nat} {s : Slot} :
    s ∈ acrossSlots keep m n ↔
      s.dir = Dir.across ∧ s.row < n ∧ keep s.length = true ∧
      IsMaxRun (rowLine m s.row) n s.col s.length := by
  unfold acrossSlots
  rw [List.mem_flatMap]
  constructor
  · rintro ⟨r, hr, hmem⟩
    rw [List.mem_map] at hmem
    obtain ⟨⟨ps, pL⟩, hp, hs⟩ := hmem
    have hm := (scan_mem keep (rowLine m r) n n 0 (by omega) ps pL).1 hp
    subst hs
    exact ⟨rfl, List.mem_range.mp hr, hm.2.1, hm.2.2⟩
  · rintro ⟨hdir, hrow, hk, hmr⟩
    obtain ⟨d, r0, c0, L0⟩ := s
    simp only [Slot.mk.injEq] at hdir ⊢
    subst hdir
    refine ⟨r0, List.mem_range.mpr hrow, ?_⟩
    rw [List.mem_map]
    exact ⟨(c0, L0), (scan_mem keep (rowLine m r0) n n 0 (by omega) c0 L0).2
      ⟨Nat.zero_le _, hk, hmr⟩, rfl⟩

theorem mem_downSlots {keep : Nat → Bool} {m : Mask} {n : Nat} {s : Slot} :
    s ∈ downSlots keep m n ↔
      s.dir = Dir.down ∧ s.col < n ∧ keep s.length = true ∧
      IsMaxRun (colLine m s.col) n s.row s.length := by
  unfold downSlots
  rw [List.mem_flatMap]
  constructor
  · rintro ⟨c, hc, hmem⟩
    rw [List.mem_map] at hmem
    obtain ⟨⟨ps, pL⟩, hp, hs⟩ := hmem
    have hm := (scan_mem keep (colLine m c) n n 0 (by omega) ps pL).1 hp
    subst hs
    exact ⟨rfl, List.mem_range.mp hc, hm.2.1, hm.2.2⟩
  · rintro ⟨hdir, hcol, hk, hmr⟩
    obtain ⟨d, r0, c0, L0⟩ := s
    simp only [Slot.mk.injEq] at hdir ⊢
    subst hdir
    refine ⟨c0, List.mem_range.mpr hcol, ?_⟩
    rw [List.mem_map]
    exact ⟨(r0, L0), (scan_mem keep (colLine m c0) n n 0 (by omega) r0 L0).2
      ⟨Nat.zero_le _, hk, hmr⟩, rfl⟩

theorem mem_slotsFromMask {keep : Nat → Bool} {m : Mask} {n : Nat} {s : Slot} :
    s ∈ slotsFromMask keep m n ↔
      keep s.length = true ∧
      ((s.dir = Dir.across ∧ s.row < n ∧
          IsMaxRun (rowLine m s.row) n s.col s.length) ∨
       (s.dir = Dir.down ∧ s.col < n ∧
          IsMaxRun (colLine m s.col) n s.row s.length)) := by
  unfold slotsFromMask
  rw [List.mem_append, mem_acrossSlots, mem_downSlots]
  constructor
  · rintro (⟨h1, h2, h3, h4⟩ | ⟨h1, h2, h3, h4⟩)
    · exact ⟨h3, Or.inl ⟨h1, h2, h4⟩⟩
    · exact ⟨h3, Or.inr ⟨h1, h2, h4⟩⟩
  · rintro ⟨hk, ⟨h1, h2, h4⟩ | ⟨h1, h2, h4⟩⟩
    · exact Or.inl ⟨h1, h2, hk, h4⟩
    · exact Or.inr ⟨h1, h2, hk, h4⟩

theorem slotCell_across {s : Slot} (h : s.dir = Dir.across) (i : Nat) :
    slotCell s i = (s.row, s.col + i) := by
  simp [slotCell, h]

theorem slotCell_down {s : Slot} (h : s.dir = Dir.down) (i : Nat) :
    slotCell s i = (s.row + i, s.col) := by
  simp [slotCell, h]

theorem slotMaximal_of_mem {keep : Nat → Bool} {m : Mask} {n : Nat} {s : Slot}
    (h : s ∈ slotsFromMask keep m n) : SlotMaximal m n s := by
  rw [mem_slotsFromMask] at h
  obtain ⟨d, r0, c0, L0⟩ := s
  rcases h.2 with ⟨hdir, hrow, hmr⟩ | ⟨hdir, hcol, hmr⟩ <;>
    dsimp only at hdir <;> subst hdir
  · obtain ⟨h1, h2, h3, h4, h5⟩ := hmr
    dsimp only at hrow h1 h2 h3 h4 h5 ⊢
    refine ⟨hrow, show c0 < n by omega, h1, ?_, show c0 + L0 ≤ n from h2, ?_, ?_⟩
    · intro i hi
      rw [slotCell_across rfl i]
      rw [← rowLine_get]
      exact h3 i hi
    · rcases h4 with h4 | h4
      · exact Or.inl h4
      · exact Or.inr (by rw [← rowLine_get]; exact h4)
    · rcases h5 with h5 | h5
      · exact Or.inl h5
      · exact Or.inr (by rw [← rowLine_get]; exact h5)
  · obtain ⟨h1, h2, h3, h4, h5⟩ := hmr
    dsimp only at hcol h1 h2 h3 h4 h5 ⊢
    refine ⟨show r0 < n by omega, hcol, h1, ?_, show r0 + L0 ≤ n from h2, ?_, ?_⟩
    · intro i hi
      rw [slotCell_down rfl i]
      rw [← colLine_get]
      exact h3 i hi
    · rcases h4 with h4 | h4
      · exact Or.inl h4
      · exact Or.inr (by rw [← colLine_get]; exact h4)
    · rcases h5 with h5 | h5
      · exact Or.inl h5
      · exact Or.inr (by rw [← colLine_get]; exact h5)

/-! ## Claim C3 -/

/-- C3 counterexample: the NYT `build_slots_from_pattern` applies no length
filter, so on the pattern `".#" / "#."` it records slots of length 1, below
the module's `WORD_MIN = 4`. -/
theorem C3_short_slot_counterexample :
    ∃ s ∈ (buildSlotsFromPattern [['.', '#'], ['#', '.']]).2,
      ¬ 4 ≤ s.length := by decide

/-- C3 (amended): every slot produced by the 5x5 and 6x6 extractions has
length within `[WORD_MIN, WORD_MAX] = [5, 5]`, and every slot produced by any
of the three extractions (the NYT one records runs of every length) starts in
grid bounds and is a maximal run: all its cells are white and the cell before
its start (if any) and the cell after its end (if any) are black. -/
theorem C3_slot_bounds_maximality :
    (∀ (p : List (List Char)) (s : Slot), s ∈ (buildSlots5 p).2 →
      (5 ≤ s.length ∧ s.length ≤ 5) ∧
        SlotMaximal (buildSlots5 p).1 p.length s) ∧
    (∀ (p : List (List Char)) (s : Slot), s ∈ (buildSlots6 p).2 →
      (5 ≤ s.length ∧ s.length ≤ 5) ∧
        SlotMaximal (buildSlots6 p).1 p.length s) ∧
    (∀ (p : List (List Char)) (s : Slot), s ∈ (buildSlotsFromPattern p).2 →
      SlotMaximal (buildSlotsFromPattern p).1 p.length s) := by
  refine ⟨?_, ?_, ?_⟩
  · intro p s hs
    have hs2 : s ∈ slotsFromMask keep55 (patternMask p) p.length := hs
    have hk := (mem_slotsFromMask.mp hs2).1
    exact ⟨by simpa [keep55, keepRange] using hk, slotMaximal_of_mem hs2⟩
  · intro p s hs
    have hs2 : s ∈ slotsFromMask keep55 (buildSlots6 p).1 p.length := hs
    have hk := (mem_slotsFromMask.mp hs2).1
    exact ⟨by simpa [keep55, keepRange] using hk, slotMaximal_of_mem hs2⟩
  · intro p s hs
    have hs2 : s ∈ slotsFromMask keepAll (patternMask p) p.length := hs
    exact slotMaximal_of_mem hs2

/-- C3 witness: the across slot of row 0 of the all-white 5x5 pattern. -/
theorem C3_slot_bounds_maximality_witness :
    (⟨Dir.across, 0, 0, 5⟩ : Slot) ∈ (buildSlots5 patAll5).2 ∧
    ((5 ≤ (⟨Dir.across, 0, 0, 5⟩ : Slot).length ∧
        (⟨Dir.across, 0, 0, 5⟩ : Slot).length ≤ 5) ∧
      SlotMaximal (buildSlots5 patAll5).1 patAll5.length ⟨Dir.across, 0, 0, 5⟩) :=
  ⟨by decide, C3_slot_bounds_maximality.1 patAll5 ⟨Dir.across, 0, 0, 5⟩ (by decide)⟩

/-! ## Claim C4: idempotence of extraction with orphan pruning -/

theorem getD_range_map {β : Type} (f : Nat → β) (n r : Nat) (d : β) :
    ((List.range n).map f).getD r d = if r < n then f r else d := by
  by_cases h : r < n
  · simp [List.getD_eq_getElem?_getD, List.getElem?_map, List.getElem?_range, h]
  · have hn : (List.range n)[r]? = none :=
      @List.getElem?_eq_none _ (List.range n) r (by simpa using h)
    simp [List.getD_eq_getElem?_getD, List.getElem?_map, hn, h]

theorem pruneMask_length (m : Mask) (n : Nat) (slots : List Slot) :
    (pruneMask m n slots).length = n := by
  simp [pruneMask]

theorem maskGet_pruneMask (m : Mask) (n : Nat) (slots : List Slot) (r c : Nat) :
    maskGet (pruneMask m n slots) r c =
      if r < n ∧ c < n then maskGet m r c && coveredBy slots r c else false := by
  unfold pruneMask maskGet
  rw [getD_range_map]
  by_cases hr : r < n
  · rw [if_pos hr, getD_range_map]
    by_cases hc : c < n
    · simp [hr, hc]
    · simp [hr, hc]
  · simp [hr]

theorem patternMask_maskToPattern (m : Mask) :
    patternMask (maskToPattern m) = m := by
  unfold patternMask maskToPattern
  rw [List.map_map]
  have h1 : ∀ (row : List Bool),
      ((fun row => List.map (fun ch => ch == '.') row) ∘
        fun row => List.map (fun b => if b then '.' else '#') row) row = row := by
    intro row
    simp only [Function.comp, List.map_map]
    have h2 : ((fun ch => ch == '.') ∘ fun b : Bool => if b then '.' else '#') =
        id := by
      funext b
      cases b <;> rfl
    rw [h2, List.map_id]
  calc m.map _ = m.map id := List.map_congr_left (fun row _ => h1 row)
    _ = m := List.map_id m

theorem slotCovers_self {s : Slot} {i : Nat} (hi : i < s.length) :
    slotCovers s (slotCell s i).1 (slotCell s i).2 = true := by
  unfold slotCovers
  rw [List.any_eq_true]
  exact ⟨i, List.mem_range.mpr hi, by simp⟩

theorem coveredBy_of_mem {slots : List Slot} {s : Slot} (hs : s ∈ slots)
    {r c : Nat} (h : slotCovers s r c = true) : coveredBy slots r c = true := by
  unfold coveredBy
  rw [List.any_eq_true]
  exact ⟨s, hs, h⟩

theorem coveredBy_iff {slots : List Slot} {r c : Nat} :
    coveredBy slots r c = true ↔
      ∃ s ∈ slots, ∃ i, i < s.length ∧ slotCell s i = (r, c) := by
  unfold coveredBy slotCovers
  rw [List.any_eq_true]
  constructor
  · rintro ⟨s, hs, h⟩
    rw [List.any_eq_true] at h
    obtain ⟨i, hi, hbeq⟩ := h
    exact ⟨s, hs, i, List.mem_range.mp hi, by simpa using hbeq⟩
  · rintro ⟨s, hs, i, hi, hcell⟩
    refine ⟨s, hs, ?_⟩
    rw [List.any_eq_true]
    exact ⟨i, List.mem_range.mpr hi, by simp [hcell]⟩

theorem slotCell_bounds {m : Mask} {n : Nat} {s : Slot}
    (hmax : SlotMaximal m n s) {i : Nat} (hi : i < s.length) :
    (slotCell s i).1 < n ∧ (slotCell s i).2 < n := by
  obtain ⟨d, r0, c0, L0⟩ := s
  obtain ⟨h1, h2, h3, _h4, h5⟩ := hmax
  dsimp only at h1 h2 h3 h5 hi
  cases d
  · rw [slotCell_across rfl]
    dsimp only at h5 ⊢
    exact ⟨h1, by omega⟩
  · rw [slotCell_down rfl]
    dsimp only at h5 ⊢
    exact ⟨by omega, h2⟩

theorem maskGet_sub_black {m m2 : Mask}
    (hsub : ∀ r c, maskGet m2 r c = true → maskGet m r c = true)
    {r c : Nat} (h : maskGet m r c = false) : maskGet m2 r c = false := by
  cases hx : maskGet m2 r c
  · rfl
  · simp [hsub r c hx] at h

theorem mem_slotsFromMask_mono {keep : Nat → Bool} {m m2 : Mask} {n : Nat}
    {s : Slot} (hs : s ∈ slotsFromMask keep m n)
    (hsub : ∀ r c, maskGet m2 r c = true → maskGet m r c = true)
    (hcells : ∀ i, i < s.length →
      maskGet m2 (slotCell s i).1 (slotCell s i).2 = true) :
    s ∈ slotsFromMask keep m2 n := by
  rw [mem_slotsFromMask] at hs ⊢
  obtain ⟨hk, hcase⟩ := hs
  refine ⟨hk, ?_⟩
  obtain ⟨d, r0, c0, L0⟩ := s
  rcases hcase with ⟨hdir, hrow, hmr⟩ | ⟨hdir, hcol, hmr⟩ <;> dsimp only at hdir <;>
    subst hdir
  · left
    obtain ⟨h1, h2, h3, h4, h5⟩ := hmr
    dsimp only at hrow h1 h2 h3 h4 h5 ⊢
    refine ⟨rfl, hrow, h1, h2, ?_, ?_, ?_⟩
    · intro i hi
      have hc := hcells i hi
      rw [slotCell_across rfl] at hc
      rw [rowLine_get]
      exact hc
    · rcases h4 with h | h
      · exact Or.inl h
      · refine Or.inr ?_
        rw [rowLine_get]
        rw [rowLine_get] at h
        exact maskGet_sub_black hsub h
    · rcases h5 with h | h
      · exact Or.inl h
      · refine Or.inr ?_
        rw [rowLine_get]
        rw [rowLine_get] at h
        exact maskGet_sub_black hsub h
  · right
    obtain ⟨h1, h2, h3, h4, h5⟩ := hmr
    dsimp only at hcol h1 h2 h3 h4 h5 ⊢
    refine ⟨rfl, hcol, h1, h2, ?_, ?_, ?_⟩
    · intro i hi
      have hc := hcells i hi
      rw [slotCell_down rfl] at hc
      rw [colLine_get]
      exact hc
    · rcases h4 with h | h
      · exact Or.inl h
      · refine Or.inr ?_
        rw [colLine_get]
        rw [colLine_get] at h
        exact maskGet_sub_black hsub h
    · rcases h5 with h | h
      · exact Or.inl h
      · refine Or.inr ?_
        rw [colLine_get]
        rw [colLine_get] at h
        exact maskGet_sub_black hsub h

theorem pruneMask_ext {ma mb : Mask} {n : Nat} {sa sb : List Slot}
    (h : ∀ r c, r < n → c < n →
      (maskGet ma r c && coveredBy sa r c) = (maskGet mb r c && coveredBy sb r c)) :
    pruneMask ma n sa = pruneMask mb n sb := by
  unfold pruneMask
  apply List.map_congr_left
  intro r hr
  apply List.map_congr_left
  intro c hc
  exact h r c (List.mem_range.mp hr) (List.mem_range.mp hc)

theorem prune_stable (keep : Nat → Bool) (m : Mask) (n : Nat) :
    pruneMask (pruneMask m n (slotsFromMask keep m n)) n
        (slotsFromMask keep (pruneMask m n (slotsFromMask keep m n)) n) =
      pruneMask m n (slotsFromMask keep m n) := by
  have hsub : ∀ r c,
      maskGet (pruneMask m n (slotsFromMask keep m n)) r c = true →
      maskGet m r c = true := by
    intro r c h
    rw [maskGet_pruneMask] at h
    by_cases hb : r < n ∧ c < n
    · rw [if_pos hb] at h
      exact ((Bool.and_eq_true _ _).mp h).1
    · rw [if_neg hb] at h
      cases h
  have hsurv : ∀ s ∈ slotsFromMask keep m n,
      s ∈ slotsFromMask keep (pruneMask m n (slotsFromMask keep m n)) n := by
    intro s hs
    have hmax := slotMaximal_of_mem hs
    refine mem_slotsFromMask_mono hs hsub ?_
    intro i hi
    have hb := slotCell_bounds hmax hi
    have hw := hmax.2.2.2.1 i hi
    rw [maskGet_pruneMask, if_pos ⟨hb.1, hb.2⟩]
    exact (Bool.and_eq_true _ _).mpr ⟨hw, coveredBy_of_mem hs (slotCovers_self hi)⟩
  -- pointwise stability of the second pruning pass
  have hpt : ∀ r c, r < n → c < n →
      (maskGet (pruneMask m n (slotsFromMask keep m n)) r c &&
        coveredBy (slotsFromMask keep (pruneMask m n (slotsFromMask keep m n)) n) r c) =
      maskGet (pruneMask m n (slotsFromMask keep m n)) r c := by
    intro r c hr hc
    cases hx : maskGet (pruneMask m n (slotsFromMask keep m n)) r c
    · simp
    · have hcov0 : coveredBy (slotsFromMask keep m n) r c = true := by
        rw [maskGet_pruneMask, if_pos ⟨hr, hc⟩] at hx
        exact ((Bool.and_eq_true _ _).mp hx).2
      obtain ⟨s, hs, i, hi, hcell⟩ := coveredBy_iff.mp hcov0
      have hcov1 := coveredBy_of_mem (hsurv s hs) (hcell ▸ slotCovers_self hi)
      simp [hcov1]
  apply pruneMask_ext
  intro r c hr hc
  rw [hpt r c hr hc, maskGet_pruneMask, if_pos (And.intro hr hc)]

theorem buildSlots6_eq (q : List (List Char)) :
    buildSlots6 q =
      (pruneMask (patternMask q) q.length
        (slotsFromMask keep55 (patternMask q) q.length),
       slotsFromMask keep55
         (pruneMask (patternMask q) q.length
           (slotsFromMask keep55 (patternMask q) q.length))
         q.length) := rfl

theorem maskToPattern_length (m : Mask) : (maskToPattern m).length = m.length := by
  simp [maskToPattern]

/-- C4: the 6x6 `build_slots` (extraction with orphan pruning) is idempotent:
running it again on the pattern of the refined mask it returned yields the
same mask and the same slot set. -/
theorem C4_build_slots_idempotent (p : List (List Char)) :
    buildSlots6 (maskToPattern (buildSlots6 p).1) = buildSlots6 p := by
  have e1 : (buildSlots6 p).1 = pruneMask (patternMask p) p.length
      (slotsFromMask keep55 (patternMask p) p.length) := rfl
  rw [e1]
  rw [buildSlots6_eq, buildSlots6_eq]
  rw [patternMask_maskToPattern]
  rw [maskToPattern_length, pruneMask_length]
  rw [prune_stable keep55 (patternMask p) p.length]

/-! ## Claim C7: numbering -/

theorem getD_set_self {α : Type} (l : List α) (i : Nat) (v d : α)
    (h : i < l.length) : (l.set i v).getD i d = v := by
  simp [List.getD_eq_getElem?_getD, List.getElem?_set_eq_of_lt, h]

theorem getD_set_ne {α : Type} (l : List α) {i j : Nat} (v d : α) (h : i ≠ j) :
    (l.set i v).getD j d = l.getD j d := by
  simp [List.getD_eq_getElem?_getD, List.getElem?_set_ne, h]

theorem getD_replicate {α : Type} {n i : Nat} (x d : α) (h : i < n) :
    (List.replicate n x).getD i d = x := by
  simp [List.getD_eq_getElem?_getD, List.getElem?_replicate, h]

theorem mem_of_getLast?_eq {α : Type} {l : List α} {a : α}
    (h : l.getLast? = some a) : a ∈ l := by
  obtain ⟨hne, heq⟩ := @List.mem_getLast?_eq_getLast _ _ a
    (by rw [Option.mem_def]; exact h)
  rw [heq]
  exact List.getLast_mem hne

theorem numAt_set_self {ng : List (List Nat)} {r c : Nat} (v : Nat)
    (hr : r < ng.length) (hc : c < (ng.getD r []).length) :
    numAt (ng.set r ((ng.getD r []).set c v)) r c = v := by
  unfold numAt
  rw [getD_set_self _ _ _ _ hr]
  exact getD_set_self _ _ _ _ hc

theorem numAt_set_ne {ng : List (List Nat)} {r c r2 c2 : Nat} (v : Nat)
    (h : ¬ (r = r2 ∧ c = c2)) :
    numAt (ng.set r ((ng.getD r []).set c v)) r2 c2 = numAt ng r2 c2 := by
  unfold numAt
  by_cases hr : r = r2
  · subst hr
    have hc : c ≠ c2 := fun hc => h ⟨rfl, hc⟩
    by_cases hrl : r < ng.length
    · rw [getD_set_self _ _ _ _ hrl, getD_set_ne _ _ _ hc]
    · rw [List.set_eq_of_length_le (by omega)]
  · rw [getD_set_ne _ _ _ hr]

theorem numRowLen_set (ng : List (List Nat)) (a b v r : Nat) :
    ((ng.set a ((ng.getD a []).set b v)).getD r []).length =
      (ng.getD r []).length := by
  by_cases ha : a < ng.length
  · by_cases har : a = r
    · subst har
      rw [getD_set_self _ _ _ _ ha, List.length_set]
    · rw [getD_set_ne _ _ _ har]
  · rw [List.set_eq_of_length_le (by omega)]

theorem setNum_length (nums : List (Option Nat)) (o : Option Nat) (v : Nat) :
    (setNum nums o v).length = nums.length := by
  cases o
  · rfl
  · simp [setNum]

theorem getD_setNum_ne {nums : List (Option Nat)} {o : Option Nat} {v i : Nat}
    (h : o ≠ some i) : (setNum nums o v).getD i none = nums.getD i none := by
  match o with
  | none => rfl
  | some j =>
    have hj : j ≠ i := fun hji => h (by rw [hji])
    exact getD_set_ne _ _ _ hj

theorem getD_setNum_self {nums : List (Option Nat)} {v i : Nat}
    (hb : i < nums.length) : (setNum nums (some i) v).getD i none = some v :=
  getD_set_self _ _ _ _ hb

theorem startIdx_spec {slots : List Slot} {r c : Nat} {d : Dir} {i : Nat}
    (h : startIdx slots r c d = some i) :
    i < slots.length ∧ (slots.getD i dSlot).row = r ∧
    (slots.getD i dSlot).col = c ∧ (slots.getD i dSlot).dir = d := by
  unfold startIdx at h
  have hmem := mem_of_getLast?_eq h
  rw [List.mem_filter] at hmem
  obtain ⟨hrange, hpred⟩ := hmem
  have hi : i < slots.length := List.mem_range.mp hrange
  have hget : slots.get? i = some (slots.getD i dSlot) := by
    rw [List.get?_eq_getElem?, List.getElem?_eq_getElem hi,
      List.getD_eq_getElem?_getD, List.getElem?_eq_getElem hi]
    rfl
  rw [hget] at hpred
  simp only [Bool.and_eq_true, beq_iff_eq, decide_eq_true_eq] at hpred
  exact ⟨hi, hpred.1.1, hpred.1.2, hpred.2⟩

theorem startIdx_unique_cell {slots : List Slot} {r c r2 c2 : Nat}
    {d d2 : Dir} {i : Nat} (h1 : startIdx slots r c d = some i)
    (h2 : startIdx slots r2 c2 d2 = some i) : r = r2 ∧ c = c2 ∧ d = d2 := by
  obtain ⟨_, a1, a2, a3⟩ := startIdx_spec h1
  obtain ⟨_, b1, b2, b3⟩ := startIdx_spec h2
  refine ⟨?_, ?_, ?_⟩
  · rw [← a1, b1]
  · rw [← a2, b2]
  · rw [← a3, b3]

theorem rowMajorCells_nodup (n : Nat) : (rowMajorCells n).Nodup := by
  have he : rowMajorCells n = (List.range n) ×ˢ (List.range n) := rfl
  rw [he]
  exact List.Nodup.product (List.nodup_range n) (List.nodup_range n)

theorem mem_rowMajorCells {n : Nat} {p : Nat × Nat} :
    p ∈ rowMajorCells n ↔ p.1 < n ∧ p.2 < n := by
  have he : rowMajorCells n = (List.range n) ×ˢ (List.range n) := rfl
  rw [he, List.mem_product, List.mem_range, List.mem_range]

theorem assign6Step_not {m : Mask} {slots : List Slot}
    {st : List (List Nat) × List (Option Nat) × Nat} {p : Nat × Nat}
    (h : isStartCell m slots p = false) : assign6Step m slots st p = st := by
  unfold isStartCell at h
  cases hm : maskGet m p.1 p.2
  · simp [assign6Step, hm]
  · rw [hm] at h
    simp only [Bool.true_and] at h
    simp [assign6Step, hm, h]

theorem assign6Step_start {m : Mask} {slots : List Slot}
    {ng : List (List Nat)} {nums : List (Option Nat)} {num : Nat}
    {p : Nat × Nat} (h : isStartCell m slots p = true) :
    assign6Step m slots (ng, nums, num) p =
      (ng.set p.1 ((ng.getD p.1 []).set p.2 num),
       setNum (setNum nums (startIdx slots p.1 p.2 Dir.across) num)
         (startIdx slots p.1 p.2 Dir.down) num,
       num + 1) := by
  unfold isStartCell at h
  rw [Bool.and_eq_true] at h
  simp [assign6Step, h.1, h.2]

theorem assign6_fold (m : Mask) (slots : List Slot) :
    ∀ (cells : List (Nat × Nat)) (ng : List (List Nat))
      (nums : List (Option Nat)) (num : Nat),
      cells.Nodup →
      (∀ p ∈ cells, p.1 < ng.length ∧ p.2 < (ng.getD p.1 []).length) →
      ((∀ r c, ((r, c) ∉ cells ∨ isStartCell m slots (r, c) = false) →
          numAt (cells.foldl (assign6Step m slots) (ng, nums, num)).1 r c =
            numAt ng r c) ∧
       (∀ k, k < (cells.filter (isStartCell m slots)).length →
          numAt (cells.foldl (assign6Step m slots) (ng, nums, num)).1
              ((cells.filter (isStartCell m slots)).getD k (0, 0)).1
              ((cells.filter (isStartCell m slots)).getD k (0, 0)).2 =
            num + k) ∧
       (∀ i, (∀ p ∈ cells, isStartCell m slots p = true →
              startIdx slots p.1 p.2 Dir.across ≠ some i ∧
              startIdx slots p.1 p.2 Dir.down ≠ some i) →
          (cells.foldl (assign6Step m slots) (ng, nums, num)).2.1.getD i none =
            nums.getD i none) ∧
       (∀ k, k < (cells.filter (isStartCell m slots)).length → ∀ d i,
          startIdx slots
              ((cells.filter (isStartCell m slots)).getD k (0, 0)).1
              ((cells.filter (isStartCell m slots)).getD k (0, 0)).2 d =
            some i →
          i < nums.length →
          (cells.foldl (assign6Step m slots) (ng, nums, num)).2.1.getD i none =
            some (num + k))) := by
  intro cells
  induction cells with
  | nil =>
    intro ng nums num _ _
    refine ⟨?_, ?_, ?_, ?_⟩
    · intro r c _
      rfl
    · intro k hk
      simp at hk
    · intro i _
      rfl
    · intro k hk
      simp at hk
  | cons q rest ih =>
    obtain ⟨q1, q2⟩ := q
    intro ng nums num hnd hb
    have hnd2 := (List.nodup_cons.mp hnd).2
    have hq_notin := (List.nodup_cons.mp hnd).1
    by_cases hst : isStartCell m slots (q1, q2) = true
    · rw [List.foldl_cons, assign6Step_start hst]
      have hb2 : ∀ p ∈ rest,
          p.1 < (ng.set q1 ((ng.getD q1 []).set q2 num)).length ∧
          p.2 < ((ng.set q1 ((ng.getD q1 []).set q2 num)).getD p.1 []).length := by
        intro p hp
        have hbp := hb p (List.mem_cons_of_mem _ hp)
        constructor
        · rw [List.length_set]
          exact hbp.1
        · rw [numRowLen_set]
          exact hbp.2
      obtain ⟨IH1, IH2, IH3, IH4⟩ :=
        ih (ng.set q1 ((ng.getD q1 []).set q2 num))
          (setNum (setNum nums (startIdx slots q1 q2 Dir.across) num)
            (startIdx slots q1 q2 Dir.down) num) (num + 1) hnd2 hb2
      have hfilter : ((q1, q2) :: rest).filter (isStartCell m slots) =
          (q1, q2) :: rest.filter (isStartCell m slots) := by
        simp [List.filter_cons, hst]
      refine ⟨?_, ?_, ?_, ?_⟩
      · intro r c hor
        have hside : (r, c) ∉ rest ∨ isStartCell m slots (r, c) = false := by
          rcases hor with hni | hns
          · exact Or.inl (fun hmem => hni (List.mem_cons_of_mem _ hmem))
          · exact Or.inr hns
        rw [IH1 r c hside]
        apply numAt_set_ne
        rintro ⟨h1, h2⟩
        rcases hor with hni | hns
        · subst h1
          subst h2
          exact hni (List.mem_cons_self _ _)
        · subst h1
          subst h2
          rw [hst] at hns
          cases hns
      · intro k hk
        rw [hfilter] at hk ⊢
        cases k with
        | zero =>
          simp only [List.getD_cons_zero]
          rw [IH1 q1 q2 (Or.inl hq_notin)]
          have hbq := hb (q1, q2) (List.mem_cons_self _ _)
          rw [numAt_set_self num hbq.1 hbq.2]
          omega
        | succ k =>
          simp only [List.getD_cons_succ]
          have hres := IH2 k (by simp only [List.length_cons] at hk; omega)
          rw [hres]
          omega
      · intro i hno
        have hq := hno (q1, q2) (List.mem_cons_self _ _) hst
        have hrest : ∀ p ∈ rest, isStartCell m slots p = true →
            startIdx slots p.1 p.2 Dir.across ≠ some i ∧
            startIdx slots p.1 p.2 Dir.down ≠ some i :=
          fun p hp hsp => hno p (List.mem_cons_of_mem _ hp) hsp
        rw [IH3 i hrest, getD_setNum_ne hq.2, getD_setNum_ne hq.1]
      · intro k hk d i hstart hbi
        rw [hfilter] at hk hstart
        cases k with
        | zero =>
          simp only [List.getD_cons_zero] at hstart ⊢
          have hval : (setNum (setNum nums (startIdx slots q1 q2 Dir.across) num)
              (startIdx slots q1 q2 Dir.down) num).getD i none = some num := by
            cases d
            · have hd_ne : startIdx slots q1 q2 Dir.down ≠ some i := by
                intro hcon
                obtain ⟨_, _, hdd⟩ := startIdx_unique_cell hstart hcon
                cases hdd
              rw [getD_setNum_ne hd_ne, hstart]
              exact getD_setNum_self hbi
            · rw [hstart]
              exact getD_setNum_self (by rw [setNum_length]; exact hbi)
          have hrest : ∀ p ∈ rest, isStartCell m slots p = true →
              startIdx slots p.1 p.2 Dir.across ≠ some i ∧
              startIdx slots p.1 p.2 Dir.down ≠ some i := by
            intro p hp _hsp
            constructor <;> intro hcon
            · apply hq_notin
              obtain ⟨e1, e2, _⟩ := startIdx_unique_cell hcon hstart
              have hpq : p = (q1, q2) := Prod.ext e1 e2
              rw [← hpq]
              exact hp
            · apply hq_notin
              obtain ⟨e1, e2, _⟩ := startIdx_unique_cell hcon hstart
              have hpq : p = (q1, q2) := Prod.ext e1 e2
              rw [← hpq]
              exact hp
          rw [IH3 i hrest, hval]
          exact congrArg some (by omega)
        | succ k =>
          simp only [List.getD_cons_succ] at hstart ⊢
          have hres := IH4 k (by simp only [List.length_cons] at hk; omega) d i
            hstart (by rw [setNum_length, setNum_length]; exact hbi)
          rw [hres]
          exact congrArg some (by omega)
    · have hstf : isStartCell m slots (q1, q2) = false := by
        cases hx : isStartCell m slots (q1, q2)
        · rfl
        · exact absurd hx hst
      rw [List.foldl_cons, assign6Step_not hstf]
      obtain ⟨IH1, IH2, IH3, IH4⟩ :=
        ih ng nums num hnd2 (fun p hp => hb p (List.mem_cons_of_mem _ hp))
      have hfilter : ((q1, q2) :: rest).filter (isStartCell m slots) =
          rest.filter (isStartCell m slots) := by
        simp [List.filter_cons, hstf]
      refine ⟨?_, ?_, ?_, ?_⟩
      · intro r c hor
        apply IH1
        rcases hor with hni | hns
        · exact Or.inl (fun hmem => hni (List.mem_cons_of_mem _ hmem))
        · exact Or.inr hns
      · intro k hk
        rw [hfilter] at hk ⊢
        exact IH2 k hk
      · intro i hno
        exact IH3 i (fun p hp hsp => hno p (List.mem_cons_of_mem _ hp) hsp)
      · intro k hk d i hstart hbi
        rw [hfilter] at hk hstart
        exact IH4 k hk d i hstart hbi

theorem numAt_init (n r c : Nat) :
    numAt (List.replicate n (List.replicate n 0)) r c = 0 := by
  unfold numAt
  by_cases hr : r < n
  · rw [getD_replicate _ _ hr]
    by_cases hc : c < n
    · rw [getD_replicate _ _ hc]
    · rw [List.getD_eq_getElem?_getD (List.replicate n 0) c 0,
        @List.getElem?_eq_none _ (List.replicate n 0) c (by simpa using hc)]
      rfl
  · rw [List.getD_eq_getElem?_getD (List.replicate n (List.replicate n 0)) r [],
      @List.getElem?_eq_none _ (List.replicate n (List.replicate n 0)) r
        (by simpa using hr)]
    simp [numAt]

theorem getD_map_none {slots : List Slot} (i : Nat) :
    (slots.map (fun _ => (none : Option Nat))).getD i none = none := by
  by_cases hi : i < slots.length
  · rw [List.getD_eq_getElem?_getD, List.getElem?_map,
      List.getElem?_eq_getElem hi]
    rfl
  · rw [List.getD_eq_getElem?_getD,
      List.getElem?_eq_none (by simpa using hi)]
    rfl

theorem assignNytStep_crash {m : Mask} {slots : List Slot} {p : Nat × Nat}
    (hm : maskGet m p.1 p.2 = true)
    (hc : ((p.2 == 0 || !maskGet m p.1 (p.2 - 1)) = true ∧
            startIdx slots p.1 p.2 Dir.across = none) ∨
          ((p.1 == 0 || !maskGet m (p.1 - 1) p.2) = true ∧
            startIdx slots p.1 p.2 Dir.down = none)) :
    ∀ st, assignNytStep m slots st p = none := by
  intro st
  match st with
  | none => rfl
  | some (ng, nums, num) =>
    rcases hc with ⟨hsa, hnone⟩ | ⟨hsd, hnone⟩
    · simp [assignNytStep, hm, hsa, hnone]
    · by_cases hsa : (p.2 == 0 || !maskGet m p.1 (p.2 - 1)) = true
      · cases hx : startIdx slots p.1 p.2 Dir.across
        · simp [assignNytStep, hm, hsa, hx]
        · simp [assignNytStep, hm, hsa, hsd, hx, hnone]
      · have hsa2 : (p.2 == 0 || !maskGet m p.1 (p.2 - 1)) = false := by
          cases hy : (p.2 == 0 || !maskGet m p.1 (p.2 - 1))
          · rfl
          · exact absurd hy hsa
        simp [assignNytStep, hm, hsa2, hsd, hnone]

theorem foldl_nyt_none (m : Mask) (slots : List Slot) :
    ∀ cells : List (Nat × Nat),
      cells.foldl (assignNytStep m slots) none = none := by
  intro cells
  induction cells with
  | nil => rfl
  | cons q rest ih =>
    rw [List.foldl_cons]
    have hq : assignNytStep m slots none q = none := rfl
    rw [hq, ih]

theorem foldl_nyt_crash {m : Mask} {slots : List Slot} {p : Nat × Nat}
    (hcrash : ∀ st, assignNytStep m slots st p = none) :
    ∀ (cells : List (Nat × Nat)), p ∈ cells → ∀ st,
      cells.foldl (assignNytStep m slots) st = none := by
  intro cells
  induction cells with
  | nil =>
    intro h
    cases h
  | cons q rest ih =>
    intro hmem st
    rw [List.foldl_cons]
    rcases List.mem_cons.mp hmem with heq | hmem2
    · subst heq
      rw [hcrash st]
      exact foldl_nyt_none m slots rest
    · exact ih hmem2 _

/-! ## Claim C7 theorems -/

/-- C7 counterexample: on the all-white 1x1 mask with an empty slot set, the
cell (0,0) starts no slot, so the claim requires number grid `[[0]]`; instead
the NYT `assign_numbers` raises `KeyError` on `start_map[(0, 0, "across")]`
(modelled as `none`). -/
theorem C7_assign_numbers_counterexample :
    assignNumbersNyt [[true]] [] = none := by rfl

/-- C7 (amended): for every mask and slot set, the 6x6 `assign_numbers`
numbers exactly the white cells that start at least one listed slot, in
row-major order starting at 1 with no gaps (the k-th such cell gets k+1);
every other cell gets 0 (in particular a slot starting on a black cell is
skipped); and a cell starting both an across and a down slot shares its one
number with both slots' records.  The NYT `assign_numbers` instead derives
starts from the mask and raises `KeyError` whenever some white mask-derived
start has no matching slot in the list. -/
theorem C7_numbering :
    (∀ (m : Mask) (slots : List Slot) (k : Nat),
      k < (startCells m slots).length →
      numAt (assignNumbers6 m slots).1 ((startCells m slots).getD k (0, 0)).1
        ((startCells m slots).getD k (0, 0)).2 = k + 1) ∧
    (∀ (m : Mask) (slots : List Slot) (r c : Nat),
      (r, c) ∉ startCells m slots →
      numAt (assignNumbers6 m slots).1 r c = 0) ∧
    (∀ (m : Mask) (slots : List Slot) (k : Nat) (d : Dir) (i : Nat),
      k < (startCells m slots).length →
      startIdx slots ((startCells m slots).getD k (0, 0)).1
        ((startCells m slots).getD k (0, 0)).2 d = some i →
      (assignNumbers6 m slots).2.getD i none = some (k + 1)) ∧
    (∀ (m : Mask) (slots : List Slot),
      (∃ p ∈ rowMajorCells m.length, maskGet m p.1 p.2 = true ∧
        (((p.2 == 0 || !maskGet m p.1 (p.2 - 1)) = true ∧
            startIdx slots p.1 p.2 Dir.across = none) ∨
         ((p.1 == 0 || !maskGet m (p.1 - 1) p.2) = true ∧
            startIdx slots p.1 p.2 Dir.down = none))) →
      assignNumbersNyt m slots = none) := by
  have hbounds : ∀ (n : Nat), ∀ p ∈ rowMajorCells n,
      p.1 < (List.replicate n (List.replicate n (0 : Nat))).length ∧
      p.2 < ((List.replicate n (List.replicate n (0 : Nat))).getD p.1 []).length := by
    intro n p hp
    have hpb := mem_rowMajorCells.mp hp
    constructor
    · rw [List.length_replicate]
      exact hpb.1
    · rw [getD_replicate _ _ hpb.1, List.length_replicate]
      exact hpb.2
  refine ⟨?_, ?_, ?_, ?_⟩
  · intro m slots k hk
    have hfold := (assign6_fold m slots (rowMajorCells m.length)
      (List.replicate m.length (List.replicate m.length 0))
      (slots.map (fun _ => none)) 1 (rowMajorCells_nodup m.length)
      (hbounds m.length)).2.1
    exact (hfold k hk).trans (by omega)
  · intro m slots r c hns
    have hfold := (assign6_fold m slots (rowMajorCells m.length)
      (List.replicate m.length (List.replicate m.length 0))
      (slots.map (fun _ => none)) 1 (rowMajorCells_nodup m.length)
      (hbounds m.length)).1
    have hside : (r, c) ∉ rowMajorCells m.length ∨
        isStartCell m slots (r, c) = false := by
      by_cases hin : (r, c) ∈ rowMajorCells m.length
      · refine Or.inr ?_
        cases hx : isStartCell m slots (r, c)
        · rfl
        · exact absurd (List.mem_filter.mpr ⟨hin, hx⟩) hns
      · exact Or.inl hin
    exact (hfold r c hside).trans (numAt_init _ _ _)
  · intro m slots k d i hk hstart
    have hfold := (assign6_fold m slots (rowMajorCells m.length)
      (List.replicate m.length (List.replicate m.length 0))
      (slots.map (fun _ => none)) 1 (rowMajorCells_nodup m.length)
      (hbounds m.length)).2.2.2
    have hi : i < (slots.map (fun _ => (none : Option Nat))).length := by
      rw [List.length_map]
      exact (startIdx_spec hstart).1
    exact (hfold k hk d i hstart hi).trans (congrArg some (by omega))
  · intro m slots hex
    obtain ⟨p, hp, hm, hc⟩ := hex
    have hres := foldl_nyt_crash (assignNytStep_crash hm hc)
      (rowMajorCells m.length) hp
      (some (List.replicate m.length (List.replicate m.length 0),
        slots.map (fun _ => none), 1))
    show (((rowMajorCells m.length).foldl (assignNytStep m slots)
        (some (List.replicate m.length (List.replicate m.length 0),
          slots.map (fun _ => none), 1))).map
        (fun st => (st.1, st.2.1))) = none
    rw [hres]
    rfl

/-- C7 witness: on the 1x1 all-white mask with the single across slot, cell
(0,0) is the first start cell and gets number 1 on both the number grid and
the slot record. -/
theorem C7_numbering_witness :
    0 < (startCells [[true]] [⟨Dir.across, 0, 0, 1⟩]).length ∧
    numAt (assignNumbers6 [[true]] [⟨Dir.across, 0, 0, 1⟩]).1
      ((startCells [[true]] [⟨Dir.across, 0, 0, 1⟩]).getD 0 (0, 0)).1
      ((startCells [[true]] [⟨Dir.across, 0, 0, 1⟩]).getD 0 (0, 0)).2 = 0 + 1 :=
  ⟨by decide, C7_numbering.1 [[true]] [⟨Dir.across, 0, 0, 1⟩] 0 (by decide)⟩

/-! ## Grid update lemmas -/

theorem set_getD_self {α : Type} (l : List α) (i : Nat) (d : α)
    (h : i < l.length) : l.set i (l.getD i d) = l := by
  induction l generalizing i with
  | nil => cases h
  | cons a rest ih =>
    cases i with
    | zero => rfl
    | succ i =>
      simp only [List.set_cons_succ, List.cons.injEq, true_and]
      exact ih i (by simpa using h)

theorem gridGet_set_self {g : Grid} (r c : Nat) (v : Cell)
    (hr : r < g.length) (hc : c < (g.getD r []).length) :
    gridGet (gridSet g r c v) r c = v := by
  unfold gridGet gridSet
  rw [getD_set_self _ _ _ _ hr]
  exact getD_set_self _ _ _ _ hc

theorem gridGet_set_ne {g : Grid} {r c r2 c2 : Nat} (v : Cell)
    (h : ¬ (r = r2 ∧ c = c2)) :
    gridGet (gridSet g r c v) r2 c2 = gridGet g r2 c2 := by
  unfold gridGet gridSet
  by_cases hr : r = r2
  · subst hr
    have hc : c ≠ c2 := fun hcc => h ⟨rfl, hcc⟩
    by_cases hrl : r < g.length
    · rw [getD_set_self _ _ _ _ hrl, getD_set_ne _ _ _ hc]
    · rw [List.set_eq_of_length_le (by omega)]
  · rw [getD_set_ne _ _ _ hr]

theorem gridSet_length (g : Grid) (r c : Nat) (v : Cell) :
    (gridSet g r c v).length = g.length := List.length_set _ _ _

theorem gridRowLen_set (g : Grid) (r c : Nat) (v : Cell) (r2 : Nat) :
    ((gridSet g r c v).getD r2 []).length = (g.getD r2 []).length := by
  unfold gridSet
  by_cases hr : r < g.length
  · by_cases hrr : r = r2
    · subst hrr
      rw [getD_set_self _ _ _ _ hr, List.length_set]
    · rw [getD_set_ne _ _ _ hrr]
  · rw [List.set_eq_of_length_le (by omega)]

theorem gridSet_restore {g : Grid} {r c : Nat}
    (hr : r < g.length) (hc : c < (g.getD r []).length) :
    gridSet g r c (gridGet g r c) = g := by
  unfold gridSet gridGet
  rw [set_getD_self _ _ _ hc, set_getD_self _ _ _ hr]

theorem bounds_of_gridGet_ne_block {g : Grid} {r c : Nat}
    (h : gridGet g r c ≠ Cell.block) :
    r < g.length ∧ c < (g.getD r []).length := by
  unfold gridGet at h
  by_cases hr : r < g.length
  · by_cases hc : c < (g.getD r []).length
    · exact ⟨hr, hc⟩
    · exfalso
      apply h
      rw [List.getD_eq_getElem?_getD (g.getD r []) c Cell.block,
        List.getElem?_eq_none (by omega)]
      rfl
  · exfalso
    apply h
    rw [List.getD_eq_getElem?_getD g r [], @List.getElem?_eq_none _ g r (by omega)]
    rfl

theorem slotCell_inj {s : Slot} {i j : Nat} (h : slotCell s i = slotCell s j) :
    i = j := by
  obtain ⟨d, r0, c0, L0⟩ := s
  cases d
  · rw [slotCell_across rfl, slotCell_across rfl] at h
    have := (Prod.mk.injEq _ _ _ _).mp h
    omega
  · rw [slotCell_down rfl, slotCell_down rfl] at h
    have := (Prod.mk.injEq _ _ _ _).mp h
    omega

/-! ## NYT place and unplace -/

theorem unplaceGrid_append (g : Grid) (l1 l2 : List (Nat × Nat)) :
    unplaceGrid g (l1 ++ l2) = unplaceGrid (unplaceGrid g l1) l2 := by
  induction l1 generalizing g with
  | nil => rfl
  | cons p rest ih =>
    rw [List.cons_append]
    exact ih _

theorem fits_iff {grid : Grid} {s : Slot} {w : Word} :
    fits grid s w = true ↔ ∀ i, i < w.length →
      gridGet grid (slotCell s i).1 (slotCell s i).2 = Cell.empty ∨
      gridGet grid (slotCell s i).1 (slotCell s i).2 = Cell.block ∨
      gridGet grid (slotCell s i).1 (slotCell s i).2 =
        Cell.letter (w.getD i ' ') := by
  unfold fits
  rw [List.all_eq_true]
  constructor
  · intro h i hi
    have := h i (List.mem_range.mpr hi)
    cases hx : gridGet grid (slotCell s i).1 (slotCell s i).2 with
    | empty => exact Or.inl rfl
    | block => exact Or.inr (Or.inl rfl)
    | letter ch =>
      simp only [hx, beq_iff_eq] at this
      subst this
      exact Or.inr (Or.inr rfl)
  · intro h i hi
    rcases h i (List.mem_range.mp hi) with hx | hx | hx <;> simp [hx]

theorem fitsNyt_iff {grid : Grid} {s : Slot} {w : Word} :
    fitsNyt grid s w = true ↔ ∀ i, i < w.length →
      gridGet grid (slotCell s i).1 (slotCell s i).2 = Cell.empty ∨
      gridGet grid (slotCell s i).1 (slotCell s i).2 =
        Cell.letter (w.getD i ' ') := by
  unfold fitsNyt
  rw [List.all_eq_true]
  constructor
  · intro h i hi
    have := h i (List.mem_range.mpr hi)
    cases hx : gridGet grid (slotCell s i).1 (slotCell s i).2 with
    | empty => exact Or.inl rfl
    | block => simp [hx] at this
    | letter ch =>
      simp only [hx, beq_iff_eq] at this
      subst this
      exact Or.inr rfl
  · intro h i hi
    rcases h i (List.mem_range.mp hi) with hx | hx <;> simp [hx]

theorem gridSet_set_same (g : Grid) (r c : Nat) (v1 v2 : Cell) :
    gridSet (gridSet g r c v1) r c v2 = gridSet g r c v2 := by
  unfold gridSet
  by_cases hr : r < g.length
  · rw [getD_set_self _ _ _ _ hr, List.set_set, List.set_set]
  · have hle : g.length ≤ r := by omega
    simp only [List.set_eq_of_length_le hle]

theorem gridSet_comm {g : Grid} {r1 c1 r2 c2 : Nat} (v1 v2 : Cell)
    (h : ¬ (r1 = r2 ∧ c1 = c2)) :
    gridSet (gridSet g r1 c1 v1) r2 c2 v2 =
      gridSet (gridSet g r2 c2 v2) r1 c1 v1 := by
  unfold gridSet
  by_cases hr : r1 = r2
  · subst hr
    have hc : c1 ≠ c2 := fun hcc => h ⟨rfl, hcc⟩
    by_cases hrl : r1 < g.length
    · rw [getD_set_self _ _ _ _ hrl, getD_set_self _ _ _ _ hrl,
        List.set_set, List.set_set, List.set_comm _ _ _ hc]
    · have hle : g.length ≤ r1 := by omega
      simp only [List.set_eq_of_length_le hle]
  · rw [getD_set_ne _ _ _ hr, getD_set_ne _ _ _ (Ne.symm hr),
      List.set_comm _ _ _ hr]

theorem unplace_comm_set {g : Grid} {r c : Nat} {v : Cell}
    {l : List (Nat × Nat)} (h : (r, c) ∉ l) :
    unplaceGrid (gridSet g r c v) l = gridSet (unplaceGrid g l) r c v := by
  induction l generalizing g with
  | nil => rfl
  | cons p rest ih =>
    have hne : ¬ (r = p.1 ∧ c = p.2) := by
      rintro ⟨h1, h2⟩
      apply h
      have : p = (r, c) := Prod.ext h1.symm h2.symm
      rw [this]
      exact List.mem_cons_self _ _
    show unplaceGrid (gridSet (gridSet g r c v) p.1 p.2 Cell.empty) rest = _
    rw [gridSet_comm _ _ hne]
    exact ih (fun hm => h (List.mem_cons_of_mem _ hm))

theorem placeNytGo_cons_empty {s : Slot} {w : Word} {i : Nat} {g : Grid}
    (rest : List Nat) (ch : List (Nat × Nat))
    (hc : gridGet g (slotCell s i).1 (slotCell s i).2 = Cell.empty) :
    placeNytGo s w (i :: rest) g ch =
      placeNytGo s w rest
        (gridSet g (slotCell s i).1 (slotCell s i).2
          (Cell.letter (w.getD i ' ')))
        (ch ++ [slotCell s i]) := by
  simp [placeNytGo, hc]

theorem placeNytGo_cons_filled {s : Slot} {w : Word} {i : Nat} {g : Grid}
    (rest : List Nat) (ch : List (Nat × Nat))
    (hc : gridGet g (slotCell s i).1 (slotCell s i).2 ≠ Cell.empty) :
    placeNytGo s w (i :: rest) g ch = placeNytGo s w rest g ch := by
  simp [placeNytGo, hc]

theorem placeNytGo_acc (s : Slot) (w : Word) :
    ∀ (l : List Nat) (g : Grid) (ch : List (Nat × Nat)),
      (placeNytGo s w l g ch).1 = (placeNytGo s w l g []).1 ∧
      (placeNytGo s w l g ch).2 = ch ++ (placeNytGo s w l g []).2 := by
  intro l
  induction l with
  | nil =>
    intro g ch
    exact ⟨rfl, by simp [placeNytGo]⟩
  | cons i rest ih =>
    intro g ch
    by_cases hc : gridGet g (slotCell s i).1 (slotCell s i).2 = Cell.empty
    · rw [placeNytGo_cons_empty rest ch hc, placeNytGo_cons_empty rest [] hc]
      constructor
      · rw [(ih _ (ch ++ [slotCell s i])).1, (ih _ (List.nil ++ [slotCell s i])).1]
      · rw [(ih _ (ch ++ [slotCell s i])).2, (ih _ (List.nil ++ [slotCell s i])).2]
        simp
    · rw [placeNytGo_cons_filled rest ch hc, placeNytGo_cons_filled rest [] hc]
      exact ih g ch

theorem placeNytGo_spec (s : Slot) (w : Word) :
    ∀ (l : List Nat) (g : Grid), l.Nodup →
      ((∀ r c, (r, c) ∉ (placeNytGo s w l g []).2 →
          gridGet (placeNytGo s w l g []).1 r c = gridGet g r c) ∧
       (∀ r c, ((r, c) ∈ (placeNytGo s w l g []).2 ↔
          (∃ i ∈ l, slotCell s i = (r, c)) ∧ gridGet g r c = Cell.empty)) ∧
       (∀ i ∈ l, gridGet g (slotCell s i).1 (slotCell s i).2 = Cell.empty →
          gridGet (placeNytGo s w l g []).1 (slotCell s i).1 (slotCell s i).2 =
            Cell.letter (w.getD i ' ')) ∧
       unplaceGrid (placeNytGo s w l g []).1 (placeNytGo s w l g []).2 = g) := by
  intro l
  induction l with
  | nil =>
    intro g _
    refine ⟨fun r c _ => rfl, ?_, ?_, rfl⟩
    · intro r c
      simp [placeNytGo]
    · intro i hi
      cases hi
  | cons i rest ih =>
    intro g hnd
    have hi_notin := (List.nodup_cons.mp hnd).1
    have hnd2 := (List.nodup_cons.mp hnd).2
    by_cases hc : gridGet g (slotCell s i).1 (slotCell s i).2 = Cell.empty
    · have hb := bounds_of_gridGet_ne_block (by rw [hc]; intro hx; cases hx)
      rw [placeNytGo_cons_empty rest [] hc]
      rw [(placeNytGo_acc s w rest _ _).1, (placeNytGo_acc s w rest _ _).2]
      obtain ⟨IH1, IH2, IH3, IH4⟩ :=
        ih (gridSet g (slotCell s i).1 (slotCell s i).2
          (Cell.letter (w.getD i ' '))) hnd2
      have hgp : gridGet (gridSet g (slotCell s i).1 (slotCell s i).2
          (Cell.letter (w.getD i ' '))) (slotCell s i).1 (slotCell s i).2 =
          Cell.letter (w.getD i ' ') :=
        gridGet_set_self _ _ _ hb.1 hb.2
      refine ⟨?_, ?_, ?_, ?_⟩
      · intro r c hno
        simp only [List.nil_append, List.singleton_append, List.mem_cons] at hno
        push_neg at hno
        rw [IH1 r c hno.2]
        apply gridGet_set_ne
        rintro ⟨h1, h2⟩
        exact hno.1 (by rw [← h1, ← h2])
      · intro r c
        simp only [List.nil_append, List.singleton_append]
        rw [List.mem_cons, IH2 r c]
        constructor
        · rintro (heq | ⟨⟨j, hj, hcell⟩, hemp⟩)
          · refine ⟨⟨i, List.mem_cons_self _ _, heq.symm⟩, ?_⟩
            have h1 := congrArg Prod.fst heq
            have h2 := congrArg Prod.snd heq
            dsimp only at h1 h2
            rw [h1, h2]
            exact hc
          · have hne : slotCell s i ≠ (r, c) := by
              intro hx
              have h1 := congrArg Prod.fst hx
              have h2 := congrArg Prod.snd hx
              dsimp only at h1 h2
              rw [h1, h2] at hemp hgp
              rw [hgp] at hemp
              cases hemp
            refine ⟨⟨j, List.mem_cons_of_mem _ hj, hcell⟩, ?_⟩
            rw [← hemp]
            symm
            apply gridGet_set_ne
            rintro ⟨h1, h2⟩
            exact hne (by rw [← h1, ← h2])
        · rintro ⟨⟨j, hj, hcell⟩, hemp⟩
          by_cases hpq : slotCell s i = (r, c)
          · exact Or.inl hpq.symm
          · rcases List.mem_cons.mp hj with heq | hj2
            · subst heq
              exact absurd hcell hpq
            · refine Or.inr ⟨⟨j, hj2, hcell⟩, ?_⟩
              rw [← hemp]
              apply gridGet_set_ne
              rintro ⟨h1, h2⟩
              exact hpq (by rw [← h1, ← h2])
      · intro j hj hjemp
        rcases List.mem_cons.mp hj with heq | hj2
        · subst heq
          rw [IH1 _ _ ?_]
          · exact hgp
          · intro hmem
            have hmem2 := (IH2 (slotCell s j).1 (slotCell s j).2).mp hmem
            rw [hgp] at hmem2
            cases hmem2.2
        · have hji : j ≠ i := fun hx => hi_notin (hx ▸ hj2)
          have hne : ¬ ((slotCell s i).1 = (slotCell s j).1 ∧
              (slotCell s i).2 = (slotCell s j).2) := by
            rintro ⟨h1, h2⟩
            exact hji (slotCell_inj (Prod.ext h1 h2)).symm
          refine IH3 j hj2 ?_
          rw [gridGet_set_ne _ hne]
          exact hjemp
      · simp only [List.nil_append, List.singleton_append]
        have hnotin : ((slotCell s i).1, (slotCell s i).2) ∉
            (placeNytGo s w rest (gridSet g (slotCell s i).1 (slotCell s i).2
              (Cell.letter (w.getD i ' '))) []).2 := by
          intro hmem
          have hmem2 := (IH2 (slotCell s i).1 (slotCell s i).2).mp hmem
          rw [hgp] at hmem2
          cases hmem2.2
        have hunfold : unplaceGrid
            (placeNytGo s w rest (gridSet g (slotCell s i).1 (slotCell s i).2
              (Cell.letter (w.getD i ' '))) []).1
            (slotCell s i ::
              (placeNytGo s w rest (gridSet g (slotCell s i).1 (slotCell s i).2
                (Cell.letter (w.getD i ' '))) []).2) =
          unplaceGrid
            (gridSet (placeNytGo s w rest (gridSet g (slotCell s i).1
              (slotCell s i).2 (Cell.letter (w.getD i ' '))) []).1
              (slotCell s i).1 (slotCell s i).2 Cell.empty)
            (placeNytGo s w rest (gridSet g (slotCell s i).1 (slotCell s i).2
              (Cell.letter (w.getD i ' '))) []).2 := rfl
        rw [hunfold, unplace_comm_set hnotin, IH4, gridSet_set_same, ← hc]
        exact gridSet_restore hb.1 hb.2
    · rw [placeNytGo_cons_filled rest [] hc]
      obtain ⟨IH1, IH2, IH3, IH4⟩ := ih g hnd2
      refine ⟨?_, ?_, ?_, IH4⟩
      · intro r c hno
        exact IH1 r c hno
      · intro r c
        rw [IH2 r c]
        constructor
        · rintro ⟨⟨j, hj, hcell⟩, hemp⟩
          exact ⟨⟨j, List.mem_cons_of_mem _ hj, hcell⟩, hemp⟩
        · rintro ⟨⟨j, hj, hcell⟩, hemp⟩
          rcases List.mem_cons.mp hj with heq | hj2
          · subst heq
            refine absurd ?_ hc
            have h1 := congrArg Prod.fst hcell
            have h2 := congrArg Prod.snd hcell
            dsimp only at h1 h2
            rw [h1, h2]
            exact hemp
          · exact ⟨⟨j, hj2, hcell⟩, hemp⟩
      · intro j hj hjemp
        rcases List.mem_cons.mp hj with heq | hj2
        · subst heq
          exact absurd hjemp hc
        · exact IH3 j hj2 hjemp

/-! ## Permutation facts about shuffle and sort -/

theorem set_getD_self_total {α : Type} (l : List α) (i : Nat) (d : α) :
    l.set i (l.getD i d) = l := by
  by_cases h : i < l.length
  · exact set_getD_self l i d h
  · exact List.set_eq_of_length_le (by omega)

theorem cons_set_perm {α : Type} :
    ∀ (xs : List α) (k : Nat) (x b : α), xs.get? k = some b →
      List.Perm (b :: xs.set k x) (x :: xs)
  | [], k, _, _, h => by cases k <;> cases h
  | y :: ys, 0, x, b, h => by
    have hb : b = y := by
      simp only [List.get?_cons_zero, Option.some.injEq] at h
      exact h.symm
    subst hb
    exact List.Perm.swap x b ys
  | y :: ys, k+1, x, b, h => by
    have htail : List.Perm (b :: ys.set k x) (x :: ys) :=
      cons_set_perm ys k x b (by simpa using h)
    exact ((List.Perm.swap y b (ys.set k x)).trans (htail.cons y)).trans
      (List.Perm.swap x y ys)

theorem swapList_perm {α : Type} :
    ∀ (l : List α) (i j : Nat), List.Perm (swapList l i j) l := by
  intro l
  induction l with
  | nil =>
    intro i j
    unfold swapList
    cases i <;> simp
  | cons x xs ih =>
    intro i j
    match i, j with
    | 0, 0 =>
      unfold swapList
      simp only [List.get?_cons_zero]
      simpa using List.Perm.refl (x :: xs)
    | 0, k+1 =>
      unfold swapList
      simp only [List.get?_cons_zero, List.get?_cons_succ]
      cases hk : xs.get? k with
      | none => exact List.Perm.refl _
      | some b =>
        show List.Perm (((x :: xs).set 0 b).set (k+1) x) (x :: xs)
        show List.Perm (b :: xs.set k x) (x :: xs)
        exact cons_set_perm xs k x b hk
    | m+1, 0 =>
      unfold swapList
      simp only [List.get?_cons_zero, List.get?_cons_succ]
      cases hm : xs.get? m with
      | none => exact List.Perm.refl _
      | some a =>
        show List.Perm (((x :: xs).set (m+1) x).set 0 a) (x :: xs)
        show List.Perm (a :: xs.set m x) (x :: xs)
        exact cons_set_perm xs m x a hm
    | m+1, k+1 =>
      unfold swapList
      simp only [List.get?_cons_succ]
      cases hm : xs.get? m with
      | none => exact List.Perm.refl _
      | some a =>
        cases hk : xs.get? k with
        | none => exact List.Perm.refl _
        | some b =>
          show List.Perm (((x :: xs).set (m+1) b).set (k+1) a) (x :: xs)
          show List.Perm (x :: (xs.set m b).set k a) (x :: xs)
          refine List.Perm.cons x ?_
          have := ih m k
          unfold swapList at this
          rw [hm, hk] at this
          exact this

theorem shuffleGo_perm {α : Type} :
    ∀ (i : Nat) (l : List α) (g : Rng), List.Perm (shuffleGo l i g).1 l := by
  intro i
  induction i with
  | zero => intro l g; exact List.Perm.refl l
  | succ i ih =>
    intro l g
    exact (ih _ _).trans (swapList_perm l (i+1) _)

theorem randShuffle_perm {α : Type} (l : List α) (g : Rng) :
    List.Perm (randShuffle l g).1 l :=
  shuffleGo_perm _ l g

theorem insertSorted_perm (key : Nat → Nat) (a : Nat) :
    ∀ l : List Nat, List.Perm (insertSorted key a l) (a :: l)
  | [] => List.Perm.refl _
  | b :: rest => by
    unfold insertSorted
    by_cases h : key a < key b
    · rw [if_pos h]
    · rw [if_neg h]
      exact ((insertSorted_perm key a rest).cons b).trans
        (List.Perm.swap a b rest)

theorem sortByKey_perm (key : Nat → Nat) :
    ∀ l : List Nat, List.Perm (sortByKey key l) l
  | [] => List.Perm.refl _
  | a :: rest =>
    (insertSorted_perm key a (sortByKey key rest)).trans
      ((sortByKey_perm key rest).cons a)

/-! ## The NYT place and unplace at the word level -/

theorem placeNyt_spec (g : Grid) (s : Slot) (w : Word) :
    (∀ r c, (r, c) ∉ (placeNyt g s w).2 →
        gridGet (placeNyt g s w).1 r c = gridGet g r c) ∧
    (∀ r c, ((r, c) ∈ (placeNyt g s w).2 ↔
        (∃ i, i < w.length ∧ slotCell s i = (r, c)) ∧
        gridGet g r c = Cell.empty)) ∧
    (∀ i, i < w.length →
        gridGet g (slotCell s i).1 (slotCell s i).2 = Cell.empty →
        gridGet (placeNyt g s w).1 (slotCell s i).1 (slotCell s i).2 =
          Cell.letter (w.getD i ' ')) ∧
    unplaceGrid (placeNyt g s w).1 (placeNyt g s w).2 = g := by
  obtain ⟨H1, H2, H3, H4⟩ :=
    placeNytGo_spec s w (List.range w.length) g (List.nodup_range w.length)
  unfold placeNyt
  refine ⟨H1, ?_, ?_, H4⟩
  · intro r c
    rw [H2 r c]
    constructor
    · rintro ⟨⟨i, hi, hc⟩, he⟩
      exact ⟨⟨i, List.mem_range.mp hi, hc⟩, he⟩
    · rintro ⟨⟨i, hi, hc⟩, he⟩
      exact ⟨⟨i, List.mem_range.mpr hi, hc⟩, he⟩
  · intro i hi
    exact H3 i (List.mem_range.mpr hi)

theorem placeNyt_letters {g : Grid} {s : Slot} {w : Word}
    (hf : fitsNyt g s w = true) :
    ∀ i, i < w.length →
      gridGet (placeNyt g s w).1 (slotCell s i).1 (slotCell s i).2 =
        Cell.letter (w.getD i ' ') := by
  obtain ⟨H1, H2, H3, _⟩ := placeNyt_spec g s w
  intro i hi
  rcases fitsNyt_iff.mp hf i hi with he | hl
  · exact H3 i hi he
  · have hne : ((slotCell s i).1, (slotCell s i).2) ∉ (placeNyt g s w).2 := by
      intro hmem
      have h2 := (H2 (slotCell s i).1 (slotCell s i).2).mp hmem
      rw [hl] at h2
      cases h2.2
    rw [H1 _ _ hne, hl]

theorem placeNyt_block_iff (g : Grid) (s : Slot) (w : Word) (r c : Nat) :
    gridGet (placeNyt g s w).1 r c = Cell.block ↔
      gridGet g r c = Cell.block := by
  obtain ⟨H1, H2, H3, _⟩ := placeNyt_spec g s w
  by_cases hmem : (r, c) ∈ (placeNyt g s w).2
  · obtain ⟨⟨i, hi, hc⟩, he⟩ := (H2 r c).mp hmem
    have hlet := H3 i hi (by
      have h1 := congrArg Prod.fst hc
      have h2 := congrArg Prod.snd hc
      dsimp only at h1 h2
      rw [h1, h2]; exact he)
    have h1 := congrArg Prod.fst hc
    have h2 := congrArg Prod.snd hc
    dsimp only at h1 h2
    rw [h1, h2] at hlet
    rw [hlet, he]
    constructor <;> intro hx <;> cases hx
  · rw [H1 r c hmem]

theorem placeNyt_preserves_letter {g : Grid} {s : Slot} {w : Word}
    {r c : Nat} {ch : Char} (hl : gridGet g r c = Cell.letter ch) :
    gridGet (placeNyt g s w).1 r c = Cell.letter ch := by
  obtain ⟨H1, H2, _, _⟩ := placeNyt_spec g s w
  have hmem : (r, c) ∉ (placeNyt g s w).2 := by
    intro hmem
    have h2 := (H2 r c).mp hmem
    rw [hl] at h2
    cases h2.2
  rw [H1 r c hmem, hl]

/-! ## Shape and content of the blank grid -/

/-- The grid is an `n` by `n` board. -/
def GridShape (n : Nat) (g : Grid) : Prop :=
  g.length = n ∧ ∀ r, r < n → (g.getD r []).length = n

theorem makeBlank_get (m : Mask) (r c : Nat) (hr : r < m.length)
    (hc : c < m.length) :
    gridGet (makeBlank m) r c =
      if maskGet m r c then Cell.empty else Cell.block := by
  unfold makeBlank gridGet
  rw [getD_range_map, if_pos hr, getD_range_map, if_pos hc]

theorem makeBlank_shape (m : Mask) : GridShape m.length (makeBlank m) := by
  constructor
  · unfold makeBlank
    simp
  · intro r hr
    unfold makeBlank
    rw [getD_range_map, if_pos hr]
    simp

theorem blockIffBlack_makeBlank (m : Mask) :
    BlockIffBlack m (makeBlank m) := by
  intro r c hr hc
  rw [makeBlank_get m r c hr hc]
  by_cases h : maskGet m r c
  · rw [if_pos h, h]
    constructor
    · intro hx; cases hx
    · intro hx; cases hx
  · rw [if_neg h, Bool.not_eq_true] at *
    rw [h]
    exact ⟨fun _ => rfl, fun _ => rfl⟩

theorem gridShape_set (n : Nat) {g : Grid} (r c : Nat) (v : Cell)
    (h : GridShape n g) : GridShape n (gridSet g r c v) := by
  refine ⟨by rw [gridSet_length, h.1], ?_⟩
  intro r2 hr2
  rw [gridRowLen_set]
  exact h.2 r2 hr2

/-! ## The NYT candidate loop and backtracking search -/

theorem result_eq {a b : Bool} {g1 g2 : Grid} {w1 w2 : Words} {r1 r2 : Rng}
    (h : ((a, g1, w1), r1) = ((b, g2, w2), r2)) :
    a = b ∧ g1 = g2 ∧ w1 = w2 ∧ r1 = r2 :=
  ⟨congrArg (fun x => x.1.1) h, congrArg (fun x => x.1.2.1) h,
   congrArg (fun x => x.1.2.2) h, congrArg (fun x => x.2) h⟩

theorem tryEach_nil (slot : Slot) (i : Nat)
    (k : Grid → Words → Rng → (Bool × Grid × Words) × Rng)
    (grid : Grid) (ws : Words) (g : Rng) :
    tryEach slot i k [] grid ws g = ((false, grid, ws), g) := rfl

theorem tryEach_cons_nofit {slot : Slot} {i : Nat}
    {k : Grid → Words → Rng → (Bool × Grid × Words) × Rng} {w : Word}
    (more : List Word) (grid : Grid) (ws : Words) (g : Rng)
    (hfit : fitsNyt grid slot w = false) :
    tryEach slot i k (w :: more) grid ws g =
      tryEach slot i k more grid ws g := by
  simp only [tryEach, hfit]
  rfl

theorem tryEach_cons_fit_true {slot : Slot} {i : Nat}
    {k : Grid → Words → Rng → (Bool × Grid × Words) × Rng} {w : Word}
    (more : List Word) (grid : Grid) (ws : Words) (g : Rng)
    {gF : Grid} {wF : Words} {g2 : Rng}
    (hfit : fitsNyt grid slot w = true)
    (hk : k (placeNyt grid slot w).1 (ws.set i (some w)) g =
      ((true, gF, wF), g2)) :
    tryEach slot i k (w :: more) grid ws g = ((true, gF, wF), g2) := by
  simp only [tryEach, hfit, if_true]
  rw [hk]

theorem tryEach_cons_fit_false {slot : Slot} {i : Nat}
    {k : Grid → Words → Rng → (Bool × Grid × Words) × Rng} {w : Word}
    (more : List Word) (grid : Grid) (ws : Words) (g : Rng)
    {gF : Grid} {wF : Words} {g2 : Rng}
    (hfit : fitsNyt grid slot w = true)
    (hk : k (placeNyt grid slot w).1 (ws.set i (some w)) g =
      ((false, gF, wF), g2)) :
    tryEach slot i k (w :: more) grid ws g =
      tryEach slot i k more (unplaceGrid gF (placeNyt grid slot w).2)
        (wF.set i none) g2 := by
  simp only [tryEach, hfit, if_true]
  rw [hk]

theorem tryEach_restore {slot : Slot} {i : Nat} {ws : Words}
    {k : Grid → Words → Rng → (Bool × Grid × Words) × Rng}
    (hws : ws.getD i none = none)
    (Hk : ∀ (g' : Grid) (w : Word) (r' : Rng) (gK : Grid) (wK : Words)
      (gR : Rng), k g' (ws.set i (some w)) r' = ((false, gK, wK), gR) →
      gK = g' ∧ wK = ws.set i (some w)) :
    ∀ (cands : List Word) (grid : Grid) (g : Rng) (gF : Grid) (wF : Words)
      (g2 : Rng),
      tryEach slot i k cands grid ws g = ((false, gF, wF), g2) →
      gF = grid ∧ wF = ws := by
  intro cands
  induction cands with
  | nil =>
    intro grid g gF wF g2 h
    rw [tryEach_nil] at h
    obtain ⟨_, h1, h2, _⟩ := result_eq h
    exact ⟨h1.symm, h2.symm⟩
  | cons w more ih =>
    intro grid g gF wF g2 h
    by_cases hfit : fitsNyt grid slot w = true
    · rcases hk0 : k (placeNyt grid slot w).1 (ws.set i (some w)) g with
        ⟨⟨b, gK, wK⟩, gR⟩
      cases b with
      | true =>
        rw [tryEach_cons_fit_true more grid ws g hfit hk0] at h
        obtain ⟨hb, _, _, _⟩ := result_eq h
        exact Bool.noConfusion hb
      | false =>
        rw [tryEach_cons_fit_false more grid ws g hfit hk0] at h
        obtain ⟨hg, hw⟩ := Hk _ _ _ _ _ _ hk0
        rw [hg, hw] at h
        rw [(placeNyt_spec grid slot w).2.2.2] at h
        rw [List.set_set] at h
        have hrs := set_getD_self_total ws i none
        rw [hws] at hrs
        rw [hrs] at h
        exact ih grid gR gF wF g2 h
    · rw [Bool.not_eq_true] at hfit
      rw [tryEach_cons_nofit more grid ws g hfit] at h
      exact ih grid g gF wF g2 h

theorem tryEach_success {slot : Slot} {i : Nat} {grid : Grid} {ws : Words}
    {k : Grid → Words → Rng → (Bool × Grid × Words) × Rng}
    (Q : Grid → Words → Prop)
    (hws : ws.getD i none = none)
    (Hk : ∀ (g' : Grid) (w : Word) (r' : Rng) (gK : Grid) (wK : Words)
      (gR : Rng), k g' (ws.set i (some w)) r' = ((false, gK, wK), gR) →
      gK = g' ∧ wK = ws.set i (some w)) :
    ∀ (cands : List Word) (g : Rng) (gF : Grid) (wF : Words) (g2 : Rng),
      (∀ w ∈ cands, fitsNyt grid slot w = true →
        ∀ (r' : Rng) (gK : Grid) (wK : Words) (gR : Rng),
          k (placeNyt grid slot w).1 (ws.set i (some w)) r' =
            ((true, gK, wK), gR) → Q gK wK) →
      tryEach slot i k cands grid ws g = ((true, gF, wF), g2) →
      Q gF wF := by
  intro cands
  induction cands with
  | nil =>
    intro g gF wF g2 _ h
    rw [tryEach_nil] at h
    obtain ⟨hb, _, _, _⟩ := result_eq h
    exact Bool.noConfusion hb
  | cons w more ih =>
    intro g gF wF g2 Hsucc h
    by_cases hfit : fitsNyt grid slot w = true
    · rcases hk0 : k (placeNyt grid slot w).1 (ws.set i (some w)) g with
        ⟨⟨b, gK, wK⟩, gR⟩
      cases b with
      | true =>
        rw [tryEach_cons_fit_true more grid ws g hfit hk0] at h
        obtain ⟨_, h1, h2, _⟩ := result_eq h
        rw [← h1, ← h2]
        exact Hsucc w (List.mem_cons_self w more) hfit g gK wK gR hk0
      | false =>
        rw [tryEach_cons_fit_false more grid ws g hfit hk0] at h
        obtain ⟨hg, hw⟩ := Hk _ _ _ _ _ _ hk0
        rw [hg, hw] at h
        rw [(placeNyt_spec grid slot w).2.2.2] at h
        rw [List.set_set] at h
        have hrs := set_getD_self_total ws i none
        rw [hws] at hrs
        rw [hrs] at h
        exact ih gR gF wF g2
          (fun w2 hw2 => Hsucc w2 (List.mem_cons_of_mem w hw2)) h
    · rw [Bool.not_eq_true] at hfit
      rw [tryEach_cons_nofit more grid ws g hfit] at h
      exact ih g gF wF g2
        (fun w2 hw2 => Hsucc w2 (List.mem_cons_of_mem w hw2)) h

theorem backtrackNyt_nil (slots : List Slot) (lex : Lexicon) (maxA fuel : Nat)
    (grid : Grid) (ws : Words) (g : Rng) :
    backtrackNyt slots lex maxA fuel [] grid ws g = ((true, grid, ws), g) := by
  cases fuel <;> rfl

theorem backtrackNyt_restore (slots : List Slot) (lex : Lexicon) (maxA : Nat) :
    ∀ (fuel : Nat) (order : List Nat) (grid : Grid) (ws : Words) (g : Rng)
      (gF : Grid) (wF : Words) (g2 : Rng),
      order.Nodup →
      (∀ j ∈ order, ws.getD j none = none) →
      backtrackNyt slots lex maxA fuel order grid ws g = ((false, gF, wF), g2) →
      gF = grid ∧ wF = ws := by
  intro fuel
  induction fuel with
  | zero =>
    intro order grid ws g gF wF g2 _ _ h
    cases order with
    | nil =>
      rw [backtrackNyt_nil] at h
      obtain ⟨hb, _, _, _⟩ := result_eq h
      exact Bool.noConfusion hb
    | cons i rest =>
      obtain ⟨_, h1, h2, _⟩ := result_eq h
      exact ⟨h1.symm, h2.symm⟩
  | succ fuel ih =>
    intro order grid ws g gF wF g2 hnd hall h
    cases order with
    | nil =>
      rw [backtrackNyt_nil] at h
      obtain ⟨hb, _, _, _⟩ := result_eq h
      exact Bool.noConfusion hb
    | cons i rest =>
      simp only [backtrackNyt] at h
      by_cases hemp : (lexGet lex (slots.getD i dSlot).length).isEmpty = true
      · rw [if_pos hemp] at h
        obtain ⟨_, h1, h2, _⟩ := result_eq h
        exact ⟨h1.symm, h2.symm⟩
      · rw [if_neg hemp] at h
        have hino : i ∉ rest := (List.nodup_cons.mp hnd).1
        have hndr : rest.Nodup := (List.nodup_cons.mp hnd).2
        refine tryEach_restore (hall i (List.mem_cons_self i rest)) ?_ _ grid
          _ gF wF g2 h
        intro g' w r' gK wK gR hk
        refine ih rest g' (ws.set i (some w)) r' gK wK gR hndr ?_ hk
        intro j hj
        rw [getD_set_ne ws (some w) none
          (fun hij => hino (by rw [hij]; exact hj))]
        exact hall j (List.mem_cons_of_mem i hj)

theorem backtrackNyt_success {slots : List Slot} {lex : Lexicon} {maxA : Nat}
    (hlex : LexWF lex) :
    ∀ (fuel : Nat) (order : List Nat) (grid : Grid) (ws : Words) (g : Rng)
      (gF : Grid) (wF : Words) (g2 : Rng),
      order.Nodup →
      (∀ j ∈ order, j < slots.length) →
      (∀ j ∈ order, ws.getD j none = none) →
      ws.length = slots.length →
      (∀ j w, ws.getD j none = some w →
        w.length = (slots.getD j dSlot).length ∧
        ∀ i2, i2 < w.length →
          gridGet grid (slotCell (slots.getD j dSlot) i2).1
            (slotCell (slots.getD j dSlot) i2).2 =
            Cell.letter (w.getD i2 ' ')) →
      backtrackNyt slots lex maxA fuel order grid ws g = ((true, gF, wF), g2) →
      ((∀ j ∈ order, (wF.getD j none).isSome = true) ∧
       (∀ j, j ∉ order → wF.getD j none = ws.getD j none) ∧
       wF.length = slots.length ∧
       (∀ j w, wF.getD j none = some w →
         w.length = (slots.getD j dSlot).length ∧
         ∀ i2, i2 < w.length →
           gridGet gF (slotCell (slots.getD j dSlot) i2).1
             (slotCell (slots.getD j dSlot) i2).2 =
             Cell.letter (w.getD i2 ' ')) ∧
       (∀ r c, gridGet gF r c = Cell.block ↔ gridGet grid r c = Cell.block)) := by
  intro fuel
  induction fuel with
  | zero =>
    intro order grid ws g gF wF g2 _ _ _ hlen hplaced h
    cases order with
    | nil =>
      rw [backtrackNyt_nil] at h
      obtain ⟨_, h1, h2, _⟩ := result_eq h
      subst h1; subst h2
      refine ⟨fun j hj => absurd hj (List.not_mem_nil j), fun j _ => rfl,
        hlen, hplaced, fun r c => Iff.rfl⟩
    | cons i rest =>
      obtain ⟨hb, _, _, _⟩ := result_eq h
      exact Bool.noConfusion hb
  | succ fuel ih =>
    intro order grid ws g gF wF g2 hnd hbnd hall hlen hplaced h
    cases order with
    | nil =>
      rw [backtrackNyt_nil] at h
      obtain ⟨_, h1, h2, _⟩ := result_eq h
      subst h1; subst h2
      refine ⟨fun j hj => absurd hj (List.not_mem_nil j), fun j _ => rfl,
        hlen, hplaced, fun r c => Iff.rfl⟩
    | cons i rest =>
      simp only [backtrackNyt] at h
      by_cases hemp : (lexGet lex (slots.getD i dSlot).length).isEmpty = true
      · rw [if_pos hemp] at h
        obtain ⟨hb, _, _, _⟩ := result_eq h
        exact Bool.noConfusion hb
      · rw [if_neg hemp] at h
        have hino : i ∉ rest := (List.nodup_cons.mp hnd).1
        have hndr : rest.Nodup := (List.nodup_cons.mp hnd).2
        have hilt : i < slots.length := hbnd i (List.mem_cons_self i rest)
        have hiws : ws.getD i none = none := hall i (List.mem_cons_self i rest)
        have hrestnone : ∀ (w : Word), ∀ j ∈ rest,
            (ws.set i (some w)).getD j none = none := by
          intro w j hj
          rw [getD_set_ne ws (some w) none
            (fun hij => hino (by rw [hij]; exact hj))]
          exact hall j (List.mem_cons_of_mem i hj)
        refine tryEach_success
          (fun gK wK =>
            (∀ j ∈ i :: rest, (wK.getD j none).isSome = true) ∧
            (∀ j, j ∉ i :: rest → wK.getD j none = ws.getD j none) ∧
            wK.length = slots.length ∧
            (∀ j w, wK.getD j none = some w →
              w.length = (slots.getD j dSlot).length ∧
              ∀ i2, i2 < w.length →
                gridGet gK (slotCell (slots.getD j dSlot) i2).1
                  (slotCell (slots.getD j dSlot) i2).2 =
                  Cell.letter (w.getD i2 ' ')) ∧
            (∀ r c, gridGet gK r c = Cell.block ↔
              gridGet grid r c = Cell.block))
          hiws ?_ _ _ gF wF g2 ?_ h
        · -- Hk: the recursive search restores on failure
          intro g' w r' gK wK gR hk
          exact backtrackNyt_restore slots lex maxA fuel rest g'
            (ws.set i (some w)) r' gK wK gR hndr (hrestnone w) hk
        · -- Hsucc: a successful recursive search yields the postcondition
          intro w hwmem hfit r' gK wK gR hk
          have hwcand : w ∈ lexGet lex (slots.getD i dSlot).length := by
            have h1 := List.mem_of_mem_take hwmem
            have h2 := (randShuffle_perm _ _).mem_iff.mp h1
            exact (List.mem_filter.mp h2).1
          have hwlen : w.length = (slots.getD i dSlot).length := hlex _ w hwcand
          have hplaced2 : ∀ j w2,
              (ws.set i (some w)).getD j none = some w2 →
              w2.length = (slots.getD j dSlot).length ∧
              ∀ i2, i2 < w2.length →
                gridGet (placeNyt grid (slots.getD i dSlot) w).1
                  (slotCell (slots.getD j dSlot) i2).1
                  (slotCell (slots.getD j dSlot) i2).2 =
                  Cell.letter (w2.getD i2 ' ') := by
            intro j w2 hj
            by_cases hji : j = i
            · subst hji
              rw [getD_set_self ws j (some w) none (by omega)] at hj
              have hw2 : w2 = w := Option.some.injEq _ _ ▸ hj.symm ▸ rfl
              subst hw2
              refine ⟨hwlen, ?_⟩
              intro i2 hi2
              exact placeNyt_letters hfit i2 hi2
            · rw [getD_set_ne ws (some w) none (fun hij => hji hij.symm)] at hj
              obtain ⟨hl2, hpl2⟩ := hplaced j w2 hj
              refine ⟨hl2, ?_⟩
              intro i2 hi2
              exact placeNyt_preserves_letter (hpl2 i2 hi2)
          obtain ⟨IH1, IH2, IH3, IH4, IH5⟩ := ih rest
            (placeNyt grid (slots.getD i dSlot) w).1 (ws.set i (some w)) r'
            gK wK gR hndr
            (fun j hj => hbnd j (List.mem_cons_of_mem i hj))
            (hrestnone w)
            (by rw [List.length_set]; exact hlen)
            hplaced2 hk
          refine ⟨?_, ?_, IH3, IH4, ?_⟩
          · intro j hj
            rcases List.mem_cons.mp hj with hji | hjr
            · subst hji
              rw [IH2 j hino, getD_set_self ws j (some w) none (by omega)]
              rfl
            · exact IH1 j hjr
          · intro j hj
            have hji : j ≠ i := fun hx => hj (hx ▸ List.mem_cons_self i rest)
            have hjr : j ∉ rest := fun hx => hj (List.mem_cons_of_mem i hx)
            rw [IH2 j hjr, getD_set_ne ws (some w) none (fun hx => hji hx.symm)]
          · intro r c
            rw [IH5 r c, placeNyt_block_iff]

theorem getD_replicate_none (n j : Nat) :
    (List.replicate n (none : Option Word)).getD j none = none := by
  by_cases h : j < n
  · exact getD_replicate none none h
  · rw [List.getD_eq_default]
    rw [List.length_replicate]
    omega

theorem crossOK_of_placed {slots : List Slot} {grid : Grid} {ws : Words}
    (hlen : WordsLenOK slots ws) (hpl : PlacedOn slots grid ws) :
    CrossOK slots ws := by
  intro a b ia ib ha hb _ _ hia hib hcell wa wb hwa hwb
  have hwalen := hlen a ha wa hwa
  have hwblen := hlen b hb wb hwb
  have h1 := hpl a ha wa hwa ia (by rw [hwalen]; exact hia)
  have h2 := hpl b hb wb hwb ib (by rw [hwblen]; exact hib)
  rw [hcell] at h1
  exact Cell.letter.inj (h1.symm.trans h2)

theorem fillNyt_success {mask : Mask} {slots : List Slot} {lex : Lexicon}
    {maxA : Nat} {g : Rng} {gF : Grid} {wF : Words} {g2 : Rng}
    (hlex : LexWF lex)
    (h : fillNyt mask slots lex maxA g = ((true, gF, wF), g2)) :
    AllAssigned slots wF ∧ WordsLenOK slots wF ∧ PlacedOn slots gF wF ∧
    CrossOK slots wF ∧ BlockIffBlack mask gF := by
  simp only [fillNyt] at h
  have hperm := sortByKey_perm (fun a => (slots.getD a dSlot).length)
    (List.range slots.length)
  have hnd := hperm.symm.nodup (List.nodup_range slots.length)
  have hbnd : ∀ j ∈ sortByKey (fun a => (slots.getD a dSlot).length)
      (List.range slots.length), j < slots.length := by
    intro j hj
    exact List.mem_range.mp (hperm.mem_iff.mp hj)
  obtain ⟨IH1, IH2, IH3, IH4, IH5⟩ := backtrackNyt_success hlex _ _
    (makeBlank mask) (List.replicate slots.length none) g gF wF g2
    hnd hbnd (fun j _ => getD_replicate_none slots.length j)
    (List.length_replicate slots.length none)
    (fun j w hw => absurd (hw.symm.trans (getD_replicate_none slots.length j))
      (fun hx => Option.noConfusion hx)) h
  have hall : AllAssigned slots wF := by
    intro j hj
    exact IH1 j (hperm.mem_iff.mpr (List.mem_range.mpr hj))
  have hwlen : WordsLenOK slots wF := fun j _ w hw => (IH4 j w hw).1
  have hpl : PlacedOn slots gF wF := fun j _ w hw => (IH4 j w hw).2
  refine ⟨hall, hwlen, hpl, crossOK_of_placed hwlen hpl, ?_⟩
  intro r c hr hc
  rw [IH5 r c, blockIffBlack_makeBlank mask r c hr hc]

/-! ## The 6x6 retry fill: draws and placement -/

theorem pair_eq {α β : Type} {a b : α} {c d : β}
    (h : (a, c) = (b, d)) : a = b ∧ c = d :=
  ⟨congrArg Prod.fst h, congrArg Prod.snd h⟩

theorem getD_mem_of_lt {α : Type} {l : List α} {i : Nat} (d : α)
    (h : i < l.length) : l.getD i d ∈ l := by
  rw [List.getD_eq_getElem l d h]
  exact List.getElem_mem h

theorem randChoiceD_mem {l : List Word} (g : Rng) (h : l.isEmpty = false) :
    (randChoiceD l g).1 ∈ l := by
  have hlen : 0 < l.length := by
    cases l with
    | nil => cases h
    | cons a t => simp
  exact getD_mem_of_lt [] (Nat.mod_lt _ hlen)

theorem drawLoop_some {grid : Grid} {s : Slot} {cands : List Word}
    (hne : cands.isEmpty = false) :
    ∀ (fuel : Nat) (w0 : Word) (g : Rng) {w : Word} {g2 : Rng},
      drawLoop grid s cands fuel w0 g = (some w, g2) →
      fits grid s w = true ∧ (w = w0 ∨ w ∈ cands) := by
  intro fuel
  induction fuel with
  | zero =>
    intro w0 g w g2 h
    rw [drawLoop] at h
    by_cases hf : fits grid s w0 = true
    · rw [if_pos hf] at h
      obtain ⟨hw, _⟩ := pair_eq h
      have hw2 := Option.some.inj hw
      rw [← hw2]
      exact ⟨hf, Or.inl rfl⟩
    · rw [if_neg hf] at h
      exact Option.noConfusion (congrArg Prod.fst h)
  | succ fuel ih =>
    intro w0 g w g2 h
    rw [drawLoop] at h
    by_cases hf : fits grid s w0 = true
    · rw [if_pos hf] at h
      obtain ⟨hw, _⟩ := pair_eq h
      have hw2 := Option.some.inj hw
      rw [← hw2]
      exact ⟨hf, Or.inl rfl⟩
    · rw [if_neg hf] at h
      obtain ⟨h1, h2⟩ := ih (randChoiceD cands g).1 (randChoiceD cands g).2 h
      refine ⟨h1, ?_⟩
      rcases h2 with h2 | h2
      · right
        rw [h2]
        exact randChoiceD_mem g hne
      · exact Or.inr h2

theorem tryFillSlot_some {grid : Grid} {s : Slot} {cands : List Word}
    {maxA : Nat} {g : Rng} {w : Word} {g2 : Rng}
    (hne : cands.isEmpty = false)
    (h : tryFillSlot grid s cands maxA g = (some w, g2)) :
    fits grid s w = true ∧ w ∈ cands := by
  obtain ⟨h1, h2⟩ := drawLoop_some hne maxA (randChoiceD cands g).1
    (randChoiceD cands g).2 h
  refine ⟨h1, ?_⟩
  rcases h2 with h2 | h2
  · rw [h2]
    exact randChoiceD_mem g hne
  · exact h2

theorem place6_foldl_shape {s : Slot} {w : Word} (n : Nat) :
    ∀ (l : List Nat) (grid : Grid), GridShape n grid →
      GridShape n (l.foldl (fun g i => gridSet g (slotCell s i).1
        (slotCell s i).2 (Cell.letter (w.getD i ' '))) grid)
  | [], _, h => h
  | i :: rest, grid, h =>
    place6_foldl_shape n rest
      (gridSet grid (slotCell s i).1 (slotCell s i).2
        (Cell.letter (w.getD i ' ')))
      (gridShape_set n (slotCell s i).1 (slotCell s i).2
        (Cell.letter (w.getD i ' ')) h)

theorem place6_foldl_notin {s : Slot} {w : Word} (r c : Nat) :
    ∀ (l : List Nat) (grid : Grid),
      (∀ i ∈ l, ¬((slotCell s i).1 = r ∧ (slotCell s i).2 = c)) →
      gridGet (l.foldl (fun g i => gridSet g (slotCell s i).1
        (slotCell s i).2 (Cell.letter (w.getD i ' '))) grid) r c =
      gridGet grid r c := by
  intro l
  induction l with
  | nil =>
    intro grid _
    rfl
  | cons i rest ih =>
    intro grid hni
    rw [List.foldl_cons]
    rw [ih (gridSet grid (slotCell s i).1 (slotCell s i).2
      (Cell.letter (w.getD i ' ')))
      (fun j hj => hni j (List.mem_cons_of_mem i hj))]
    exact gridGet_set_ne _ (hni i (List.mem_cons_self i rest))

theorem place6_foldl_mem {s : Slot} {w : Word} :
    ∀ (l : List Nat) (grid : Grid) (i : Nat), l.Nodup → i ∈ l →
      (slotCell s i).1 < grid.length →
      (slotCell s i).2 < (grid.getD (slotCell s i).1 []).length →
      gridGet (l.foldl (fun g j => gridSet g (slotCell s j).1
        (slotCell s j).2 (Cell.letter (w.getD j ' '))) grid)
        (slotCell s i).1 (slotCell s i).2 = Cell.letter (w.getD i ' ') := by
  intro l
  induction l with
  | nil =>
    intro grid i _ hi
    cases hi
  | cons j rest ih =>
    intro grid i hnd hi hr hc
    rw [List.foldl_cons]
    rcases List.mem_cons.mp hi with hij | hir
    · subst hij
      rw [place6_foldl_notin (slotCell s i).1 (slotCell s i).2 rest _ ?_]
      · exact gridGet_set_self _ _ _ hr hc
      · intro j2 hj2
        rintro ⟨h1, h2⟩
        have hji : j2 = i := slotCell_inj (Prod.ext h1 h2)
        exact (List.nodup_cons.mp hnd).1 (hji ▸ hj2)
    · refine ih _ i (List.nodup_cons.mp hnd).2 hir ?_ ?_
      · rw [gridSet_length]
        exact hr
      · rw [gridRowLen_set]
        exact hc

theorem place6_letters {grid : Grid} {s : Slot} {w : Word} {i : Nat}
    (hi : i < w.length)
    (hr : (slotCell s i).1 < grid.length)
    (hc : (slotCell s i).2 < (grid.getD (slotCell s i).1 []).length) :
    gridGet (place6 grid s w) (slotCell s i).1 (slotCell s i).2 =
      Cell.letter (w.getD i ' ') :=
  place6_foldl_mem (List.range w.length) grid i (List.nodup_range w.length)
    (List.mem_range.mpr hi) hr hc

theorem place6_shape {grid : Grid} {s : Slot} {w : Word} {n : Nat}
    (h : GridShape n grid) : GridShape n (place6 grid s w) :=
  place6_foldl_shape n (List.range w.length) grid h

theorem place6_preserves_letter {grid : Grid} {s : Slot} {w : Word}
    {r c : Nat} {ch : Char}
    (hfit : fits grid s w = true)
    (hl : gridGet grid r c = Cell.letter ch) :
    gridGet (place6 grid s w) r c = Cell.letter ch := by
  by_cases hcov : ∃ i, i < w.length ∧ (slotCell s i).1 = r ∧
      (slotCell s i).2 = c
  · obtain ⟨i, hi, h1, h2⟩ := hcov
    subst h1
    subst h2
    have hb := bounds_of_gridGet_ne_block
      (by rw [hl]; exact fun hx => Cell.noConfusion hx)
    rcases fits_iff.mp hfit i hi with he | hbl | hlet
    · rw [hl] at he
      exact Cell.noConfusion he
    · rw [hl] at hbl
      exact Cell.noConfusion hbl
    · rw [hl] at hlet
      have hch := Cell.letter.inj hlet
      rw [place6_letters hi hb.1 hb.2, ← hch]
  · push_neg at hcov
    unfold place6
    rw [place6_foldl_notin _ _ (List.range w.length) grid ?_]
    · exact hl
    · intro i hi
      rintro ⟨h1, h2⟩
      exact absurd h2 (hcov i (List.mem_range.mp hi) h1)

theorem place6_block {grid : Grid} {s : Slot} {w : Word} {r c : Nat}
    (h : gridGet (place6 grid s w) r c = Cell.block) :
    gridGet grid r c = Cell.block := by
  by_cases hcov : ∃ i, i < w.length ∧ (slotCell s i).1 = r ∧
      (slotCell s i).2 = c
  · obtain ⟨i, hi, h1, h2⟩ := hcov
    subst h1
    subst h2
    by_contra hne
    have hb := bounds_of_gridGet_ne_block hne
    rw [place6_letters hi hb.1 hb.2] at h
    exact Cell.noConfusion h
  · push_neg at hcov
    unfold place6 at h
    rw [place6_foldl_notin _ _ (List.range w.length) grid ?_] at h
    · exact h
    · intro i hi
      rintro ⟨h1, h2⟩
      exact absurd h2 (hcov i (List.mem_range.mp hi) h1)

theorem result6_eq {a b : Option Grid} {w1 w2 : Words} {r1 r2 : Rng}
    (h : ((a, w1), r1) = ((b, w2), r2)) : a = b ∧ w1 = w2 ∧ r1 = r2 :=
  ⟨congrArg (fun x => x.1.1) h, congrArg (fun x => x.1.2) h,
   congrArg (fun x => x.2) h⟩

theorem fill6Slots_success {slots : List Slot} {lex : Lexicon} {maxA : Nat}
    {m : Mask} (hlex : LexWF lex)
    (hwhite : ∀ s2 ∈ slots, SlotWhite m s2) :
    ∀ (idxs : List Nat) (grid : Grid) (ws : Words) (g : Rng)
      (gF : Grid) (wF : Words) (g2 : Rng),
      idxs.Nodup →
      (∀ j ∈ idxs, j < slots.length) →
      (∀ j ∈ idxs, ws.getD j none = none) →
      ws.length = slots.length →
      GridShape m.length grid →
      BlockIffBlack m grid →
      (∀ j w, ws.getD j none = some w →
        w.length = (slots.getD j dSlot).length ∧
        ∀ i2, i2 < w.length →
          gridGet grid (slotCell (slots.getD j dSlot) i2).1
            (slotCell (slots.getD j dSlot) i2).2 =
            Cell.letter (w.getD i2 ' ')) →
      fill6Slots slots lex maxA idxs grid ws g = ((some gF, wF), g2) →
      ((∀ j ∈ idxs, (wF.getD j none).isSome = true) ∧
       (∀ j, j ∉ idxs → wF.getD j none = ws.getD j none) ∧
       wF.length = slots.length ∧
       (∀ j w, wF.getD j none = some w →
         w.length = (slots.getD j dSlot).length ∧
         ∀ i2, i2 < w.length →
           gridGet gF (slotCell (slots.getD j dSlot) i2).1
             (slotCell (slots.getD j dSlot) i2).2 =
             Cell.letter (w.getD i2 ' ')) ∧
       GridShape m.length gF ∧ BlockIffBlack m gF) := by
  intro idxs
  induction idxs with
  | nil =>
    intro grid ws g gF wF g2 _ _ _ hlen hshape hbib hplaced h
    obtain ⟨h1, h2, _⟩ := result6_eq h
    have h1' := Option.some.inj h1
    subst h1'
    subst h2
    exact ⟨fun j hj => absurd hj (List.not_mem_nil j), fun j _ => rfl,
      hlen, hplaced, hshape, hbib⟩
  | cons idx rest ih =>
    intro grid ws g gF wF g2 hnd hbnd hall hlen hshape hbib hplaced h
    simp only [fill6Slots] at h
    by_cases hemp :
        (lexGet lex (slots.getD idx dSlot).length).isEmpty = true
    · rw [if_pos hemp] at h
      obtain ⟨h1, _, _⟩ := result6_eq h
      exact Option.noConfusion h1
    · rw [if_neg hemp] at h
      rcases htf : tryFillSlot grid (slots.getD idx dSlot)
          (lexGet lex (slots.getD idx dSlot).length) maxA g with ⟨ow, gT⟩
      rw [htf] at h
      cases ow with
      | none =>
        obtain ⟨h1, _, _⟩ := result6_eq h
        exact Option.noConfusion h1
      | some w =>
        have hino : idx ∉ rest := (List.nodup_cons.mp hnd).1
        have hndr : rest.Nodup := (List.nodup_cons.mp hnd).2
        have hidxlt : idx < slots.length :=
          hbnd idx (List.mem_cons_self idx rest)
        have hslotmem : slots.getD idx dSlot ∈ slots :=
          getD_mem_of_lt dSlot hidxlt
        have hsw : SlotWhite m (slots.getD idx dSlot) := hwhite _ hslotmem
        obtain ⟨hfit, hwcand⟩ := tryFillSlot_some
          (Bool.not_eq_true _ ▸ hemp) htf
        have hwlen : w.length = (slots.getD idx dSlot).length :=
          hlex _ w hwcand
        have hcellb : ∀ i2, i2 < w.length →
            (slotCell (slots.getD idx dSlot) i2).1 < grid.length ∧
            (slotCell (slots.getD idx dSlot) i2).2 <
              (grid.getD (slotCell (slots.getD idx dSlot) i2).1 []).length := by
          intro i2 hi2
          obtain ⟨hb1, hb2, _⟩ := hsw i2 (by omega)
          refine ⟨by rw [hshape.1]; exact hb1, ?_⟩
          rw [hshape.2 _ hb1]
          exact hb2
        have hnotcover : ∀ r c, r < m.length → c < m.length →
            maskGet m r c = false →
            ∀ i2 ∈ List.range w.length,
              ¬((slotCell (slots.getD idx dSlot) i2).1 = r ∧
                (slotCell (slots.getD idx dSlot) i2).2 = c) := by
          intro r c _ _ hmf i2 hi2
          rintro ⟨h1, h2⟩
          obtain ⟨_, _, hwcell⟩ := hsw i2
            (by have := List.mem_range.mp hi2; omega)
          rw [h1, h2, hmf] at hwcell
          exact Bool.noConfusion hwcell
        have hbib2 : BlockIffBlack m
            (place6 grid (slots.getD idx dSlot) w) := by
          intro r c hr hc
          constructor
          · intro hb
            exact (hbib r c hr hc).mp (place6_block hb)
          · intro hmf
            show gridGet (place6 grid (slots.getD idx dSlot) w) r c =
              Cell.block
            unfold place6
            rw [place6_foldl_notin r c (List.range w.length) grid
              (hnotcover r c hr hc hmf)]
            exact (hbib r c hr hc).mpr hmf
        have hplaced2 : ∀ j w2,
            (ws.set idx (some w)).getD j none = some w2 →
            w2.length = (slots.getD j dSlot).length ∧
            ∀ i2, i2 < w2.length →
              gridGet (place6 grid (slots.getD idx dSlot) w)
                (slotCell (slots.getD j dSlot) i2).1
                (slotCell (slots.getD j dSlot) i2).2 =
                Cell.letter (w2.getD i2 ' ') := by
          intro j w2 hj
          by_cases hji : j = idx
          · subst hji
            rw [getD_set_self ws j (some w) none (by omega)] at hj
            have hw2 : w2 = w := (Option.some.inj hj).symm
            subst hw2
            refine ⟨hwlen, ?_⟩
            intro i2 hi2
            exact place6_letters hi2 (hcellb i2 hi2).1 (hcellb i2 hi2).2
          · rw [getD_set_ne ws (some w) none
              (fun hij => hji hij.symm)] at hj
            obtain ⟨hl2, hpl2⟩ := hplaced j w2 hj
            refine ⟨hl2, ?_⟩
            intro i2 hi2
            exact place6_preserves_letter hfit (hpl2 i2 hi2)
        obtain ⟨IH1, IH2, IH3, IH4, IH5, IH6⟩ := ih
          (place6 grid (slots.getD idx dSlot) w) (ws.set idx (some w)) gT
          gF wF g2 hndr
          (fun j hj => hbnd j (List.mem_cons_of_mem idx hj))
          (fun j hj => by
            rw [getD_set_ne ws (some w) none
              (fun hij => hino (by rw [hij]; exact hj))]
            exact hall j (List.mem_cons_of_mem idx hj))
          (by rw [List.length_set]; exact hlen)
          (place6_shape hshape) hbib2 hplaced2 h
        refine ⟨?_, ?_, IH3, IH4, IH5, IH6⟩
        · intro j hj
          rcases List.mem_cons.mp hj with hji | hjr
          · subst hji
            rw [IH2 j hino, getD_set_self ws j (some w) none (by omega)]
            rfl
          · exact IH1 j hjr
        · intro j hj
          have hji : j ≠ idx :=
            fun hx => hj (hx ▸ List.mem_cons_self idx rest)
          have hjr : j ∉ rest := fun hx => hj (List.mem_cons_of_mem idx hx)
          rw [IH2 j hjr,
            getD_set_ne ws (some w) none (fun hx => hji hx.symm)]

theorem result6L_eq {a b : Bool} {o1 o2 : Option Grid} {w1 w2 : Words}
    {r1 r2 : Rng} (h : ((a, o1, w1), r1) = ((b, o2, w2), r2)) :
    a = b ∧ o1 = o2 ∧ w1 = w2 ∧ r1 = r2 :=
  ⟨congrArg (fun x => x.1.1) h, congrArg (fun x => x.1.2.1) h,
   congrArg (fun x => x.1.2.2) h, congrArg (fun x => x.2) h⟩

theorem fill6Loop_success {mask : Mask} {slots : List Slot} {lex : Lexicon}
    {maxA : Nat} (hlex : LexWF lex)
    (hwhite : ∀ s2 ∈ slots, SlotWhite mask s2) :
    ∀ (m : Nat) (ws : Words) (g : Rng) (og : Option Grid) (wF : Words)
      (g2 : Rng),
      fill6Loop mask slots lex maxA m ws g = ((true, og, wF), g2) →
      ∃ gF, og = some gF ∧ AllAssigned slots wF ∧ WordsLenOK slots wF ∧
        PlacedOn slots gF wF ∧ CrossOK slots wF ∧ BlockIffBlack mask gF := by
  intro m
  induction m with
  | zero =>
    intro ws g og wF g2 h
    obtain ⟨hb, _, _, _⟩ := result6L_eq h
    exact Bool.noConfusion hb
  | succ m ih =>
    intro ws g og wF g2 h
    simp only [fill6Loop] at h
    rcases hfs : fill6Slots slots lex maxA
        (randShuffle (List.range slots.length) g).1 (makeBlank mask)
        (List.replicate slots.length none)
        (randShuffle (List.range slots.length) g).2 with ⟨⟨ogs, wsF⟩, gT⟩
    rw [hfs] at h
    cases ogs with
    | none =>
      exact ih wsF gT og wF g2 h
    | some gridS =>
      obtain ⟨_, hog, hw, _⟩ := result6L_eq h
      have hperm := randShuffle_perm (List.range slots.length) g
      obtain ⟨IH1, IH2, IH3, IH4, IH5, IH6⟩ := fill6Slots_success hlex hwhite
        (randShuffle (List.range slots.length) g).1 (makeBlank mask)
        (List.replicate slots.length none)
        (randShuffle (List.range slots.length) g).2 gridS wsF gT
        (hperm.symm.nodup (List.nodup_range slots.length))
        (fun j hj => List.mem_range.mp (hperm.mem_iff.mp hj))
        (fun j _ => getD_replicate_none slots.length j)
        (List.length_replicate slots.length none)
        (makeBlank_shape mask) (blockIffBlack_makeBlank mask)
        (fun j w hw2 => absurd
          (hw2.symm.trans (getD_replicate_none slots.length j))
          (fun hx => Option.noConfusion hx)) hfs
      refine ⟨gridS, hog.symm, ?_⟩
      rw [← hw]
      have hwlen : WordsLenOK slots wsF := fun j _ w hw2 => (IH4 j w hw2).1
      have hpl : PlacedOn slots gridS wsF := fun j _ w hw2 => (IH4 j w hw2).2
      refine ⟨?_, hwlen, hpl, crossOK_of_placed hwlen hpl, IH6⟩
      intro j hj
      exact IH1 j (hperm.mem_iff.mpr (List.mem_range.mpr hj))

theorem fill6_success {mask : Mask} {slots : List Slot} {lex : Lexicon}
    {maxRestarts maxA : Nat} {g : Rng} {og : Option Grid} {wF : Words}
    {g2 : Rng} (hlex : LexWF lex)
    (hwhite : ∀ s2 ∈ slots, SlotWhite mask s2)
    (h : fill6 mask slots lex maxRestarts maxA g = ((true, og, wF), g2)) :
    ∃ gF, og = some gF ∧ AllAssigned slots wF ∧ WordsLenOK slots wF ∧
      PlacedOn slots gF wF ∧ CrossOK slots wF ∧ BlockIffBlack mask gF :=
  fill6Loop_success hlex hwhite maxRestarts
    (List.replicate slots.length none) g og wF g2 h

/-! ## A concrete solvable fixture -/

/-- 3x3 mask with a white top row and left column: one across and one down
slot of length 3 crossing at the corner. -/
def maskW : Mask :=
  [[true, true, true], [true, false, false], [true, false, false]]

/-- The two slots of `maskW`. -/
def slotsW : List Slot := [⟨Dir.across, 0, 0, 3⟩, ⟨Dir.down, 0, 0, 3⟩]

/-- A one-word lexicon. -/
def lexW : Lexicon := [(3, [['c', 'a', 't']])]

/-- Both slots of the fixture assigned the word `cat`. -/
def wsCat : Words := [some ['c', 'a', 't'], some ['c', 'a', 't']]

/-- The filled fixture grid. -/
def gridCat : Grid :=
  [[Cell.letter 'c', Cell.letter 'a', Cell.letter 't'],
   [Cell.letter 'a', Cell.block, Cell.block],
   [Cell.letter 't', Cell.block, Cell.block]]

theorem lexW_wf : LexWF lexW := by
  intro L w hw
  by_cases h3 : (3 : Nat) = L
  · subst h3
    have he : lexGet lexW 3 = [['c', 'a', 't']] := rfl
    rw [he] at hw
    have hw2 : w = ['c', 'a', 't'] := List.mem_singleton.mp hw
    rw [hw2]
    rfl
  · have he : lexGet lexW L = [] := by
      show ((List.find? (fun p => p.1 == L)
        [((3 : Nat), [['c', 'a', 't']])]).map (fun p => p.2)).getD [] = []
      rw [List.find?_cons_of_neg _ (by simpa using h3)]
      rfl
    rw [he] at hw
    exact absurd hw (List.not_mem_nil w)

/-! ## Claim C1: crossing consistency of successful fills -/

/-- C1: for every successful run of either fill strategy (the 6x6
randomized-retry `fill_crossword`, given a well-formed lexicon and slots
lying on white cells, and the NYT backtracking `fill_crossword`, given a
well-formed lexicon), every assigned word has exactly its slot's length, and
whenever an Across slot and a Down slot share a cell their assigned words
carry the same letter there. -/
theorem C1_crossing_consistency {lex : Lexicon} (hlex : LexWF lex) :
    (∀ (mask : Mask) (slots : List Slot) (maxRestarts maxA : Nat) (g : Rng)
       (og : Option Grid) (wF : Words) (g2 : Rng),
       (∀ s2 ∈ slots, SlotWhite mask s2) →
       fill6 mask slots lex maxRestarts maxA g = ((true, og, wF), g2) →
       WordsLenOK slots wF ∧ CrossOK slots wF) ∧
    (∀ (mask : Mask) (slots : List Slot) (maxA : Nat) (g : Rng)
       (gF : Grid) (wF : Words) (g2 : Rng),
       fillNyt mask slots lex maxA g = ((true, gF, wF), g2) →
       WordsLenOK slots wF ∧ CrossOK slots wF) := by
  constructor
  · intro mask slots maxRestarts maxA g og wF g2 hwhite h
    obtain ⟨gF, _, _, hwl, _, hcr, _⟩ := fill6_success hlex hwhite h
    exact ⟨hwl, hcr⟩
  · intro mask slots maxA g gF wF g2 h
    obtain ⟨_, hwl, _, hcr, _⟩ := fillNyt_success hlex h
    exact ⟨hwl, hcr⟩

/-- C1 witness: on the 3x3 `cat` fixture, both strategies succeed and the
theorem yields length correctness and crossing consistency of the result. -/
theorem C1_crossing_consistency_witness :
    LexWF lexW ∧ (∀ s2 ∈ slotsW, SlotWhite maskW s2) ∧
    (WordsLenOK slotsW wsCat ∧ CrossOK slotsW wsCat) ∧
    (WordsLenOK slotsW wsCat ∧ CrossOK slotsW wsCat) :=
  ⟨lexW_wf, by decide,
   (C1_crossing_consistency lexW_wf).1 maskW slotsW 1 1 rngZero
     (some gridCat) wsCat ⟨fun _ => 0, 3⟩ (by decide) rfl,
   (C1_crossing_consistency lexW_wf).2 maskW slotsW 1 rngZero
     gridCat wsCat ⟨fun _ => 0, 0⟩ rfl⟩

/-! ## Claim C6: exact place/unplace in the backtracking fill -/

/-- C6: in the NYT backtracking strategy, `place` writes letters only into
previously-empty cells and records exactly those cells, `unplace` of the
record restores the grid exactly, and a failed `backtrack` call returns the
grid and the per-slot word assignment in exactly their state from before the
call. -/
theorem C6_place_unplace_exact :
    (∀ (g : Grid) (s : Slot) (w : Word),
      (∀ r c, ((r, c) ∈ (placeNyt g s w).2 ↔
        (∃ i, i < w.length ∧ slotCell s i = (r, c)) ∧
        gridGet g r c = Cell.empty)) ∧
      (∀ r c, (r, c) ∉ (placeNyt g s w).2 →
        gridGet (placeNyt g s w).1 r c = gridGet g r c) ∧
      (∀ i, i < w.length →
        gridGet g (slotCell s i).1 (slotCell s i).2 = Cell.empty →
        gridGet (placeNyt g s w).1 (slotCell s i).1 (slotCell s i).2 =
          Cell.letter (w.getD i ' ')) ∧
      unplaceGrid (placeNyt g s w).1 (placeNyt g s w).2 = g) ∧
    (∀ (slots : List Slot) (lex : Lexicon) (maxA fuel : Nat)
       (order : List Nat) (grid : Grid) (ws : Words) (g : Rng)
       (gF : Grid) (wF : Words) (g2 : Rng),
       order.Nodup → (∀ j ∈ order, ws.getD j none = none) →
       backtrackNyt slots lex maxA fuel order grid ws g =
         ((false, gF, wF), g2) →
       gF = grid ∧ wF = ws) := by
  constructor
  · intro g s w
    obtain ⟨H1, H2, H3, H4⟩ := placeNyt_spec g s w
    exact ⟨H2, H1, H3, H4⟩
  · intro slots lex maxA fuel order grid ws g gF wF g2 hnd hall h
    exact backtrackNyt_restore slots lex maxA fuel order grid ws g gF wF g2
      hnd hall h

/-- C6 witness: placing `cat` on the blank fixture grid and unplacing the
recorded cells restores the blank grid, and a concrete failing backtracking
search (over an empty lexicon) returns its input state unchanged. -/
theorem C6_place_unplace_exact_witness :
    ([0, 1] : List Nat).Nodup ∧
    (∀ j ∈ ([0, 1] : List Nat), ([none, none] : Words).getD j none = none) ∧
    unplaceGrid
      (placeNyt (makeBlank maskW) ⟨Dir.across, 0, 0, 3⟩ ['c', 'a', 't']).1
      (placeNyt (makeBlank maskW) ⟨Dir.across, 0, 0, 3⟩ ['c', 'a', 't']).2 =
      makeBlank maskW ∧
    ((backtrackNyt slotsW [] 5 2 [0, 1] (makeBlank maskW) [none, none]
        rngZero).1.2.1 = makeBlank maskW ∧
     (backtrackNyt slotsW [] 5 2 [0, 1] (makeBlank maskW) [none, none]
        rngZero).1.2.2 = [none, none]) := by
  refine ⟨by decide, by decide, ?_, ?_⟩
  · exact (C6_place_unplace_exact.1 (makeBlank maskW)
      ⟨Dir.across, 0, 0, 3⟩ ['c', 'a', 't']).2.2.2
  · have h := C6_place_unplace_exact.2 slotsW [] 5 2 [0, 1]
      (makeBlank maskW) [none, none] rngZero (makeBlank maskW)
      [none, none] rngZero (by decide) (by decide) rfl
    exact ⟨h.1, h.2⟩

/-! ## Claim C10: the block/black invariant -/

theorem place6_preserves_blockIff {mask : Mask} {grid : Grid} {s : Slot}
    {w : Word} (hsw : SlotWhite mask s) (hwl : w.length ≤ s.length)
    (hbib : BlockIffBlack mask grid) :
    BlockIffBlack mask (place6 grid s w) := by
  intro r c hr hc
  constructor
  · intro hb
    exact (hbib r c hr hc).mp (place6_block hb)
  · intro hmf
    show gridGet (place6 grid s w) r c = Cell.block
    unfold place6
    rw [place6_foldl_notin r c (List.range w.length) grid ?_]
    · exact (hbib r c hr hc).mpr hmf
    · intro i hi
      rintro ⟨h1, h2⟩
      obtain ⟨_, _, hwcell⟩ := hsw i
        (by have := List.mem_range.mp hi; omega)
      rw [h1, h2, hmf] at hwcell
      exact Bool.noConfusion hwcell

/-- C10: a grid cell holds the block marker exactly when the mask marks it
black: this holds for the initial blank grid, is preserved by each placement
step of the 6x6 fill (on white slots) and of the NYT fill, and holds for the
final grid of every successful run of either strategy. -/
theorem C10_block_iff_black {lex : Lexicon} (hlex : LexWF lex) :
    (∀ mask : Mask, BlockIffBlack mask (makeBlank mask)) ∧
    (∀ (mask : Mask) (grid : Grid) (s : Slot) (w : Word),
       SlotWhite mask s → w.length ≤ s.length → BlockIffBlack mask grid →
       BlockIffBlack mask (place6 grid s w)) ∧
    (∀ (mask : Mask) (grid : Grid) (s : Slot) (w : Word),
       BlockIffBlack mask grid → BlockIffBlack mask (placeNyt grid s w).1) ∧
    (∀ (mask : Mask) (slots : List Slot) (maxRestarts maxA : Nat) (g : Rng)
       (og : Option Grid) (wF : Words) (g2 : Rng) (gF : Grid),
       (∀ s2 ∈ slots, SlotWhite mask s2) →
       fill6 mask slots lex maxRestarts maxA g = ((true, og, wF), g2) →
       og = some gF → BlockIffBlack mask gF) ∧
    (∀ (mask : Mask) (slots : List Slot) (maxA : Nat) (g : Rng)
       (gF : Grid) (wF : Words) (g2 : Rng),
       fillNyt mask slots lex maxA g = ((true, gF, wF), g2) →
       BlockIffBlack mask gF) := by
  refine ⟨blockIffBlack_makeBlank, ?_, ?_, ?_, ?_⟩
  · intro mask grid s w hsw hwl hbib
    exact place6_preserves_blockIff hsw hwl hbib
  · intro mask grid s w hbib r c hr hc
    rw [placeNyt_block_iff grid s w r c]
    exact hbib r c hr hc
  · intro mask slots maxRestarts maxA g og wF g2 gF hwhite h hog
    obtain ⟨gF2, hog2, _, _, _, _, hbib⟩ := fill6_success hlex hwhite h
    have : gF2 = gF := Option.some.inj (hog2.symm.trans hog)
    rw [← this]
    exact hbib
  · intro mask slots maxA g gF wF g2 h
    obtain ⟨_, _, _, _, hbib⟩ := fillNyt_success hlex h
    exact hbib

/-- C10 witness: on the 3x3 `cat` fixture, both strategies succeed and the
returned grids satisfy the block/black correspondence. -/
theorem C10_block_iff_black_witness :
    LexWF lexW ∧ (∀ s2 ∈ slotsW, SlotWhite maskW s2) ∧
    BlockIffBlack maskW (makeBlank maskW) ∧
    BlockIffBlack maskW gridCat ∧ BlockIffBlack maskW gridCat :=
  ⟨lexW_wf, by decide,
   (C10_block_iff_black lexW_wf).1 maskW,
   (C10_block_iff_black lexW_wf).2.2.2.1 maskW slotsW 1 1 rngZero
     (some gridCat) wsCat ⟨fun _ => 0, 3⟩ gridCat (by decide) rfl rfl,
   (C10_block_iff_black lexW_wf).2.2.2.2 maskW slotsW 1 rngZero
     gridCat wsCat ⟨fun _ => 0, 0⟩ rfl⟩

/-! ## Claim C2: behavior when a length has no candidates -/

theorem tryEach_all_false {slot : Slot} {i : Nat}
    {k : Grid → Words → Rng → (Bool × Grid × Words) × Rng}
    (Hk : ∀ (g' : Grid) (ws' : Words) (r' : Rng),
      (k g' ws' r').1.1 = false) :
    ∀ (cands : List Word) (grid : Grid) (ws : Words) (g : Rng),
      (tryEach slot i k cands grid ws g).1.1 = false := by
  intro cands
  induction cands with
  | nil =>
    intro grid ws g
    rfl
  | cons w more ih =>
    intro grid ws g
    by_cases hfit : fitsNyt grid slot w = true
    · rcases hk0 : k (placeNyt grid slot w).1 (ws.set i (some w)) g with
        ⟨⟨b, gK, wK⟩, gR⟩
      have hb := Hk (placeNyt grid slot w).1 (ws.set i (some w)) g
      rw [hk0] at hb
      cases b with
      | true => exact Bool.noConfusion hb
      | false =>
        rw [tryEach_cons_fit_false more grid ws g hfit hk0]
        exact ih _ _ _
    · rw [Bool.not_eq_true] at hfit
      rw [tryEach_cons_nofit more grid ws g hfit]
      exact ih _ _ _

theorem backtrackNyt_missing {slots : List Slot} {lex : Lexicon} {maxA : Nat}
    {j : Nat} (hj : (lexGet lex (slots.getD j dSlot).length).isEmpty = true) :
    ∀ (fuel : Nat) (order : List Nat) (grid : Grid) (ws : Words) (g : Rng),
      j ∈ order →
      (backtrackNyt slots lex maxA fuel order grid ws g).1.1 = false := by
  intro fuel
  induction fuel with
  | zero =>
    intro order grid ws g hmem
    cases order with
    | nil => cases hmem
    | cons i rest => rfl
  | succ fuel ih =>
    intro order grid ws g hmem
    cases order with
    | nil => cases hmem
    | cons i rest =>
      show (backtrackNyt slots lex maxA (fuel+1) (i :: rest) grid ws g).1.1 =
        false
      simp only [backtrackNyt]
      by_cases hemp : (lexGet lex (slots.getD i dSlot).length).isEmpty = true
      · rw [if_pos hemp]
      · rw [if_neg hemp]
        rcases List.mem_cons.mp hmem with hji | hjr
        · subst hji
          exact absurd hj hemp
        · exact tryEach_all_false
            (fun g' ws' r' => ih rest g' ws' r' hjr) _ _ _ _

theorem fill6Slots_missing {slots : List Slot} {lex : Lexicon} {maxA : Nat}
    {j : Nat} (hj : (lexGet lex (slots.getD j dSlot).length).isEmpty = true) :
    ∀ (idxs : List Nat) (grid : Grid) (ws : Words) (g : Rng),
      j ∈ idxs →
      (fill6Slots slots lex maxA idxs grid ws g).1.1 = none := by
  intro idxs
  induction idxs with
  | nil =>
    intro grid ws g hm
    cases hm
  | cons i rest ih =>
    intro grid ws g hm
    show (fill6Slots slots lex maxA (i :: rest) grid ws g).1.1 = none
    simp only [fill6Slots]
    by_cases hemp : (lexGet lex (slots.getD i dSlot).length).isEmpty = true
    · rw [if_pos hemp]
    · rw [if_neg hemp]
      rcases List.mem_cons.mp hm with hji | hjr
      · subst hji
        exact absurd hj hemp
      · rcases htf : tryFillSlot grid (slots.getD i dSlot)
            (lexGet lex (slots.getD i dSlot).length) maxA g with ⟨ow, gT⟩
        cases ow with
        | none => rfl
        | some w => exact ih _ _ _ hjr

theorem fill6Loop_missing {mask : Mask} {slots : List Slot} {lex : Lexicon}
    {maxA : Nat} {j : Nat} (hjlt : j < slots.length)
    (hj : (lexGet lex (slots.getD j dSlot).length).isEmpty = true) :
    ∀ (m : Nat) (ws : Words) (g : Rng),
      (fill6Loop mask slots lex maxA m ws g).1.1 = false := by
  intro m
  induction m with
  | zero =>
    intro ws g
    rfl
  | succ m ih =>
    intro ws g
    show (fill6Loop mask slots lex maxA (m+1) ws g).1.1 = false
    simp only [fill6Loop]
    rcases hfs : fill6Slots slots lex maxA
        (randShuffle (List.range slots.length) g).1 (makeBlank mask)
        (List.replicate slots.length none)
        (randShuffle (List.range slots.length) g).2 with ⟨⟨ogs, wsF⟩, gT⟩
    have hmem : j ∈ (randShuffle (List.range slots.length) g).1 :=
      (randShuffle_perm _ _).mem_iff.mpr (List.mem_range.mpr hjlt)
    have hnone := @fill6Slots_missing slots lex maxA j hj
      (randShuffle (List.range slots.length) g).1 (makeBlank mask)
      (List.replicate slots.length none)
      (randShuffle (List.range slots.length) g).2 hmem
    rw [hfs] at hnone
    cases ogs with
    | none => exact ih wsF gT
    | some gridS => exact Option.noConfusion hnone

theorem fill5Slots_missing_head {lex : Lexicon} {maxA : Nat} {s : Slot}
    (rest : List Slot) (grid : Grid) (g : Rng)
    (hs : lexFind lex s.length = none) :
    fill5Slots lex maxA (s :: rest) grid g = none := by
  simp only [fill5Slots, hs]

/-- C2 (amended): with a slot whose length has no candidates, the 6x6 fill
runs all its restarts and returns the failure flag (it never raises), the
NYT fill returns the failure flag (it never raises), but the 5x5 fill
raises `KeyError` (modelled `none`) as soon as a restart reaches a slot
whose length is missing from the dict — here shown when every slot's length
is missing and at least one restart runs. -/
theorem C2_missing_length_behavior {lex : Lexicon} :
    (∀ (mask : Mask) (slots : List Slot) (maxRestarts maxA : Nat) (g : Rng)
       (j : Nat), j < slots.length →
       (lexGet lex (slots.getD j dSlot).length).isEmpty = true →
       (fill6 mask slots lex maxRestarts maxA g).1.1 = false) ∧
    (∀ (mask : Mask) (slots : List Slot) (maxA : Nat) (g : Rng) (j : Nat),
       j < slots.length →
       (lexGet lex (slots.getD j dSlot).length).isEmpty = true →
       (fillNyt mask slots lex maxA g).1.1 = false) ∧
    (∀ (mask : Mask) (slots : List Slot) (maxRestarts maxA : Nat) (g : Rng),
       slots ≠ [] → 0 < maxRestarts →
       (∀ s2 ∈ slots, lexFind lex s2.length = none) →
       fill5 mask slots lex maxRestarts maxA g = none) := by
  refine ⟨?_, ?_, ?_⟩
  · intro mask slots maxRestarts maxA g j hjlt hj
    exact fill6Loop_missing hjlt hj maxRestarts
      (List.replicate slots.length none) g
  · intro mask slots maxA g j hjlt hj
    show (backtrackNyt slots lex maxA _ _ (makeBlank mask)
      (List.replicate slots.length none) g).1.1 = false
    refine backtrackNyt_missing hj _ _ (makeBlank mask)
      (List.replicate slots.length none) g ?_
    exact (sortByKey_perm _ _).mem_iff.mpr (List.mem_range.mpr hjlt)
  · intro mask slots maxRestarts maxA g hne hpos hmiss
    cases maxRestarts with
    | zero => omega
    | succ m =>
      show fill5Loop mask slots lex maxA (m+1) g = none
      simp only [fill5Loop]
      rcases hsh : (randShuffle slots g).1 with _ | ⟨s, srest⟩
      · have hperm := randShuffle_perm slots g
        rw [hsh] at hperm
        exact absurd hperm.symm.eq_nil hne
      · have hperm := randShuffle_perm slots g
        rw [hsh] at hperm
        have hsm : s ∈ slots := hperm.mem_iff.mp (List.mem_cons_self s srest)
        rw [fill5Slots_missing_head srest (makeBlank mask)
          (randShuffle slots g).2 (hmiss s hsm)]

/-- C2 counterexample: the 5x5 fill raises (modelled `none`) on a slot whose
length is missing from the dict rather than returning a failure flag, and
the 6x6 fill with an empty lexicon consumes its full restart budget (its
random cursor advances once per restart for the shuffle, ending at 3 after
3 restarts) instead of failing at the first check. -/
theorem C2_missing_length_counterexample :
    fill5 [[true]] [⟨Dir.across, 0, 0, 1⟩] [] 1 1 rngZero = none ∧
    (fill6 maskW slotsW [] 3 1 rngZero).2.pos = 3 := ⟨rfl, rfl⟩

/-- C2 witness: on concrete unfillable instances, the 6x6 and NYT fills
return the failure flag and the 5x5 fill raises. -/
theorem C2_missing_length_behavior_witness :
    (0 : Nat) < slotsW.length ∧
    (lexGet [] (slotsW.getD 0 dSlot).length).isEmpty = true ∧
    (fill6 maskW slotsW [] 3 1 rngZero).1.1 = false ∧
    (fillNyt maskW slotsW [] 1 rngZero).1.1 = false ∧
    fill5 [[true]] [⟨Dir.across, 0, 0, 1⟩] [] 1 1 rngZero = none := by
  refine ⟨by decide, by decide, ?_, ?_, ?_⟩
  · exact (@C2_missing_length_behavior []).1 maskW slotsW 3 1 rngZero 0
      (by decide) (by decide)
  · exact (@C2_missing_length_behavior []).2.1 maskW slotsW 1 rngZero 0
      (by decide) (by decide)
  · exact (@C2_missing_length_behavior []).2.2 [[true]]
      [⟨Dir.across, 0, 0, 1⟩] 1 1 rngZero (by decide) (by decide) (by decide)

/-! ## Claim C5: the retry strategy's per-slot attempt budget -/

theorem drawLoop_none_pos {grid : Grid} {s : Slot} {cands : List Word} :
    ∀ (fuel : Nat) (w0 : Word) (g : Rng) {g2 : Rng},
      drawLoop grid s cands fuel w0 g = (none, g2) →
      g2.pos = g.pos + fuel + 1 ∧ g2.stream = g.stream := by
  intro fuel
  induction fuel with
  | zero =>
    intro w0 g g2 h
    rw [drawLoop] at h
    by_cases hf : fits grid s w0 = true
    · rw [if_pos hf] at h
      exact Option.noConfusion (congrArg Prod.fst h)
    · rw [if_neg hf] at h
      have h3 : (⟨g.stream, g.pos + 1⟩ : Rng) = g2 := congrArg Prod.snd h
      rw [← h3]
      exact ⟨rfl, rfl⟩
  | succ fuel ih =>
    intro w0 g g2 h
    rw [drawLoop] at h
    by_cases hf : fits grid s w0 = true
    · rw [if_pos hf] at h
      exact Option.noConfusion (congrArg Prod.fst h)
    · rw [if_neg hf] at h
      obtain ⟨hp, hs2⟩ := ih (randChoiceD cands g).1 (randChoiceD cands g).2 h
      constructor
      · rw [hp]
        show g.pos + 1 + fuel + 1 = g.pos + (fuel + 1) + 1
        omega
      · exact hs2

theorem tryFillSlot_none_pos {grid : Grid} {s : Slot} {cands : List Word}
    {maxA : Nat} {g g2 : Rng}
    (h : tryFillSlot grid s cands maxA g = (none, g2)) :
    g2.pos = g.pos + maxA + 2 ∧ g2.stream = g.stream := by
  obtain ⟨hp, hs2⟩ := drawLoop_none_pos maxA (randChoiceD cands g).1
    (randChoiceD cands g).2 h
  constructor
  · rw [hp]
    show g.pos + 1 + maxA + 1 = g.pos + maxA + 2
    omega
  · exact hs2

/-- C5 (amended): per slot the 6x6 retry fill draws an initial candidate and
redraws while the drawn word does not fit; if it abandons, it has tested
`maxAttemptsPerSlot + 1` drawn words and drawn one further untested word, so
its random cursor has advanced by `maxAttemptsPerSlot + 2` (not
`maxAttemptsPerSlot`); a successful slot attempt returns a fitting word from
the slot's candidate bucket; an abandoned restart performs no partial undo —
the loop continues with one fewer restart, a fresh blank grid and a fresh
permutation; and after `maxRestarts` abandoned restarts the fill returns the
failure flag. -/
theorem C5_retry_budget :
    (∀ (grid : Grid) (s : Slot) (cands : List Word) (maxA : Nat)
       (g g2 : Rng), tryFillSlot grid s cands maxA g = (none, g2) →
       g2.pos = g.pos + maxA + 2 ∧ g2.stream = g.stream) ∧
    (∀ (grid : Grid) (s : Slot) (cands : List Word) (maxA : Nat)
       (g g2 : Rng) (w : Word), cands.isEmpty = false →
       tryFillSlot grid s cands maxA g = (some w, g2) →
       fits grid s w = true ∧ w ∈ cands) ∧
    (∀ (mask : Mask) (slots : List Slot) (lex : Lexicon) (maxA m : Nat)
       (ws wsF : Words) (g gT : Rng),
       fill6Slots slots lex maxA (randShuffle (List.range slots.length) g).1
         (makeBlank mask) (List.replicate slots.length none)
         (randShuffle (List.range slots.length) g).2 = ((none, wsF), gT) →
       fill6Loop mask slots lex maxA (m+1) ws g =
         fill6Loop mask slots lex maxA m wsF gT) ∧
    (∀ (mask : Mask) (slots : List Slot) (lex : Lexicon) (maxA : Nat)
       (ws : Words) (g : Rng),
       fill6Loop mask slots lex maxA 0 ws g = ((false, none, ws), g)) := by
  refine ⟨?_, ?_, ?_, ?_⟩
  · intro grid s cands maxA g g2 h
    exact tryFillSlot_none_pos h
  · intro grid s cands maxA g g2 w hne h
    exact tryFillSlot_some hne h
  · intro mask slots lex maxA m ws wsF g gT h
    show (match fill6Slots slots lex maxA
        (randShuffle (List.range slots.length) g).1 (makeBlank mask)
        (List.replicate slots.length none)
        (randShuffle (List.range slots.length) g).2 with
      | ((some gridF, wsF2), g2) => ((true, some gridF, wsF2), g2)
      | ((none, wsF2), g2) => fill6Loop mask slots lex maxA m wsF2 g2) =
      fill6Loop mask slots lex maxA m wsF gT
    rw [h]
  · intro mask slots lex maxA ws g
    rfl

/-- C5 counterexample: with `maxAttemptsPerSlot = 1`, after one drawn word
has already failed the fit test, the engine draws and accepts a further
candidate instead of abandoning: on the crossing 2x2 instance the first
draw `ab` fails against the placed across word, yet the slot attempt
returns `bb` after two draws. -/
theorem C5_retry_budget_counterexample :
    fits (place6 (makeBlank [[true, true], [true, true]])
        ⟨Dir.across, 0, 0, 2⟩ ['a', 'b'])
      ⟨Dir.down, 0, 1, 2⟩ ['a', 'b'] = false ∧
    (tryFillSlot (place6 (makeBlank [[true, true], [true, true]])
        ⟨Dir.across, 0, 0, 2⟩ ['a', 'b'])
      ⟨Dir.down, 0, 1, 2⟩ [['a', 'b'], ['b', 'b']] 1 (rngOf [0, 1])).1 =
      some ['b', 'b'] ∧
    (tryFillSlot (place6 (makeBlank [[true, true], [true, true]])
        ⟨Dir.across, 0, 0, 2⟩ ['a', 'b'])
      ⟨Dir.down, 0, 1, 2⟩ [['a', 'b'], ['b', 'b']] 1 (rngOf [0, 1])).2.pos =
      2 := ⟨rfl, rfl, rfl⟩

/-- C5 witness: a concrete abandoned slot attempt advances the cursor by
`maxA + 2 = 3`; a concrete successful attempt returns a fitting candidate;
a concrete abandoned restart hands over to the remaining restarts; zero
remaining restarts return the failure flag. -/
theorem C5_retry_budget_witness :
    (tryFillSlot (place6 (makeBlank [[true, true], [true, true]])
        ⟨Dir.across, 0, 0, 2⟩ ['a', 'b'])
      ⟨Dir.down, 0, 1, 2⟩ [['a', 'b']] 1 rngZero).2.pos = 0 + 1 + 2 ∧
    (fits (makeBlank maskW) ⟨Dir.across, 0, 0, 3⟩ ['c', 'a', 't'] = true ∧
     ['c', 'a', 't'] ∈ [['c', 'a', 't']]) ∧
    fill6Loop maskW slotsW [] 1 1 (List.replicate 2 none) rngZero =
      fill6Loop maskW slotsW [] 1 0 [none, none] ⟨rngZero.stream, 1⟩ ∧
    fill6Loop maskW slotsW [] 1 0 [none, none] ⟨rngZero.stream, 1⟩ =
      ((false, none, [none, none]), ⟨rngZero.stream, 1⟩) := by
  refine ⟨?_, ?_, ?_, ?_⟩
  · exact (C5_retry_budget.1 (place6 (makeBlank [[true, true], [true, true]])
        ⟨Dir.across, 0, 0, 2⟩ ['a', 'b'])
      ⟨Dir.down, 0, 1, 2⟩ [['a', 'b']] 1 rngZero
      ⟨rngZero.stream, 3⟩ rfl).1
  · exact C5_retry_budget.2.1 (makeBlank maskW) ⟨Dir.across, 0, 0, 3⟩
      [['c', 'a', 't']] 1 rngZero ⟨rngZero.stream, 1⟩ ['c', 'a', 't']
      (by decide) rfl
  · exact C5_retry_budget.2.2.1 maskW slotsW [] 1 0
      (List.replicate 2 none) [none, none] rngZero ⟨rngZero.stream, 1⟩ rfl
  · exact C5_retry_budget.2.2.2 maskW slotsW [] 1 [none, none]
      ⟨rngZero.stream, 1⟩

/-! ## Claim C9: determinism under a fixed random source -/

/-- C9: all three fill searches are deterministic given the seeded random
source: two random sources with the same stream and the same cursor produce
identical outputs (flag, grid, slot assignment and final source) on every
fill. -/
theorem C9_deterministic :
    ∀ (mask : Mask) (slots : List Slot) (lex : Lexicon)
      (maxRestarts maxA : Nat) (g1 g2 : Rng),
      (∀ n, g1.stream n = g2.stream n) → g1.pos = g2.pos →
      fill5 mask slots lex maxRestarts maxA g1 =
        fill5 mask slots lex maxRestarts maxA g2 ∧
      fill6 mask slots lex maxRestarts maxA g1 =
        fill6 mask slots lex maxRestarts maxA g2 ∧
      fillNyt mask slots lex maxA g1 = fillNyt mask slots lex maxA g2 := by
  intro mask slots lex maxRestarts maxA g1 g2 hs hp
  have hg : g1 = g2 := by
    cases g1 with
    | mk s1 p1 =>
      cases g2 with
      | mk s2 p2 =>
        dsimp only at hs hp
        rw [funext hs, hp]
  rw [hg]
  exact ⟨rfl, rfl, rfl⟩

/-- C9 witness: two syntactically different random sources with pointwise
equal streams give identical fill results on the fixture. -/
theorem C9_deterministic_witness :
    (∀ n, rngZero.stream n = (⟨fun n => 0 * n, 0⟩ : Rng).stream n) ∧
    rngZero.pos = (⟨fun n => 0 * n, 0⟩ : Rng).pos ∧
    fill6 maskW slotsW lexW 1 1 rngZero =
      fill6 maskW slotsW lexW 1 1 ⟨fun n => 0 * n, 0⟩ := by
  refine ⟨?_, rfl, ?_⟩
  · intro n
    simp [rngZero]
  · exact (C9_deterministic maskW slotsW lexW 1 1 rngZero
      ⟨fun n => 0 * n, 0⟩ (fun n => by simp [rngZero]) rfl).2.1

/-! ## Claim C8: pattern transforms -/

theorem ext_getD {α : Type} {l1 l2 : List α} (d : α)
    (hl : l1.length = l2.length)
    (h : ∀ i, i < l1.length → l1.getD i d = l2.getD i d) : l1 = l2 := by
  apply List.ext_getElem hl
  intro i h1 h2
  have hi := h i h1
  rw [List.getD_eq_getElem l1 d h1, List.getD_eq_getElem l2 d h2] at hi
  exact hi

theorem lineGet_reverse {l : List Bool} {n : Nat} (hl : l.length = n)
    {i : Nat} (hi : i < n) :
    lineGet l.reverse i = lineGet l (n - 1 - i) := by
  subst hl
  unfold lineGet
  have h1 : i < l.reverse.length := by rw [List.length_reverse]; omega
  have h2 : l.length - 1 - i < l.length := by omega
  rw [List.getD_eq_getElem _ _ h1, List.getD_eq_getElem _ _ h2,
    List.getElem_reverse]

theorem isMaxRun_reverse_of {l : List Bool} {n s L : Nat} (hl : l.length = n)
    (h : IsMaxRun l n s L) : IsMaxRun l.reverse n (n - s - L) L := by
  obtain ⟨h1, h2, h3, h4, h5⟩ := h
  refine ⟨h1, by omega, ?_, ?_, ?_⟩
  · intro i hi
    rw [lineGet_reverse hl (show n - s - L + i < n by omega)]
    have he : n - 1 - (n - s - L + i) = s + (L - 1 - i) := by omega
    rw [he]
    exact h3 (L - 1 - i) (by omega)
  · by_cases hz : n - s - L = 0
    · exact Or.inl hz
    · right
      rw [lineGet_reverse hl (show n - s - L - 1 < n by omega)]
      have he : n - 1 - (n - s - L - 1) = s + L := by omega
      rw [he]
      rcases h5 with h5 | h5
      · exact absurd h5 (by omega)
      · exact h5
  · by_cases hz : n - s - L + L = n
    · exact Or.inl hz
    · right
      rw [lineGet_reverse hl (show n - s - L + L < n by omega)]
      have he : n - 1 - (n - s - L + L) = s - 1 := by omega
      rw [he]
      rcases h4 with h4 | h4
      · exact absurd (by omega : n - s - L + L = n) hz
      · exact h4

theorem scanLine_pairwise (keep : Nat → Bool) (line : List Bool) (n : Nat) :
    ∀ fuel c, n - c ≤ fuel →
      (scanLine keep line n fuel c).Pairwise (fun a b => a.1 < b.1) := by
  intro fuel
  induction fuel with
  | zero =>
    intro c _
    rw [scanLine_zero]
    exact List.Pairwise.nil
  | succ fuel ih =>
    intro c hf
    by_cases h1 : c < n
    · by_cases h2 : lineGet line c = true ∧ (c = 0 ∨ lineGet line (c-1) = false)
      · have hcond := startCond_true h2.1 h2.2
        have hmr := isMaxRun_runLen line n c h1 h2.1 h2.2
        have hL1 : 1 ≤ runLen line n n c := hmr.1
        rw [scanLine_succ_hit keep line fuel h1 hcond]
        rw [List.pairwise_append]
        refine ⟨?_, ih _ (by omega), ?_⟩
        · by_cases hk : keep (runLen line n n c) = true
          · rw [if_pos hk]
            exact List.pairwise_singleton _ _
          · rw [if_neg hk]
            exact List.Pairwise.nil
        · intro a ha b hb
          have hbs := ((scan_mem keep line n fuel (c + runLen line n n c)
            (by omega) b.1 b.2).1 hb).1
          have hac : a.1 = c := by
            by_cases hk : keep (runLen line n n c) = true
            · rw [if_pos hk] at ha
              rw [List.mem_singleton] at ha
              rw [ha]
            · rw [if_neg hk] at ha
              cases ha
          omega
      · have hcond := startCond_false h2
        rw [scanLine_succ_miss keep line fuel h1 hcond]
        exact ih (c+1) (by omega)
    · rw [scanLine_oob keep line (fuel+1) h1]
      exact List.Pairwise.nil

theorem scanLine_nodup (keep : Nat → Bool) (line : List Bool) (n : Nat) :
    (scanLine keep line n n 0).Nodup := by
  have hp := scanLine_pairwise keep line n n 0 (by omega)
  exact hp.imp (fun hlt heq => by rw [heq] at hlt; omega)

theorem scan_pairs_reverse {keep : Nat → Bool} {l : List Bool} {n : Nat}
    (hl : l.length = n) :
    ((scanLine keep l.reverse n n 0 : List (Nat × Nat)) : Multiset (Nat × Nat)) =
      Multiset.map (fun q => (n - q.1 - q.2, q.2))
        ((scanLine keep l n n 0 : List (Nat × Nat)) : Multiset (Nat × Nat)) := by
  have hnd1 : ((scanLine keep l.reverse n n 0 : List (Nat × Nat)) :
      Multiset (Nat × Nat)).Nodup := by
    rw [Multiset.coe_nodup]
    exact scanLine_nodup keep l.reverse n
  have hnd2 : (Multiset.map (fun q => (n - q.1 - q.2, q.2))
      ((scanLine keep l n n 0 : List (Nat × Nat)) :
        Multiset (Nat × Nat))).Nodup := by
    refine Multiset.Nodup.map_on ?_ (by
      rw [Multiset.coe_nodup]
      exact scanLine_nodup keep l n)
    intro x hx y hy hxy
    rw [Multiset.mem_coe] at hx hy
    have hmx := (scan_mem keep l n n 0 (by omega) x.1 x.2).1 hx
    have hmy := (scan_mem keep l n n 0 (by omega) y.1 y.2).1 hy
    have hx2 : x.1 + x.2 ≤ n := hmx.2.2.2.1
    have hy2 : y.1 + y.2 ≤ n := hmy.2.2.2.1
    have h1 := congrArg Prod.fst hxy
    have h2 := congrArg Prod.snd hxy
    dsimp only at h1 h2
    have : x.1 = y.1 := by omega
    exact Prod.ext this h2
  rw [Multiset.Nodup.ext hnd1 hnd2]
  intro q
  rw [Multiset.mem_coe, Multiset.mem_map]
  constructor
  · intro hq
    have hm := (scan_mem keep l.reverse n n 0 (by omega) q.1 q.2).1 hq
    have hrev := isMaxRun_reverse_of (by rw [List.length_reverse]; exact hl)
      hm.2.2
    rw [List.reverse_reverse] at hrev
    have hb : q.1 + q.2 ≤ n := hm.2.2.2.1
    refine ⟨(n - q.1 - q.2, q.2), ?_, ?_⟩
    · rw [Multiset.mem_coe]
      exact (scan_mem keep l n n 0 (by omega) (n - q.1 - q.2) q.2).2
        ⟨Nat.zero_le _, hm.2.1, hrev⟩
    · have : n - (n - q.1 - q.2) - q.2 = q.1 := by omega
      rw [this]
  · rintro ⟨x, hx, hq⟩
    rw [Multiset.mem_coe] at hx
    have hm := (scan_mem keep l n n 0 (by omega) x.1 x.2).1 hx
    have hrev := isMaxRun_reverse_of hl hm.2.2
    rw [← hq]
    exact (scan_mem keep l.reverse n n 0 (by omega) (n - x.1 - x.2) x.2).2
      ⟨Nat.zero_le _, hm.2.1, hrev⟩

theorem scan_lengths_reverse {keep : Nat → Bool} {l : List Bool} {n : Nat}
    (hl : l.length = n) :
    (((scanLine keep l.reverse n n 0).map (fun q => q.2) : List Nat) :
        Multiset Nat) =
      ((scanLine keep l n n 0).map (fun q => q.2) : List Nat) := by
  have h := congrArg (Multiset.map (fun q : Nat × Nat => q.2))
    (@scan_pairs_reverse keep l n hl)
  rw [Multiset.map_coe, Multiset.map_map, Multiset.map_coe] at h
  exact h

/-- An `n` by `n` mask. -/
def MaskShape (n : Nat) (m : Mask) : Prop :=
  m.length = n ∧ ∀ row ∈ m, row.length = n

theorem rowLine_length {n : Nat} {m : Mask} (hm : MaskShape n m) {r : Nat}
    (hr : r < n) : (rowLine m r).length = n := by
  unfold rowLine
  exact hm.2 _ (getD_mem_of_lt [] (by rw [hm.1]; exact hr))

theorem colLine_length (m : Mask) (c : Nat) :
    (colLine m c).length = m.length := by
  unfold colLine
  rw [List.length_map]

theorem flatMap_coe_congr {α : Type} {f g : Nat → List α} :
    ∀ (idx : List Nat), (∀ a ∈ idx, ((f a : List α) : Multiset α) = g a) →
      ((idx.flatMap f : List α) : Multiset α) = idx.flatMap g := by
  intro idx
  induction idx with
  | nil =>
    intro _
    rfl
  | cons a rest ih =>
    intro h
    rw [List.flatMap_cons, List.flatMap_cons]
    rw [show ((f a ++ rest.flatMap f : List α) : Multiset α) =
      ↑(f a) + ↑(rest.flatMap f) from rfl]
    rw [show ((g a ++ rest.flatMap g : List α) : Multiset α) =
      ↑(g a) + ↑(rest.flatMap g) from rfl]
    rw [h a (List.mem_cons_self a rest),
      ih (fun b hb => h b (List.mem_cons_of_mem a hb))]

theorem flatMap_map_comp {α β γ : Type} (g : α → β) (f : β → List γ) :
    ∀ l : List α, (l.map g).flatMap f = l.flatMap (fun x => f (g x)) := by
  intro l
  induction l with
  | nil => rfl
  | cons a rest ih =>
    rw [List.map_cons, List.flatMap_cons, List.flatMap_cons, ih]

theorem flatMap_perm_index {α β : Type} (f : α → List β) :
    ∀ {l1 l2 : List α}, l1.Perm l2 → (l1.flatMap f).Perm (l2.flatMap f) := by
  intro l1 l2 h
  induction h with
  | nil => exact List.Perm.refl _
  | cons a h ih =>
    rw [List.flatMap_cons, List.flatMap_cons]
    exact ih.append_left (f a)
  | swap a b l =>
    rw [List.flatMap_cons, List.flatMap_cons, List.flatMap_cons,
      List.flatMap_cons, ← List.append_assoc, ← List.append_assoc]
    exact (List.perm_append_comm).append_right (l.flatMap f)
  | trans h1 h2 ih1 ih2 => exact ih1.trans ih2

theorem flatMap_fun_congr {α β : Type} {f g : α → List β} :
    ∀ (l : List α), (∀ a ∈ l, f a = g a) → l.flatMap f = l.flatMap g := by
  intro l
  induction l with
  | nil =>
    intro _
    rfl
  | cons a rest ih =>
    intro h
    rw [List.flatMap_cons, List.flatMap_cons, h a (List.mem_cons_self a rest),
      ih (fun b hb => h b (List.mem_cons_of_mem a hb))]

theorem map_sub_range (n : Nat) :
    (List.range n).map (fun i => n - 1 - i) = (List.range n).reverse := by
  rw [List.range_eq_range', List.reverse_range']
  simp
  rw [← List.range_eq_range']

theorem flatMap_coe_rev {α : Type} (n : Nat) (f : Nat → List α) :
    (((List.range n).flatMap (fun b => f (n - 1 - b)) : List α) : Multiset α) =
      ((List.range n).flatMap f : List α) := by
  rw [← flatMap_map_comp (fun b => n - 1 - b) f (List.range n), map_sub_range]
  rw [Multiset.coe_eq_coe]
  exact flatMap_perm_index f (List.reverse_perm (List.range n))

theorem map_length_slotsFromMask (keep : Nat → Bool) (m : Mask) (n : Nat) :
    (slotsFromMask keep m n).map Slot.length =
      ((List.range n).flatMap fun r =>
        (scanLine keep (rowLine m r) n n 0).map fun q => q.2) ++
      ((List.range n).flatMap fun c =>
        (scanLine keep (colLine m c) n n 0).map fun q => q.2) := by
  unfold slotsFromMask acrossSlots downSlots
  rw [List.map_append, List.map_flatMap, List.map_flatMap]
  congr 1
  · refine flatMap_fun_congr (List.range n) ?_
    intro r _
    rw [List.map_map]
    rfl
  · refine flatMap_fun_congr (List.range n) ?_
    intro c _
    rw [List.map_map]
    rfl

/-- Engine: length multisets of extraction agree for a clockwise-rotated
mask. -/
theorem lengths_maskRot {keep : Nat → Bool} {n : Nat} {m mR : Mask}
    (hm : MaskShape n m) (hmR : MaskShape n mR)
    (hrel : ∀ a b, a < n → b < n → maskGet mR a b = maskGet m (n - 1 - b) a) :
    (((slotsFromMask keep mR n).map Slot.length : List Nat) : Multiset Nat) =
      ((slotsFromMask keep m n).map Slot.length : List Nat) := by
  have hrowR : ∀ a, a < n → rowLine mR a = (colLine m a).reverse := by
    intro a ha
    refine ext_getD false ?_ ?_
    · rw [rowLine_length hmR ha, List.length_reverse, colLine_length, hm.1]
    · intro i hi
      rw [rowLine_length hmR ha] at hi
      show lineGet (rowLine mR a) i = lineGet (colLine m a).reverse i
      rw [rowLine_get, hrel a i ha hi,
        lineGet_reverse (by rw [colLine_length, hm.1]) hi, colLine_get]
  have hcolR : ∀ b, b < n → colLine mR b = rowLine m (n - 1 - b) := by
    intro b hb
    refine ext_getD false ?_ ?_
    · rw [colLine_length, hmR.1, rowLine_length hm (by omega)]
    · intro i hi
      rw [colLine_length, hmR.1] at hi
      show lineGet (colLine mR b) i = lineGet (rowLine m (n - 1 - b)) i
      rw [colLine_get, rowLine_get, hrel i b hi hb]
  rw [map_length_slotsFromMask, map_length_slotsFromMask]
  rw [← Multiset.coe_add, ← Multiset.coe_add]
  have hacross : (((List.range n).flatMap fun r =>
      (scanLine keep (rowLine mR r) n n 0).map fun q => q.2 : List Nat) :
        Multiset Nat) =
      ((List.range n).flatMap fun c =>
        (scanLine keep (colLine m c) n n 0).map fun q => q.2 : List Nat) := by
    refine flatMap_coe_congr (List.range n) ?_
    intro a ha
    rw [hrowR a (List.mem_range.mp ha)]
    exact scan_lengths_reverse (by rw [colLine_length, hm.1])
  have hdown : (((List.range n).flatMap fun c =>
      (scanLine keep (colLine mR c) n n 0).map fun q => q.2 : List Nat) :
        Multiset Nat) =
      ((List.range n).flatMap fun r =>
        (scanLine keep (rowLine m r) n n 0).map fun q => q.2 : List Nat) := by
    have h1 : (((List.range n).flatMap fun c =>
        (scanLine keep (colLine mR c) n n 0).map fun q => q.2 : List Nat) :
          Multiset Nat) =
        ((List.range n).flatMap fun c =>
          (scanLine keep (rowLine m (n - 1 - c)) n n 0).map fun q => q.2 :
            List Nat) := by
      refine flatMap_coe_congr (List.range n) ?_
      intro b hb
      rw [hcolR b (List.mem_range.mp hb)]
    rw [h1]
    exact flatMap_coe_rev n (fun r =>
      (scanLine keep (rowLine m r) n n 0).map fun q => q.2)
  rw [hacross, hdown]
  exact add_comm _ _

/-- Engine: length multisets of extraction agree for a row-reversed
(horizontally flipped) mask. -/
theorem lengths_maskFlipH {keep : Nat → Bool} {n : Nat} {m mH : Mask}
    (hm : MaskShape n m) (hmH : MaskShape n mH)
    (hrel : ∀ a b, a < n → b < n → maskGet mH a b = maskGet m a (n - 1 - b)) :
    (((slotsFromMask keep mH n).map Slot.length : List Nat) : Multiset Nat) =
      ((slotsFromMask keep m n).map Slot.length : List Nat) := by
  have hrowH : ∀ a, a < n → rowLine mH a = (rowLine m a).reverse := by
    intro a ha
    refine ext_getD false ?_ ?_
    · rw [rowLine_length hmH ha, List.length_reverse, rowLine_length hm ha]
    · intro i hi
      rw [rowLine_length hmH ha] at hi
      show lineGet (rowLine mH a) i = lineGet (rowLine m a).reverse i
      rw [rowLine_get, hrel a i ha hi,
        lineGet_reverse (rowLine_length hm ha) hi, rowLine_get]
  have hcolH : ∀ b, b < n → colLine mH b = colLine m (n - 1 - b) := by
    intro b hb
    refine ext_getD false ?_ ?_
    · rw [colLine_length, hmH.1, colLine_length, hm.1]
    · intro i hi
      rw [colLine_length, hmH.1] at hi
      show lineGet (colLine mH b) i = lineGet (colLine m (n - 1 - b)) i
      rw [colLine_get, colLine_get, hrel i b hi hb]
  rw [map_length_slotsFromMask, map_length_slotsFromMask]
  rw [← Multiset.coe_add, ← Multiset.coe_add]
  have hacross : (((List.range n).flatMap fun r =>
      (scanLine keep (rowLine mH r) n n 0).map fun q => q.2 : List Nat) :
        Multiset Nat) =
      ((List.range n).flatMap fun r =>
        (scanLine keep (rowLine m r) n n 0).map fun q => q.2 : List Nat) := by
    refine flatMap_coe_congr (List.range n) ?_
    intro a ha
    rw [hrowH a (List.mem_range.mp ha)]
    exact scan_lengths_reverse (rowLine_length hm (List.mem_range.mp ha))
  have hdown : (((List.range n).flatMap fun c =>
      (scanLine keep (colLine mH c) n n 0).map fun q => q.2 : List Nat) :
        Multiset Nat) =
      ((List.range n).flatMap fun c =>
        (scanLine keep (colLine m c) n n 0).map fun q => q.2 : List Nat) := by
    have h1 : (((List.range n).flatMap fun c =>
        (scanLine keep (colLine mH c) n n 0).map fun q => q.2 : List Nat) :
          Multiset Nat) =
        ((List.range n).flatMap fun c =>
          (scanLine keep (colLine m (n - 1 - c)) n n 0).map fun q => q.2 :
            List Nat) := by
      refine flatMap_coe_congr (List.range n) ?_
      intro b hb
      rw [hcolH b (List.mem_range.mp hb)]
    rw [h1]
    exact flatMap_coe_rev n (fun c =>
      (scanLine keep (colLine m c) n n 0).map fun q => q.2)
  rw [hacross, hdown]

/-- Engine: length multisets of extraction agree for a vertically flipped
(row-order reversed) mask. -/
theorem lengths_maskFlipV {keep : Nat → Bool} {n : Nat} {m mV : Mask}
    (hm : MaskShape n m) (hmV : MaskShape n mV)
    (hrel : ∀ a b, a < n → b < n → maskGet mV a b = maskGet m (n - 1 - a) b) :
    (((slotsFromMask keep mV n).map Slot.length : List Nat) : Multiset Nat) =
      ((slotsFromMask keep m n).map Slot.length : List Nat) := by
  have hrowV : ∀ a, a < n → rowLine mV a = rowLine m (n - 1 - a) := by
    intro a ha
    refine ext_getD false ?_ ?_
    · rw [rowLine_length hmV ha, rowLine_length hm (by omega)]
    · intro i hi
      rw [rowLine_length hmV ha] at hi
      show lineGet (rowLine mV a) i = lineGet (rowLine m (n - 1 - a)) i
      rw [rowLine_get, rowLine_get, hrel a i ha hi]
  have hcolV : ∀ b, b < n → colLine mV b = (colLine m b).reverse := by
    intro b hb
    refine ext_getD false ?_ ?_
    · rw [colLine_length, hmV.1, List.length_reverse, colLine_length, hm.1]
    · intro i hi
      rw [colLine_length, hmV.1] at hi
      show lineGet (colLine mV b) i = lineGet (colLine m b).reverse i
      rw [colLine_get, hrel i b hi hb,
        lineGet_reverse (by rw [colLine_length, hm.1]) hi, colLine_get]
  rw [map_length_slotsFromMask, map_length_slotsFromMask]
  rw [← Multiset.coe_add, ← Multiset.coe_add]
  have hacross : (((List.range n).flatMap fun r =>
      (scanLine keep (rowLine mV r) n n 0).map fun q => q.2 : List Nat) :
        Multiset Nat) =
      ((List.range n).flatMap fun r =>
        (scanLine keep (rowLine m r) n n 0).map fun q => q.2 : List Nat) := by
    have h1 : (((List.range n).flatMap fun r =>
        (scanLine keep (rowLine mV r) n n 0).map fun q => q.2 : List Nat) :
          Multiset Nat) =
        ((List.range n).flatMap fun r =>
          (scanLine keep (rowLine m (n - 1 - r)) n n 0).map fun q => q.2 :
            List Nat) := by
      refine flatMap_coe_congr (List.range n) ?_
      intro a ha
      rw [hrowV a (List.mem_range.mp ha)]
    rw [h1]
    exact flatMap_coe_rev n (fun r =>
      (scanLine keep (rowLine m r) n n 0).map fun q => q.2)
  have hdown : (((List.range n).flatMap fun c =>
      (scanLine keep (colLine mV c) n n 0).map fun q => q.2 : List Nat) :
        Multiset Nat) =
      ((List.range n).flatMap fun c =>
        (scanLine keep (colLine m c) n n 0).map fun q => q.2 : List Nat) := by
    refine flatMap_coe_congr (List.range n) ?_
    intro b hb
    rw [hcolV b (List.mem_range.mp hb)]
    exact scan_lengths_reverse (by rw [colLine_length, hm.1])
  rw [hacross, hdown]

theorem getD_reverse {α : Type} {l : List α} {n : Nat} (hl : l.length = n)
    {i : Nat} (hi : i < n) (d : α) :
    l.reverse.getD i d = l.getD (n - 1 - i) d := by
  subst hl
  have h1 : i < l.reverse.length := by rw [List.length_reverse]; omega
  have h2 : l.length - 1 - i < l.length := by omega
  rw [List.getD_eq_getElem _ _ h1, List.getD_eq_getElem _ _ h2,
    List.getElem_reverse]

theorem getD_map_default {α β : Type} (f : α → β) (l : List α) (i : Nat)
    (d : α) : (l.map f).getD i (f d) = f (l.getD i d) := by
  by_cases h : i < l.length
  · rw [List.getD_eq_getElem (l.map f) (f d) (by
      rw [List.length_map]
      exact h), List.getElem_map, List.getD_eq_getElem l d h]
  · have h1 : l.length ≤ i := by omega
    have h2 : (l.map f).length ≤ i := by rw [List.length_map]; omega
    rw [List.getD_eq_default, List.getD_eq_default]
    · exact h1
    · exact h2

theorem maskGet_patternMask (p : List (List Char)) (r c : Nat) :
    maskGet (patternMask p) r c = ((p.getD r []).getD c ' ' == '.') := by
  unfold maskGet patternMask
  have h1 : (p.map (fun row => row.map (fun ch => ch == '.'))).getD r [] =
      (p.getD r []).map (fun ch => ch == '.') :=
    getD_map_default (fun row => row.map (fun ch => ch == '.')) p r []
  rw [h1]
  exact getD_map_default (fun ch => ch == '.') (p.getD r []) c ' '

theorem isMaxRun_of_reverse {l : List Bool} {n s L : Nat} (hl : l.length = n)
    (h : IsMaxRun l.reverse n s L) : IsMaxRun l n (n - s - L) L := by
  have h2 := isMaxRun_reverse_of (by rw [List.length_reverse]; exact hl) h
  rw [List.reverse_reverse] at h2
  exact h2

theorem maskShape_patternMask {p : List (List Char)} (hsq : IsSquare p) :
    MaskShape p.length (patternMask p) := by
  constructor
  · unfold patternMask
    rw [List.length_map]
  · intro row hrow
    unfold patternMask at hrow
    rw [List.mem_map] at hrow
    obtain ⟨r0, hr0, hrow⟩ := hrow
    rw [← hrow, List.length_map]
    exact hsq r0 hr0

theorem rot_length (p : List (List Char)) :
    (rotateClockwise p).length = p.length := by
  unfold rotateClockwise
  rw [List.length_map, List.length_range]

theorem rot_square (p : List (List Char)) : IsSquare (rotateClockwise p) := by
  intro row hrow
  unfold rotateClockwise at hrow ⊢
  rw [List.mem_map] at hrow
  obtain ⟨c0, _, hrow⟩ := hrow
  rw [← hrow, List.length_map, List.length_range, List.length_map,
    List.length_range]

theorem flipH_length (p : List (List Char)) :
    (flipHorizontal p).length = p.length := by
  unfold flipHorizontal
  rw [List.length_map]

theorem flipH_square {p : List (List Char)} (hsq : IsSquare p) :
    IsSquare (flipHorizontal p) := by
  intro row hrow
  unfold flipHorizontal at hrow ⊢
  rw [List.mem_map] at hrow
  obtain ⟨r0, hr0, hrow⟩ := hrow
  rw [← hrow, List.length_reverse, List.length_map]
  exact hsq r0 hr0

theorem flipV_length (p : List (List Char)) :
    (flipVertical p).length = p.length := by
  unfold flipVertical
  rw [List.length_reverse]

theorem flipV_square {p : List (List Char)} (hsq : IsSquare p) :
    IsSquare (flipVertical p) := by
  intro row hrow
  unfold flipVertical at hrow ⊢
  rw [List.mem_reverse] at hrow
  rw [List.length_reverse]
  exact hsq row hrow

theorem pruneMask_shape (m : Mask) (n : Nat) (slots : List Slot) :
    MaskShape n (pruneMask m n slots) := by
  constructor
  · unfold pruneMask
    rw [List.length_map, List.length_range]
  · intro row hrow
    unfold pruneMask at hrow
    rw [List.mem_map] at hrow
    obtain ⟨r0, _, hrow⟩ := hrow
    rw [← hrow, List.length_map, List.length_range]

theorem rot_entry {p : List (List Char)} {a b : Nat} (ha : a < p.length)
    (hb : b < p.length) :
    ((rotateClockwise p).getD a []).getD b ' ' =
      (p.getD (p.length - 1 - b) []).getD a ' ' := by
  unfold rotateClockwise
  rw [getD_range_map, if_pos ha, getD_range_map, if_pos hb]

theorem maskRel_rot (p : List (List Char)) :
    ∀ a b, a < p.length → b < p.length →
      maskGet (patternMask (rotateClockwise p)) a b =
        maskGet (patternMask p) (p.length - 1 - b) a := by
  intro a b ha hb
  rw [maskGet_patternMask, maskGet_patternMask, rot_entry ha hb]

theorem maskRel_flipH {p : List (List Char)} (hsq : IsSquare p) :
    ∀ a b, a < p.length → b < p.length →
      maskGet (patternMask (flipHorizontal p)) a b =
        maskGet (patternMask p) a (p.length - 1 - b) := by
  intro a b ha hb
  rw [maskGet_patternMask, maskGet_patternMask]
  have h1 : (flipHorizontal p).getD a [] = (p.getD a []).reverse := by
    unfold flipHorizontal
    exact getD_map_default List.reverse p a []
  rw [h1, getD_reverse (hsq (p.getD a []) (getD_mem_of_lt [] ha)) hb ' ']

theorem maskRel_flipV (p : List (List Char)) :
    ∀ a b, a < p.length → b < p.length →
      maskGet (patternMask (flipVertical p)) a b =
        maskGet (patternMask p) (p.length - 1 - a) b := by
  intro a b ha hb
  rw [maskGet_patternMask, maskGet_patternMask]
  have h1 : (flipVertical p).getD a [] = p.getD (p.length - 1 - a) [] := by
    unfold flipVertical
    exact getD_reverse rfl ha []
  rw [h1]

theorem slotCovers_across_iff {s : Slot} (h : s.dir = Dir.across) {r c : Nat} :
    slotCovers s r c = true ↔
      s.row = r ∧ s.col ≤ c ∧ c < s.col + s.length := by
  unfold slotCovers
  rw [List.any_eq_true]
  constructor
  · rintro ⟨i, hi, hbeq⟩
    rw [List.mem_range] at hi
    have hcell : slotCell s i = (r, c) := by simpa using hbeq
    rw [slotCell_across h] at hcell
    have h1 := congrArg Prod.fst hcell
    have h2 := congrArg Prod.snd hcell
    dsimp only at h1 h2
    exact ⟨h1, by omega, by omega⟩
  · rintro ⟨h1, h2, h3⟩
    refine ⟨c - s.col, List.mem_range.mpr (by omega), ?_⟩
    rw [slotCell_across h]
    simp only [beq_iff_eq, Prod.mk.injEq]
    exact ⟨h1, by omega⟩

theorem slotCovers_down_iff {s : Slot} (h : s.dir = Dir.down) {r c : Nat} :
    slotCovers s r c = true ↔
      s.col = c ∧ s.row ≤ r ∧ r < s.row + s.length := by
  unfold slotCovers
  rw [List.any_eq_true]
  constructor
  · rintro ⟨i, hi, hbeq⟩
    rw [List.mem_range] at hi
    have hcell : slotCell s i = (r, c) := by simpa using hbeq
    rw [slotCell_down h] at hcell
    have h1 := congrArg Prod.fst hcell
    have h2 := congrArg Prod.snd hcell
    dsimp only at h1 h2
    exact ⟨h2, by omega, by omega⟩
  · rintro ⟨h1, h2, h3⟩
    refine ⟨r - s.row, List.mem_range.mpr (by omega), ?_⟩
    rw [slotCell_down h]
    simp only [beq_iff_eq, Prod.mk.injEq]
    exact ⟨by omega, h1⟩

theorem coveredBy_eq_true_iff {slots : List Slot} {r c : Nat} :
    coveredBy slots r c = true ↔ ∃ s ∈ slots, slotCovers s r c = true := by
  unfold coveredBy
  rw [List.any_eq_true]

theorem rowLine_maskRot {n : Nat} {m mR : Mask} (hm : MaskShape n m)
    (hmR : MaskShape n mR)
    (hrel : ∀ a b, a < n → b < n → maskGet mR a b = maskGet m (n - 1 - b) a)
    {a : Nat} (ha : a < n) : rowLine mR a = (colLine m a).reverse := by
  refine ext_getD false ?_ ?_
  · rw [rowLine_length hmR ha, List.length_reverse, colLine_length, hm.1]
  · intro i hi
    rw [rowLine_length hmR ha] at hi
    show lineGet (rowLine mR a) i = lineGet (colLine m a).reverse i
    rw [rowLine_get, hrel a i ha hi,
      lineGet_reverse (by rw [colLine_length, hm.1]) hi, colLine_get]

theorem colLine_maskRot {n : Nat} {m mR : Mask} (hm : MaskShape n m)
    (hmR : MaskShape n mR)
    (hrel : ∀ a b, a < n → b < n → maskGet mR a b = maskGet m (n - 1 - b) a)
    {b : Nat} (hb : b < n) : colLine mR b = rowLine m (n - 1 - b) := by
  refine ext_getD false ?_ ?_
  · rw [colLine_length, hmR.1, rowLine_length hm (by omega)]
  · intro i hi
    rw [colLine_length, hmR.1] at hi
    show lineGet (colLine mR b) i = lineGet (rowLine m (n - 1 - b)) i
    rw [colLine_get, rowLine_get, hrel i b hi hb]

theorem covered_maskRot {keep : Nat → Bool} {n : Nat} {m mR : Mask}
    (hm : MaskShape n m) (hmR : MaskShape n mR)
    (hrel : ∀ a b, a < n → b < n → maskGet mR a b = maskGet m (n - 1 - b) a)
    {a b : Nat} (ha : a < n) (hb : b < n) :
    coveredBy (slotsFromMask keep mR n) a b =
      coveredBy (slotsFromMask keep m n) (n - 1 - b) a := by
  have hforward : coveredBy (slotsFromMask keep mR n) a b = true →
      coveredBy (slotsFromMask keep m n) (n - 1 - b) a = true := by
    intro hc
    rw [coveredBy_eq_true_iff] at hc ⊢
    obtain ⟨s, hs, hcov⟩ := hc
    have hmem := mem_slotsFromMask.mp hs
    obtain ⟨d, r0, c0, L0⟩ := s
    cases d with
    | across =>
      rcases hmem.2 with ⟨_, hrow, hmr⟩ | ⟨hdir, _, _⟩
      swap
      · exact absurd hdir (fun hx => Dir.noConfusion hx)
      dsimp only at hrow hmr
      rw [rowLine_maskRot hm hmR hrel hrow] at hmr
      have hbnd : c0 + L0 ≤ n := hmr.2.1
      have hmr2 := isMaxRun_of_reverse (by rw [colLine_length, hm.1]) hmr
      obtain ⟨hr0, hc1, hc2⟩ := (slotCovers_across_iff rfl).mp hcov
      dsimp only at hr0 hc1 hc2
      refine ⟨⟨Dir.down, n - c0 - L0, r0, L0⟩, ?_, ?_⟩
      · rw [mem_slotsFromMask]
        exact ⟨hmem.1, Or.inr ⟨rfl, hrow, hmr2⟩⟩
      · rw [slotCovers_down_iff rfl]
        dsimp only
        refine ⟨hr0, by omega, by omega⟩
    | down =>
      rcases hmem.2 with ⟨hdir, _, _⟩ | ⟨_, hcol, hmr⟩
      · exact absurd hdir (fun hx => Dir.noConfusion hx)
      dsimp only at hcol hmr
      rw [colLine_maskRot hm hmR hrel hcol] at hmr
      obtain ⟨hc0, hr1, hr2⟩ := (slotCovers_down_iff rfl).mp hcov
      dsimp only at hc0 hr1 hr2
      refine ⟨⟨Dir.across, n - 1 - c0, r0, L0⟩, ?_, ?_⟩
      · rw [mem_slotsFromMask]
        exact ⟨hmem.1, Or.inl ⟨rfl, show n - 1 - c0 < n by omega, hmr⟩⟩
      · rw [slotCovers_across_iff rfl]
        dsimp only
        refine ⟨by omega, by omega, by omega⟩
  have hback : coveredBy (slotsFromMask keep m n) (n - 1 - b) a = true →
      coveredBy (slotsFromMask keep mR n) a b = true := by
    intro hc
    rw [coveredBy_eq_true_iff] at hc ⊢
    obtain ⟨t, ht, hcov⟩ := hc
    have hmem := mem_slotsFromMask.mp ht
    obtain ⟨d, r0, c0, L0⟩ := t
    cases d with
    | across =>
      rcases hmem.2 with ⟨_, hrow, hmr⟩ | ⟨hdir, _, _⟩
      swap
      · exact absurd hdir (fun hx => Dir.noConfusion hx)
      dsimp only at hrow hmr
      obtain ⟨hr0, hc1, hc2⟩ := (slotCovers_across_iff rfl).mp hcov
      dsimp only at hr0 hc1 hc2
      refine ⟨⟨Dir.down, c0, b, L0⟩, ?_, ?_⟩
      · rw [mem_slotsFromMask]
        refine ⟨hmem.1, Or.inr ⟨rfl, hb, ?_⟩⟩
        dsimp only
        rw [colLine_maskRot hm hmR hrel hb]
        rw [show n - 1 - b = r0 from by omega]
        exact hmr
      · rw [slotCovers_down_iff rfl]
        dsimp only
        exact ⟨rfl, by omega, by omega⟩
    | down =>
      rcases hmem.2 with ⟨hdir, _, _⟩ | ⟨_, hcol, hmr⟩
      · exact absurd hdir (fun hx => Dir.noConfusion hx)
      dsimp only at hcol hmr
      have hbnd : r0 + L0 ≤ n := hmr.2.1
      obtain ⟨hc0, hr1, hr2⟩ := (slotCovers_down_iff rfl).mp hcov
      dsimp only at hc0 hr1 hr2
      refine ⟨⟨Dir.across, a, n - r0 - L0, L0⟩, ?_, ?_⟩
      · rw [mem_slotsFromMask]
        refine ⟨hmem.1, Or.inl ⟨rfl, ha, ?_⟩⟩
        dsimp only
        rw [rowLine_maskRot hm hmR hrel ha]
        refine isMaxRun_reverse_of (by rw [colLine_length, hm.1]) ?_
        rw [hc0] at hmr
        exact hmr
      · rw [slotCovers_across_iff rfl]
        dsimp only
        exact ⟨rfl, by omega, by omega⟩
  cases hx : coveredBy (slotsFromMask keep mR n) a b with
  | false =>
    cases hy : coveredBy (slotsFromMask keep m n) (n - 1 - b) a with
    | false => rfl
    | true =>
      have hz := hback hy
      rw [hx] at hz
      exact hz
  | true => exact (hforward hx).symm

theorem rowLine_maskFlipH {n : Nat} {m mH : Mask} (hm : MaskShape n m)
    (hmH : MaskShape n mH)
    (hrel : ∀ a b, a < n → b < n → maskGet mH a b = maskGet m a (n - 1 - b))
    {a : Nat} (ha : a < n) : rowLine mH a = (rowLine m a).reverse := by
  refine ext_getD false ?_ ?_
  · rw [rowLine_length hmH ha, List.length_reverse, rowLine_length hm ha]
  · intro i hi
    rw [rowLine_length hmH ha] at hi
    show lineGet (rowLine mH a) i = lineGet (rowLine m a).reverse i
    rw [rowLine_get, hrel a i ha hi,
      lineGet_reverse (rowLine_length hm ha) hi, rowLine_get]

theorem colLine_maskFlipH {n : Nat} {m mH : Mask} (hm : MaskShape n m)
    (hmH : MaskShape n mH)
    (hrel : ∀ a b, a < n → b < n → maskGet mH a b = maskGet m a (n - 1 - b))
    {b : Nat} (hb : b < n) : colLine mH b = colLine m (n - 1 - b) := by
  refine ext_getD false ?_ ?_
  · rw [colLine_length, hmH.1, colLine_length, hm.1]
  · intro i hi
    rw [colLine_length, hmH.1] at hi
    show lineGet (colLine mH b) i = lineGet (colLine m (n - 1 - b)) i
    rw [colLine_get, colLine_get, hrel i b hi hb]

theorem covered_maskFlipH {keep : Nat → Bool} {n : Nat} {m mH : Mask}
    (hm : MaskShape n m) (hmH : MaskShape n mH)
    (hrel : ∀ a b, a < n → b < n → maskGet mH a b = maskGet m a (n - 1 - b))
    {a b : Nat} (ha : a < n) (hb : b < n) :
    coveredBy (slotsFromMask keep mH n) a b =
      coveredBy (slotsFromMask keep m n) a (n - 1 - b) := by
  have hforward : coveredBy (slotsFromMask keep mH n) a b = true →
      coveredBy (slotsFromMask keep m n) a (n - 1 - b) = true := by
    intro hc
    rw [coveredBy_eq_true_iff] at hc ⊢
    obtain ⟨s, hs, hcov⟩ := hc
    have hmem := mem_slotsFromMask.mp hs
    obtain ⟨d, r0, c0, L0⟩ := s
    cases d with
    | across =>
      rcases hmem.2 with ⟨_, hrow, hmr⟩ | ⟨hdir, _, _⟩
      swap
      · exact absurd hdir (fun hx => Dir.noConfusion hx)
      dsimp only at hrow hmr
      rw [rowLine_maskFlipH hm hmH hrel hrow] at hmr
      have hbnd : c0 + L0 ≤ n := hmr.2.1
      have hmr2 := isMaxRun_of_reverse (rowLine_length hm hrow) hmr
      obtain ⟨hr0, hc1, hc2⟩ := (slotCovers_across_iff rfl).mp hcov
      dsimp only at hr0 hc1 hc2
      refine ⟨⟨Dir.across, r0, n - c0 - L0, L0⟩, ?_, ?_⟩
      · rw [mem_slotsFromMask]
        exact ⟨hmem.1, Or.inl ⟨rfl, hrow, hmr2⟩⟩
      · rw [slotCovers_across_iff rfl]
        dsimp only
        exact ⟨hr0, by omega, by omega⟩
    | down =>
      rcases hmem.2 with ⟨hdir, _, _⟩ | ⟨_, hcol, hmr⟩
      · exact absurd hdir (fun hx => Dir.noConfusion hx)
      dsimp only at hcol hmr
      rw [colLine_maskFlipH hm hmH hrel hcol] at hmr
      obtain ⟨hc0, hr1, hr2⟩ := (slotCovers_down_iff rfl).mp hcov
      dsimp only at hc0 hr1 hr2
      refine ⟨⟨Dir.down, r0, n - 1 - c0, L0⟩, ?_, ?_⟩
      · rw [mem_slotsFromMask]
        exact ⟨hmem.1, Or.inr ⟨rfl, show n - 1 - c0 < n by omega, hmr⟩⟩
      · rw [slotCovers_down_iff rfl]
        dsimp only
        exact ⟨by omega, by omega, by omega⟩
  have hback : coveredBy (slotsFromMask keep m n) a (n - 1 - b) = true →
      coveredBy (slotsFromMask keep mH n) a b = true := by
    intro hc
    rw [coveredBy_eq_true_iff] at hc ⊢
    obtain ⟨t, ht, hcov⟩ := hc
    have hmem := mem_slotsFromMask.mp ht
    obtain ⟨d, r0, c0, L0⟩ := t
    cases d with
    | across =>
      rcases hmem.2 with ⟨_, hrow, hmr⟩ | ⟨hdir, _, _⟩
      swap
      · exact absurd hdir (fun hx => Dir.noConfusion hx)
      dsimp only at hrow hmr
      have hbnd : c0 + L0 ≤ n := hmr.2.1
      obtain ⟨hr0, hc1, hc2⟩ := (slotCovers_across_iff rfl).mp hcov
      dsimp only at hr0 hc1 hc2
      refine ⟨⟨Dir.across, a, n - c0 - L0, L0⟩, ?_, ?_⟩
      · rw [mem_slotsFromMask]
        refine ⟨hmem.1, Or.inl ⟨rfl, ha, ?_⟩⟩
        dsimp only
        rw [rowLine_maskFlipH hm hmH hrel ha]
        refine isMaxRun_reverse_of (rowLine_length hm ha) ?_
        rw [hr0] at hmr
        exact hmr
      · rw [slotCovers_across_iff rfl]
        dsimp only
        exact ⟨rfl, by omega, by omega⟩
    | down =>
      rcases hmem.2 with ⟨hdir, _, _⟩ | ⟨_, hcol, hmr⟩
      · exact absurd hdir (fun hx => Dir.noConfusion hx)
      dsimp only at hcol hmr
      obtain ⟨hc0, hr1, hr2⟩ := (slotCovers_down_iff rfl).mp hcov
      dsimp only at hc0 hr1 hr2
      refine ⟨⟨Dir.down, r0, b, L0⟩, ?_, ?_⟩
      · rw [mem_slotsFromMask]
        refine ⟨hmem.1, Or.inr ⟨rfl, hb, ?_⟩⟩
        dsimp only
        rw [colLine_maskFlipH hm hmH hrel hb]
        rw [show n - 1 - b = c0 from by omega]
        exact hmr
      · rw [slotCovers_down_iff rfl]
        dsimp only
        exact ⟨rfl, by omega, by omega⟩
  cases hx : coveredBy (slotsFromMask keep mH n) a b with
  | false =>
    cases hy : coveredBy (slotsFromMask keep m n) a (n - 1 - b) with
    | false => rfl
    | true =>
      have hz := hback hy
      rw [hx] at hz
      exact hz
  | true => exact (hforward hx).symm

theorem rowLine_maskFlipV {n : Nat} {m mV : Mask} (hm : MaskShape n m)
    (hmV : MaskShape n mV)
    (hrel : ∀ a b, a < n → b < n → maskGet mV a b = maskGet m (n - 1 - a) b)
    {a : Nat} (ha : a < n) : rowLine mV a = rowLine m (n - 1 - a) := by
  refine ext_getD false ?_ ?_
  · rw [rowLine_length hmV ha, rowLine_length hm (by omega)]
  · intro i hi
    rw [rowLine_length hmV ha] at hi
    show lineGet (rowLine mV a) i = lineGet (rowLine m (n - 1 - a)) i
    rw [rowLine_get, rowLine_get, hrel a i ha hi]

theorem colLine_maskFlipV {n : Nat} {m mV : Mask} (hm : MaskShape n m)
    (hmV : MaskShape n mV)
    (hrel : ∀ a b, a < n → b < n → maskGet mV a b = maskGet m (n - 1 - a) b)
    {b : Nat} (hb : b < n) : colLine mV b = (colLine m b).reverse := by
  refine ext_getD false ?_ ?_
  · rw [colLine_length, hmV.1, List.length_reverse, colLine_length, hm.1]
  · intro i hi
    rw [colLine_length, hmV.1] at hi
    show lineGet (colLine mV b) i = lineGet (colLine m b).reverse i
    rw [colLine_get, hrel i b hi hb,
      lineGet_reverse (by rw [colLine_length, hm.1]) hi, colLine_get]

theorem covered_maskFlipV {keep : Nat → Bool} {n : Nat} {m mV : Mask}
    (hm : MaskShape n m) (hmV : MaskShape n mV)
    (hrel : ∀ a b, a < n → b < n → maskGet mV a b = maskGet m (n - 1 - a) b)
    {a b : Nat} (ha : a < n) (hb : b < n) :
    coveredBy (slotsFromMask keep mV n) a b =
      coveredBy (slotsFromMask keep m n) (n - 1 - a) b := by
  have hforward : coveredBy (slotsFromMask keep mV n) a b = true →
      coveredBy (slotsFromMask keep m n) (n - 1 - a) b = true := by
    intro hc
    rw [coveredBy_eq_true_iff] at hc ⊢
    obtain ⟨s, hs, hcov⟩ := hc
    have hmem := mem_slotsFromMask.mp hs
    obtain ⟨d, r0, c0, L0⟩ := s
    cases d with
    | across =>
      rcases hmem.2 with ⟨_, hrow, hmr⟩ | ⟨hdir, _, _⟩
      swap
      · exact absurd hdir (fun hx => Dir.noConfusion hx)
      dsimp only at hrow hmr
      rw [rowLine_maskFlipV hm hmV hrel hrow] at hmr
      obtain ⟨hr0, hc1, hc2⟩ := (slotCovers_across_iff rfl).mp hcov
      dsimp only at hr0 hc1 hc2
      refine ⟨⟨Dir.across, n - 1 - r0, c0, L0⟩, ?_, ?_⟩
      · rw [mem_slotsFromMask]
        exact ⟨hmem.1, Or.inl ⟨rfl, show n - 1 - r0 < n by omega, hmr⟩⟩
      · rw [slotCovers_across_iff rfl]
        dsimp only
        exact ⟨by omega, by omega, by omega⟩
    | down =>
      rcases hmem.2 with ⟨hdir, _, _⟩ | ⟨_, hcol, hmr⟩
      · exact absurd hdir (fun hx => Dir.noConfusion hx)
      dsimp only at hcol hmr
      rw [colLine_maskFlipV hm hmV hrel hcol] at hmr
      have hbnd : r0 + L0 ≤ n := hmr.2.1
      have hmr2 := isMaxRun_of_reverse (by rw [colLine_length, hm.1]) hmr
      obtain ⟨hc0, hr1, hr2⟩ := (slotCovers_down_iff rfl).mp hcov
      dsimp only at hc0 hr1 hr2
      refine ⟨⟨Dir.down, n - r0 - L0, c0, L0⟩, ?_, ?_⟩
      · rw [mem_slotsFromMask]
        exact ⟨hmem.1, Or.inr ⟨rfl, hcol, hmr2⟩⟩
      · rw [slotCovers_down_iff rfl]
        dsimp only
        exact ⟨hc0, by omega, by omega⟩
  have hback : coveredBy (slotsFromMask keep m n) (n - 1 - a) b = true →
      coveredBy (slotsFromMask keep mV n) a b = true := by
    intro hc
    rw [coveredBy_eq_true_iff] at hc ⊢
    obtain ⟨t, ht, hcov⟩ := hc
    have hmem := mem_slotsFromMask.mp ht
    obtain ⟨d, r0, c0, L0⟩ := t
    cases d with
    | across =>
      rcases hmem.2 with ⟨_, hrow, hmr⟩ | ⟨hdir, _, _⟩
      swap
      · exact absurd hdir (fun hx => Dir.noConfusion hx)
      dsimp only at hrow hmr
      obtain ⟨hr0, hc1, hc2⟩ := (slotCovers_across_iff rfl).mp hcov
      dsimp only at hr0 hc1 hc2
      refine ⟨⟨Dir.across, a, c0, L0⟩, ?_, ?_⟩
      · rw [mem_slotsFromMask]
        refine ⟨hmem.1, Or.inl ⟨rfl, ha, ?_⟩⟩
        dsimp only
        rw [rowLine_maskFlipV hm hmV hrel ha]
        rw [show n - 1 - a = r0 from by omega]
        exact hmr
      · rw [slotCovers_across_iff rfl]
        dsimp only
        exact ⟨rfl, by omega, by omega⟩
    | down =>
      rcases hmem.2 with ⟨hdir, _, _⟩ | ⟨_, hcol, hmr⟩
      · exact absurd hdir (fun hx => Dir.noConfusion hx)
      dsimp only at hcol hmr
      have hbnd : r0 + L0 ≤ n := hmr.2.1
      obtain ⟨hc0, hr1, hr2⟩ := (slotCovers_down_iff rfl).mp hcov
      dsimp only at hc0 hr1 hr2
      refine ⟨⟨Dir.down, n - r0 - L0, c0, L0⟩, ?_, ?_⟩
      · rw [mem_slotsFromMask]
        refine ⟨hmem.1, Or.inr ⟨rfl, hcol, ?_⟩⟩
        dsimp only
        rw [colLine_maskFlipV hm hmV hrel hcol]
        exact isMaxRun_reverse_of (by rw [colLine_length, hm.1]) hmr
      · rw [slotCovers_down_iff rfl]
        dsimp only
        exact ⟨hc0, by omega, by omega⟩
  cases hx : coveredBy (slotsFromMask keep mV n) a b with
  | false =>
    cases hy : coveredBy (slotsFromMask keep m n) (n - 1 - a) b with
    | false => rfl
    | true =>
      have hz := hback hy
      rw [hx] at hz
      exact hz
  | true => exact (hforward hx).symm

theorem pruneRel_rot {keep : Nat → Bool} {n : Nat} {m mR : Mask}
    (hm : MaskShape n m) (hmR : MaskShape n mR)
    (hrel : ∀ a b, a < n → b < n → maskGet mR a b = maskGet m (n - 1 - b) a) :
    ∀ a b, a < n → b < n →
      maskGet (pruneMask mR n (slotsFromMask keep mR n)) a b =
        maskGet (pruneMask m n (slotsFromMask keep m n)) (n - 1 - b) a := by
  intro a b ha hb
  rw [maskGet_pruneMask, maskGet_pruneMask, if_pos ⟨ha, hb⟩,
    if_pos ⟨show n - 1 - b < n by omega, ha⟩, hrel a b ha hb,
    covered_maskRot hm hmR hrel ha hb]

theorem pruneRel_flipH {keep : Nat → Bool} {n : Nat} {m mH : Mask}
    (hm : MaskShape n m) (hmH : MaskShape n mH)
    (hrel : ∀ a b, a < n → b < n → maskGet mH a b = maskGet m a (n - 1 - b)) :
    ∀ a b, a < n → b < n →
      maskGet (pruneMask mH n (slotsFromMask keep mH n)) a b =
        maskGet (pruneMask m n (slotsFromMask keep m n)) a (n - 1 - b) := by
  intro a b ha hb
  rw [maskGet_pruneMask, maskGet_pruneMask, if_pos ⟨ha, hb⟩,
    if_pos ⟨ha, show n - 1 - b < n by omega⟩, hrel a b ha hb,
    covered_maskFlipH hm hmH hrel ha hb]

theorem pruneRel_flipV {keep : Nat → Bool} {n : Nat} {m mV : Mask}
    (hm : MaskShape n m) (hmV : MaskShape n mV)
    (hrel : ∀ a b, a < n → b < n → maskGet mV a b = maskGet m (n - 1 - a) b) :
    ∀ a b, a < n → b < n →
      maskGet (pruneMask mV n (slotsFromMask keep mV n)) a b =
        maskGet (pruneMask m n (slotsFromMask keep m n)) (n - 1 - a) b := by
  intro a b ha hb
  rw [maskGet_pruneMask, maskGet_pruneMask, if_pos ⟨ha, hb⟩,
    if_pos ⟨show n - 1 - a < n by omega, hb⟩, hrel a b ha hb,
    covered_maskFlipV hm hmV hrel ha hb]

theorem pattern_ext {p q : List (List Char)} (hl : p.length = q.length)
    (hrow : ∀ r, r < p.length → (p.getD r []).length = (q.getD r []).length)
    (hent : ∀ r c, r < p.length → c < (p.getD r []).length →
      (p.getD r []).getD c ' ' = (q.getD r []).getD c ' ') : p = q := by
  refine ext_getD [] hl ?_
  intro r hr
  exact ext_getD ' ' (hrow r hr) (fun c hc => hent r c hr hc)

theorem rot_row_length {q : List (List Char)} {r : Nat} (hr : r < q.length) :
    ((rotateClockwise q).getD r []).length = q.length := by
  unfold rotateClockwise
  rw [getD_range_map, if_pos hr, List.length_map, List.length_range]

theorem rot4_id {p : List (List Char)} (hsq : IsSquare p) :
    rotateClockwise (rotateClockwise (rotateClockwise (rotateClockwise p)))
      = p := by
  have h1 := rot_length p
  have h2 : (rotateClockwise (rotateClockwise p)).length = p.length := by
    rw [rot_length, h1]
  have h3 : (rotateClockwise (rotateClockwise (rotateClockwise p))).length
      = p.length := by
    rw [rot_length, h2]
  have h4 : (rotateClockwise (rotateClockwise (rotateClockwise
      (rotateClockwise p)))).length = p.length := by
    rw [rot_length, h3]
  refine pattern_ext h4 ?_ ?_
  · intro r hr
    rw [h4] at hr
    rw [rot_row_length (by rw [h3]; exact hr), h3,
      hsq (p.getD r []) (getD_mem_of_lt [] hr)]
  · intro r c hr hc
    rw [h4] at hr
    rw [rot_row_length (by rw [h3]; exact hr), h3] at hc
    rw [@rot_entry (rotateClockwise (rotateClockwise (rotateClockwise p)))
      r c (by rw [h3]; exact hr) (by rw [h3]; exact hc), h3]
    rw [@rot_entry (rotateClockwise (rotateClockwise p))
      (p.length - 1 - c) r (by rw [h2]; omega) (by rw [h2]; exact hr), h2]
    rw [@rot_entry (rotateClockwise p)
      (p.length - 1 - r) (p.length - 1 - c) (by rw [h1]; omega)
      (by rw [h1]; omega), h1]
    rw [show p.length - 1 - (p.length - 1 - c) = c from by omega]
    rw [@rot_entry p c (p.length - 1 - r) hc (by omega)]
    rw [show p.length - 1 - (p.length - 1 - r) = r from by omega]

theorem flipH2_id (p : List (List Char)) :
    flipHorizontal (flipHorizontal p) = p := by
  unfold flipHorizontal
  rw [List.map_map]
  have hcomp : (List.reverse ∘ List.reverse : List Char → List Char) = id := by
    funext l
    exact List.reverse_reverse l
  rw [hcomp, List.map_id]

theorem buildSlots6_snd (q : List (List Char)) :
    (buildSlots6 q).2 = slotsFromMask keep55
      (pruneMask (patternMask q) q.length
        (slotsFromMask keep55 (patternMask q) q.length)) q.length := rfl

theorem count_of_lengths {l1 l2 : List Slot}
    (h : ((l1.map Slot.length : List Nat) : Multiset Nat) =
      (l2.map Slot.length : List Nat)) :
    l1.length = l2.length := by
  have hp := Multiset.coe_eq_coe.mp h
  have hl := hp.length_eq
  rw [List.length_map, List.length_map] at hl
  exact hl

theorem buildSlots6_lengths_rot {p : List (List Char)} (hsq : IsSquare p) :
    (((buildSlots6 (rotateClockwise p)).2.map Slot.length : List Nat) :
        Multiset Nat) =
      ((buildSlots6 p).2.map Slot.length : List Nat) := by
  have hn := rot_length p
  have hm : MaskShape p.length (patternMask p) := maskShape_patternMask hsq
  have hmR : MaskShape p.length (patternMask (rotateClockwise p)) := by
    have hx := maskShape_patternMask (rot_square p)
    rw [hn] at hx
    exact hx
  rw [buildSlots6_snd, buildSlots6_snd, hn]
  exact lengths_maskRot (pruneMask_shape _ _ _) (pruneMask_shape _ _ _)
    (pruneRel_rot hm hmR (maskRel_rot p))

theorem buildSlots6_lengths_flipH {p : List (List Char)} (hsq : IsSquare p) :
    (((buildSlots6 (flipHorizontal p)).2.map Slot.length : List Nat) :
        Multiset Nat) =
      ((buildSlots6 p).2.map Slot.length : List Nat) := by
  have hn := flipH_length p
  have hm : MaskShape p.length (patternMask p) := maskShape_patternMask hsq
  have hmH : MaskShape p.length (patternMask (flipHorizontal p)) := by
    have hx := maskShape_patternMask (flipH_square hsq)
    rw [hn] at hx
    exact hx
  rw [buildSlots6_snd, buildSlots6_snd, hn]
  exact lengths_maskFlipH (pruneMask_shape _ _ _) (pruneMask_shape _ _ _)
    (pruneRel_flipH hm hmH (maskRel_flipH hsq))

theorem buildSlots6_lengths_flipV {p : List (List Char)} (hsq : IsSquare p) :
    (((buildSlots6 (flipVertical p)).2.map Slot.length : List Nat) :
        Multiset Nat) =
      ((buildSlots6 p).2.map Slot.length : List Nat) := by
  have hn := flipV_length p
  have hm : MaskShape p.length (patternMask p) := maskShape_patternMask hsq
  have hmV : MaskShape p.length (patternMask (flipVertical p)) := by
    have hx := maskShape_patternMask (flipV_square hsq)
    rw [hn] at hx
    exact hx
  rw [buildSlots6_snd, buildSlots6_snd, hn]
  exact lengths_maskFlipV (pruneMask_shape _ _ _) (pruneMask_shape _ _ _)
    (pruneRel_flipV hm hmV (maskRel_flipV p))

/-- C8: for every square pattern, four clockwise rotations are the identity,
two horizontal flips are the identity, and each single transform (rotation,
horizontal flip, vertical flip) preserves the multiset of slot lengths — and
hence the sorted length list and the slot count — produced by the 6x6
`build_slots` extraction. -/
theorem C8_transforms {p : List (List Char)} (hsq : IsSquare p) :
    rotateClockwise (rotateClockwise (rotateClockwise (rotateClockwise p)))
      = p ∧
    flipHorizontal (flipHorizontal p) = p ∧
    ((((buildSlots6 (rotateClockwise p)).2.map Slot.length : List Nat) :
        Multiset Nat) =
        ((buildSlots6 p).2.map Slot.length : List Nat) ∧
      (buildSlots6 (rotateClockwise p)).2.length = (buildSlots6 p).2.length) ∧
    ((((buildSlots6 (flipHorizontal p)).2.map Slot.length : List Nat) :
        Multiset Nat) =
        ((buildSlots6 p).2.map Slot.length : List Nat) ∧
      (buildSlots6 (flipHorizontal p)).2.length = (buildSlots6 p).2.length) ∧
    ((((buildSlots6 (flipVertical p)).2.map Slot.length : List Nat) :
        Multiset Nat) =
        ((buildSlots6 p).2.map Slot.length : List Nat) ∧
      (buildSlots6 (flipVertical p)).2.length = (buildSlots6 p).2.length) := by
  refine ⟨rot4_id hsq, flipH2_id p, ⟨buildSlots6_lengths_rot hsq,
    count_of_lengths (buildSlots6_lengths_rot hsq)⟩,
    ⟨buildSlots6_lengths_flipH hsq,
    count_of_lengths (buildSlots6_lengths_flipH hsq)⟩,
    ⟨buildSlots6_lengths_flipV hsq,
    count_of_lengths (buildSlots6_lengths_flipV hsq)⟩⟩

/-- C8 witness: on the square 3x3 fixture pattern, four rotations restore
the pattern and a rotation preserves the extracted slot-length multiset and
slot count. -/
theorem C8_transforms_witness :
    IsSquare (maskToPattern maskW) ∧
    rotateClockwise (rotateClockwise (rotateClockwise (rotateClockwise
      (maskToPattern maskW)))) = maskToPattern maskW ∧
    flipHorizontal (flipHorizontal (maskToPattern maskW)) =
      maskToPattern maskW ∧
    (((buildSlots6 (rotateClockwise (maskToPattern maskW))).2.map
        Slot.length : List Nat) : Multiset Nat) =
      ((buildSlots6 (maskToPattern maskW)).2.map Slot.length : List Nat) ∧
    (buildSlots6 (rotateClockwise (maskToPattern maskW))).2.length =
      (buildSlots6 (maskToPattern maskW)).2.length := by
  refine ⟨by decide, ?_, ?_, ?_, ?_⟩
  · exact (C8_transforms (by decide)).1
  · exact (C8_transforms (by decide)).2.1
  · exact (C8_transforms (by decide)).2.2.1.1
  · exact (C8_transforms (by decide)).2.2.1.2

end Crossword
